import Mathlib

/-!
# AI Text Analyzer: the analysis engine (`src/js/ai-engine.js`)

A shallow embedding of the class `AIEngine` and the properties of its methods.

## Conventions of the embedding

* A JavaScript string is the list of its UTF-16 code units (`JSString`), each a natural number.
  The regular expressions of the engine carry no `u` flag, so they read a string unit by unit;
  `str` turns a Lean string literal into that list.
* A JavaScript number is the rational it denotes.  Counts, and the sums, differences and small
  multiples of counts, are integers below `2^53`, which a double holds exactly.  A division, a
  product with a fraction and a sum or difference of fractions are followed by `roundDouble`,
  the rounding of IEEE 754 to the nearest double, and a decimal literal of the source is the
  double nearest to it.  The exponent range of a double is not modelled: overflow and underflow
  need counts beyond `2^1000`.
* A thrown `Error` is the `Except.error` of its message.
-/

namespace AIEngine

/-! ## Strings -/

/-- A JavaScript string: its UTF-16 code units in order. -/
abbrev JSString := List Nat

/-- The UTF-16 code units of one Unicode scalar value. -/
def utf16 (c : Char) : List Nat :=
  if c.toNat < 65536 then [c.toNat]
  else [55296 + (c.toNat - 65536) / 1024, 56320 + (c.toNat - 65536) % 1024]

/-- The JavaScript string written as a Lean string literal. -/
def str (s : String) : JSString := s.toList.flatMap utf16

/-- Membership in the class `\w` of a regular expression without flags: `[A-Za-z0-9_]`. -/
def isWordChar (c : Nat) : Bool :=
  (48 ≤ c && c ≤ 57) || (65 ≤ c && c ≤ 90) || c == 95 || (97 ≤ c && c ≤ 122)

/-- What `String.prototype.toLowerCase` does to one code unit, as far as word characters go:
`A`..`Z` become `a`..`z`, the Kelvin sign U+212A becomes `k`, and U+0130 becomes `i` followed by
the combining dot U+0307.  No other code unit has a lower-case form that contains an ASCII
character, so every other unit is a separator of `\w+` before and after the call and is left in
place. -/
def lowerUnit (c : Nat) : List Nat :=
  if 65 ≤ c ∧ c ≤ 90 then [c + 32]
  else if c = 8490 then [107]
  else if c = 304 then [105, 775]
  else [c]

/-- The method `text.toLowerCase()`. -/
def toLowerCase (text : JSString) : JSString := text.flatMap lowerUnit

/-- White space and line terminators of ECMAScript, the code units `trim` removes. -/
def isWhiteSpace (c : Nat) : Bool :=
  (9 ≤ c && c ≤ 13) || c == 32 || c == 160 || c == 5760 || (8192 ≤ c && c ≤ 8202) ||
    c == 8232 || c == 8233 || c == 8239 || c == 8287 || c == 12288 || c == 65279

/-- The method `text.trim()`. -/
def trim (text : JSString) : JSString :=
  ((text.dropWhile isWhiteSpace).reverse.dropWhile isWhiteSpace).reverse

/-! ## Tokenizer -/

/-- The scan behind `matchWords`: `cur` is the run of word characters read so far, reversed. -/
def matchWordsAux : List Nat → List Nat → List JSString
  | cur, [] => if cur = [] then [] else [cur.reverse]
  | cur, c :: cs =>
    if isWordChar c then matchWordsAux (c :: cur) cs
    else if cur = [] then matchWordsAux [] cs
    else cur.reverse :: matchWordsAux [] cs

/-- The expression `text.match(/\b\w+\b/g) || []`: the maximal runs of word characters, in
order. -/
def matchWords (text : JSString) : List JSString := matchWordsAux [] text

/-- Membership in the class `[.!?]`. -/
def isTerminator (c : Nat) : Bool := c == 46 || c == 33 || c == 63

/-- The scan behind `matchSentences`: `body` is the run of non-terminators of the match under
way and `ends` the run of terminators read after it, both reversed.  A terminator met while
`body` is empty starts no match and is skipped; a `body` that reaches the end of the text without
a terminator is no match. -/
def matchSentencesAux : List Nat → List Nat → List Nat → List JSString
  | body, ends, [] => if ends = [] then [] else [body.reverse ++ ends.reverse]
  | body, ends, c :: cs =>
    if isTerminator c then
      if body = [] then matchSentencesAux [] [] cs
      else matchSentencesAux body (c :: ends) cs
    else if ends = [] then matchSentencesAux (c :: body) [] cs
    else (body.reverse ++ ends.reverse) :: matchSentencesAux [c] [] cs

/-- The matches of `text.match(/[^.!?]+[.!?]+/g)`, the empty list standing for `null`. -/
def matchSentences (text : JSString) : List JSString := matchSentencesAux [] [] text

/-! ## Lexicons (the constructor of `AIEngine`) -/

/-- The array `this.positiveWords`. -/
def positiveWords : List JSString :=
  ["good", "great", "excellent", "amazing", "wonderful", "fantastic", "perfect", "love", "loved",
    "best", "beautiful", "awesome", "outstanding", "brilliant", "superb", "incredible",
    "fabulous", "terrific", "delightful", "impressive", "exceptional", "marvelous", "phenomenal",
    "magnificent", "splendid", "happy", "joy", "pleased", "satisfied", "enjoy", "enjoyed", "like",
    "liked", "recommend", "positive", "success", "successful", "advantage", "beneficial",
    "improve", "improved", "better", "superior"].map str

/-- The array `this.negativeWords`. -/
def negativeWords : List JSString :=
  ["bad", "terrible", "horrible", "awful", "poor", "worst", "hate", "hated", "disappointing",
    "disappointed", "useless", "waste", "boring", "sucks", "pathetic", "disgusting", "annoying",
    "frustrating", "frustrated", "angry", "sad", "unhappy", "dislike", "disliked", "negative",
    "problem", "issue", "fail", "failed", "failure", "wrong", "error", "mistake", "difficult",
    "hard", "complicated", "confusing", "expensive", "slow", "unreliable", "broken", "defective",
    "damaged"].map str

/-- The array `this.stopWords`. -/
def stopWords : List JSString :=
  ["a", "about", "above", "after", "again", "against", "all", "am", "an", "and", "any", "are",
    "as", "at", "be", "because", "been", "before", "being", "below", "between", "both", "but",
    "by", "can", "could", "did", "do", "does", "doing", "down", "during", "each", "few", "for",
    "from", "further", "had", "has", "have", "having", "he", "her", "here", "hers", "herself",
    "him", "himself", "his", "how", "i", "if", "in", "into", "is", "it", "its", "itself", "just",
    "me", "might", "more", "most", "must", "my", "myself", "no", "nor", "not", "now", "of", "off",
    "on", "once", "only", "or", "other", "our", "ours", "ourselves", "out", "over", "own", "s",
    "same", "she", "should", "so", "some", "such", "t", "than", "that", "the", "their", "theirs",
    "them", "themselves", "then", "there", "these", "they", "this", "those", "through", "to",
    "too", "under", "until", "up", "very", "was", "we", "were", "what", "when", "where", "which",
    "while", "who", "whom", "why", "will", "with", "would", "you", "your", "yours", "yourself",
    "yourselves"].map str

/-! ## Numbers -/

/-- The number of binary digits of `n`, found in at most `fuel` halvings. -/
def bitLength : Nat → Nat → Nat
  | 0, _ => 0
  | fuel + 1, n => if n = 0 then 0 else bitLength fuel (n / 2) + 1

/-- The binary exponent of a rational `x` other than 0: the integer `e` with
`2^e ≤ |x| < 2^(e+1)`.  The difference of the bit lengths of numerator and denominator is `e` or
`e + 1`. -/
def binaryExponent (x : ℚ) : ℤ :=
  let k : ℤ := (bitLength x.num.natAbs x.num.natAbs : ℤ) - (bitLength x.den x.den : ℤ)
  if (2 : ℚ) ^ k ≤ |x| then k else k - 1

/-- The nearest integer, a half going to the even neighbour. -/
def roundHalfEven (y : ℚ) : ℤ :=
  if y - ⌊y⌋ < 1 / 2 then ⌊y⌋
  else if 1 / 2 < y - ⌊y⌋ then ⌊y⌋ + 1
  else if ⌊y⌋ % 2 = 0 then ⌊y⌋
  else ⌊y⌋ + 1

/-- The double that an arithmetic operation of JavaScript returns when its exact result is `x`:
the nearest number with a significand of 53 binary digits, a tie going to the even significand
(IEEE 754 binary64, round to nearest). -/
def roundDouble (x : ℚ) : ℚ :=
  if x = 0 then 0
  else (roundHalfEven (x / 2 ^ (binaryExponent x - 52)) : ℚ) * 2 ^ (binaryExponent x - 52)

/-- The string `x.toFixed(d)` read as a decimal: a sign and a count of units of `10^-d`.  The
sign is kept apart because `toFixed` prints a negative `x` that rounds to zero as `-0.00`. -/
structure Fixed where
  /-- The string starts with a minus sign. -/
  negative : Bool
  /-- The digits of the string, the decimal point left out, as a number. -/
  units : Nat
  deriving DecidableEq

/-- The method `x.toFixed(d)` on a double `x`: the sign of `x`, then the integer `n` for which
`n / 10^d` is nearest to `|x|`, the larger one when two are equally near. -/
def toFixed (d : Nat) (x : ℚ) : Fixed :=
  ⟨decide (x < 0), ⌊|x| * 10 ^ d + 1 / 2⌋.toNat⟩

/-- The number a `toFixed(d)` string denotes. -/
def Fixed.value (d : Nat) (f : Fixed) : ℚ :=
  if f.negative then -((f.units : ℚ) / 10 ^ d) else (f.units : ℚ) / 10 ^ d

/-- The function `Math.round` on a double: the nearest integer, a half going up. -/
def mathRound (x : ℚ) : ℤ := ⌊x + 1 / 2⌋

/-! ## Sentiment -/

/-- The object `analyzeSentiment` returns. -/
structure SentimentResult where
  /-- The string `score.toFixed(2)`. -/
  score : Fixed
  label : String
  emoji : String
  color : String
  positiveWords : Nat
  negativeWords : Nat
  confidence : ℤ
  deriving DecidableEq

/-- The tokens `analyzeSentiment` counts as positive. -/
def positiveCount (text : JSString) : Nat :=
  ((matchWords (toLowerCase text)).filter (fun word => positiveWords.contains word)).length

/-- The tokens `analyzeSentiment` counts as negative. -/
def negativeCount (text : JSString) : Nat :=
  ((matchWords (toLowerCase text)).filter (fun word => negativeWords.contains word)).length

/-- The local variable `score` of `analyzeSentiment`, before `toFixed`. -/
def sentimentScore (text : JSString) : ℚ :=
  let totalSentimentWords := positiveCount text + negativeCount text
  if totalSentimentWords > 0 then
    roundDouble (((positiveCount text : ℚ) - (negativeCount text : ℚ)) / (totalSentimentWords : ℚ))
  else 0

/-- The method `analyzeSentiment(text)`. -/
def analyzeSentiment (text : JSString) : SentimentResult :=
  let positiveCount := positiveCount text
  let negativeCount := negativeCount text
  let totalSentimentWords := positiveCount + negativeCount
  let score := sentimentScore text
  let confidence : ℚ := min 100 ((totalSentimentWords : ℚ) * 5)
  if score > roundDouble (2 / 10) then
    ⟨toFixed 2 score, "Positive", "😊", "#10b981", positiveCount, negativeCount,
      mathRound confidence⟩
  else if score < -roundDouble (2 / 10) then
    ⟨toFixed 2 score, "Negative", "😞", "#ef4444", positiveCount, negativeCount,
      mathRound confidence⟩
  else
    ⟨toFixed 2 score, "Neutral", "😐", "#f59e0b", positiveCount, negativeCount,
      mathRound confidence⟩

/-! ## Keywords -/

/-- A value held by a property of the object `wordFreq`.  The object is created as `{}`, so a key
it does not own is looked up in `Object.prototype`; of the keys a token can spell, `constructor`
is found there and yields the function `Object`.  `(wordFreq[word] || 0) + 1` then concatenates:
the slot receives the source text of `Object` followed by the character `1`, and one more `1` at
each later occurrence. -/
inductive FreqValue where
  /-- A number, the count of occurrences so far. -/
  | count (n : Nat)
  /-- A string: the source text of the function `Object` followed by `ones` characters `1`. -/
  | text (ones : Nat)
  deriving DecidableEq

/-- The own properties of the object `wordFreq`, in order of creation. -/
abbrev WordFreq := List (JSString × FreqValue)

/-- The own property `word` of `wordFreq`, if there is one. -/
def getOwn (wordFreq : WordFreq) (word : JSString) : Option FreqValue :=
  (wordFreq.find? (fun entry => entry.1 == word)).map Prod.snd

/-- The expression `(wordFreq[word] || 0) + 1`, for a `word` other than `__proto__`. -/
def increment (wordFreq : WordFreq) (word : JSString) : FreqValue :=
  match getOwn wordFreq word with
  | some (.count n) => .count (n + 1)
  | some (.text ones) => .text (ones + 1)
  | none => if word = str "constructor" then .text 1 else .count 1

/-- The assignment `wordFreq[word] = value` to an ordinary key: an own property keeps its place,
a new one is created last. -/
def setOwn (wordFreq : WordFreq) (word : JSString) (value : FreqValue) : WordFreq :=
  if wordFreq.any (fun entry => entry.1 == word) then
    wordFreq.map (fun entry => if entry.1 = word then (word, value) else entry)
  else wordFreq ++ [(word, value)]

/-- The body of the `forEach` of `extractKeywords`.  For the token `__proto__` the assignment
reaches the setter inherited from `Object.prototype`, which ignores a value that is a string: the
object is left as it was. -/
def countWord (wordFreq : WordFreq) (word : JSString) : WordFreq :=
  if word.length > 3 ∧ ¬ stopWords.contains word = true then
    if word = str "__proto__" then wordFreq else setOwn wordFreq word (increment wordFreq word)
  else wordFreq

/-- The number a key denotes when it is an array index: a decimal numeral without a leading zero
whose value is below `2^32 - 1`. -/
def arrayIndex (key : JSString) : Option Nat :=
  let value := key.foldl (fun acc c => 10 * acc + (c - 48)) 0
  if key ≠ [] ∧ key.all (fun c => 48 ≤ c && c ≤ 57) = true ∧ (key.head? ≠ some 48 ∨ key.length = 1)
      ∧ value < 4294967295 then some value
  else none

/-- The function `Object.entries`: the own properties whose key is an array index come first, by
ascending index, then the other ones in order of creation. -/
def objectEntries (wordFreq : WordFreq) : List (JSString × FreqValue) :=
  (wordFreq.filter (fun entry => (arrayIndex entry.1).isSome)).insertionSort
      (fun a b => (arrayIndex a.1).getD 0 ≤ (arrayIndex b.1).getD 0)
    ++ wordFreq.filter (fun entry => !(arrayIndex entry.1).isSome)

/-- The test a stable sort makes of two elements `a`, `b` with `a` before `b`: they stay so
unless `compareFn(a, b)` is positive.  `none` is `NaN`, which `sort` reads as `0`. -/
def staysBefore {α : Type} (compareFn : α → α → Option ℤ) (a b : α) : Prop :=
  ∀ v, compareFn a b = some v → v ≤ 0

instance {α : Type} (compareFn : α → α → Option ℤ) : DecidableRel (staysBefore compareFn) :=
  fun a b => by
    unfold staysBefore
    cases compareFn a b with
    | none => exact isTrue (fun v h => by cases h)
    | some w =>
      exact decidable_of_iff (w ≤ 0)
        ⟨fun h v hv => by cases hv; exact h, fun h => h w rfl⟩

/-- The method `Array.prototype.sort(compareFn)`, a stable sort: the insertion sort that puts an
element after the ones that `compareFn` places strictly before it.  When `compareFn` is a
consistent comparison this is the order ECMAScript prescribes.  When it is not, which in this
class happens only with the entry of `constructor` among the keywords, ECMAScript leaves the
order to the engine; an array in which no element compares as out of order with its neighbour
is then left as it is, here as in the engines. -/
def sortBy {α : Type} (compareFn : α → α → Option ℤ) (l : List α) : List α :=
  l.insertionSort (staysBefore compareFn)

/-- The number `ToNumber(value)` of a slot of `wordFreq`; `none` is `NaN`. -/
def FreqValue.toNumber : FreqValue → Option ℤ
  | .count n => some n
  | .text _ => none

/-- The comparison `(a, b) => b[1] - a[1]` of `extractKeywords`. -/
def compareFrequency (a b : JSString × FreqValue) : Option ℤ :=
  match b.2.toNumber, a.2.toNumber with
  | some y, some x => some (y - x)
  | _, _ => none

/-- An element of the array `extractKeywords` returns. -/
structure Keyword where
  word : JSString
  frequency : FreqValue
  /-- The number `Math.min(100, freq * 10)`; `none` is `NaN`. -/
  importance : Option ℤ
  deriving DecidableEq

/-- The object `wordFreq` once the `forEach` of `extractKeywords` is over. -/
def wordFreq (text : JSString) : WordFreq :=
  (matchWords (toLowerCase text)).foldl countWord []

/-- The method `extractKeywords(text)`. -/
def extractKeywords (text : JSString) : List Keyword :=
  (((objectEntries (wordFreq text)) |> sortBy compareFrequency).take 10).map
    (fun entry => ⟨entry.1, entry.2, entry.2.toNumber.map (fun freq => min 100 (freq * 10))⟩)

/-! ## Summary -/

/-- The method `sentences.indexOf(sentence)`: the first index, or `-1`. -/
def indexOf (sentences : List JSString) (sentence : JSString) : ℤ :=
  if sentence ∈ sentences then (sentences.indexOf sentence : ℤ) else -1

/-- The array `text.match(/[^.!?]+[.!?]+/g) || [text]` of `generateSummary`. -/
def summarySentences (text : JSString) : List JSString :=
  match matchSentences text with
  | [] => [text]
  | sentences => sentences

/-- The method `generateSummary(text)`. -/
def generateSummary (text : JSString) : JSString :=
  let sentences := summarySentences text
  if sentences.length ≤ 2 then text
  else
    let keywordSet := (extractKeywords text).map Keyword.word
    let sentenceScores : List (JSString × Nat) := sentences.map (fun sentence =>
      (trim sentence,
        ((matchWords (toLowerCase sentence)).filter (fun word => keywordSet.contains word)).length))
    let topSentences :=
      (((sentenceScores |> sortBy (fun a b => some ((b.2 : ℤ) - (a.2 : ℤ)))).take
          (min 3 ⌈roundDouble ((sentences.length : ℚ) / 3)⌉.toNat))
        |> sortBy (fun a b => some (indexOf sentences a.1 - indexOf sentences b.1))).map Prod.fst
    (str " ").intercalate topSentences

/-! ## Readability -/

/-- Membership in the class `[aeiouy]`. -/
def isVowel (c : Nat) : Bool :=
  c == 97 || c == 101 || c == 105 || c == 111 || c == 117 || c == 121

/-- Membership in the class `[^laeiouy]`. -/
def isNotLOrVowel (c : Nat) : Bool := !(c == 108 || isVowel c)

/-- The call `word.replace(/(?:[^laeiouy]es|ed|[^laeiouy]e)$/, '')`.  The leftmost match wins:
three final units `Xes` if there are such, else two final units `ed`, else two final units `Xe`,
where `X` is outside `[laeiouy]`. -/
def stripSuffix (word : JSString) : JSString :=
  match word.reverse with
  | 115 :: 101 :: x :: rest =>
    if isNotLOrVowel x then rest.reverse else word
  | 100 :: 101 :: rest => rest.reverse
  | 101 :: x :: rest => if isNotLOrVowel x then rest.reverse else word
  | _ => word

/-- The call `word.replace(/^y/, '')`. -/
def stripLeadingY : JSString → JSString
  | 121 :: rest => rest
  | word => word

/-- The number of matches of `/[aeiouy]{1,2}/g`: each match takes two vowels when two are there,
else one. -/
def vowelGroups : JSString → Nat
  | [] => 0
  | [c] => if isVowel c then 1 else 0
  | c :: d :: rest =>
    if isVowel c then
      if isVowel d then 1 + vowelGroups rest else 1 + vowelGroups (d :: rest)
    else vowelGroups (d :: rest)

/-- The body of the `forEach` of `countSyllables`: what one word adds to the total. -/
def wordSyllables (word : JSString) : Nat :=
  let syllables := vowelGroups (stripLeadingY (stripSuffix word))
  if syllables = 0 then 1 else syllables

/-- The method `countSyllables(text)`. -/
def countSyllables (text : JSString) : Nat :=
  ((matchWords (toLowerCase text)).map wordSyllables).sum

/-- The object `calculateReadability` returns. -/
structure ReadabilityResult where
  fleschScore : ℤ
  level : String
  grade : String
  /-- The string `avgWordsPerSentence.toFixed(1)`. -/
  avgWordsPerSentence : Fixed
  /-- The string `avgSyllablesPerWord.toFixed(1)`. -/
  avgSyllablesPerWord : Fixed
  sentenceCount : Nat
  wordCount : Nat
  deriving DecidableEq

/-- The level and the grade `calculateReadability` gives to a normalised score. -/
def readingLevel (normalizedFlesch : ℤ) : String × String :=
  if normalizedFlesch ≥ 90 then ("Very Easy", "5th grade")
  else if normalizedFlesch ≥ 80 then ("Easy", "6th grade")
  else if normalizedFlesch ≥ 70 then ("Fairly Easy", "7th grade")
  else if normalizedFlesch ≥ 60 then ("Standard", "8-9th grade")
  else if normalizedFlesch ≥ 50 then ("Fairly Difficult", "10-12th grade")
  else if normalizedFlesch ≥ 30 then ("Difficult", "College")
  else ("Very Difficult", "College Graduate")

/-- The local variable `sentenceCount` of `calculateReadability`: `sentences.length || 1`. -/
def sentenceCount (text : JSString) : Nat :=
  if (matchSentences text).length = 0 then 1 else (matchSentences text).length

/-- The local variable `wordCount` of `calculateReadability`: `words.length || 1`, the words
being matched on the text as it is given. -/
def wordCount (text : JSString) : Nat :=
  if (matchWords text).length = 0 then 1 else (matchWords text).length

/-- The local variable `avgWordsPerSentence` of `calculateReadability`. -/
def avgWordsPerSentence (text : JSString) : ℚ :=
  roundDouble ((wordCount text : ℚ) / (sentenceCount text : ℚ))

/-- The local variable `avgSyllablesPerWord` of `calculateReadability`. -/
def avgSyllablesPerWord (text : JSString) : ℚ :=
  roundDouble ((countSyllables text : ℚ) / (wordCount text : ℚ))

/-- The local variable `fleschScore` of `calculateReadability`:
`206.835 - (1.015 * avgWordsPerSentence) - (84.6 * avgSyllablesPerWord)`, every operation of
which returns a double. -/
def fleschScore (text : JSString) : ℚ :=
  roundDouble
    (roundDouble
        (roundDouble (206835 / 1000) -
          roundDouble (roundDouble (1015 / 1000) * avgWordsPerSentence text)) -
      roundDouble (roundDouble (846 / 10) * avgSyllablesPerWord text))

/-- The local variable `normalizedFlesch` of `calculateReadability`. -/
def normalizedFlesch (text : JSString) : ℤ :=
  max 0 (min 100 (mathRound (fleschScore text)))

/-- The method `calculateReadability(text)`. -/
def calculateReadability (text : JSString) : ReadabilityResult :=
  ⟨normalizedFlesch text, (readingLevel (normalizedFlesch text)).1,
    (readingLevel (normalizedFlesch text)).2, toFixed 1 (avgWordsPerSentence text),
    toFixed 1 (avgSyllablesPerWord text), sentenceCount text, wordCount text⟩

/-! ## The facade -/

/-- The argument `options` of `analyze`, each property read for its truthiness. -/
structure Options where
  sentiment : Bool
  keywords : Bool
  summary : Bool
  readability : Bool
  deriving DecidableEq

/-- The object `results` of `analyze`: a property that was never assigned is `none`. -/
structure AnalysisResults where
  sentiment : Option SentimentResult
  keywords : Option (List Keyword)
  summary : Option JSString
  readability : Option ReadabilityResult
  deriving DecidableEq

/-- The object literal `{}` that `results` starts from. -/
def AnalysisResults.empty : AnalysisResults := ⟨none, none, none, none⟩

/-- The method `analyze(text, options)` on a string `text`. -/
def analyze (text : JSString) (options : Options) : Except String AnalysisResults :=
  if text = [] ∨ (trim text).length = 0 then
    .error "Please provide text to analyze"
  else
    let results := AnalysisResults.empty
    let results :=
      if options.sentiment then { results with sentiment := some (analyzeSentiment text) }
      else results
    let results :=
      if options.keywords then { results with keywords := some (extractKeywords text) }
      else results
    let results :=
      if options.summary then { results with summary := some (generateSummary text) }
      else results
    let results :=
      if options.readability then
        { results with readability := some (calculateReadability text) }
      else results
    .ok results

/-! ## Export -/

/-- A value `JSON.stringify` is given or `JSON.parse` returns.  Every number of a result
record is an integer or `NaN`, so a number is an integer here; the properties of an object
are listed in the order of their creation. -/
inductive JSValue where
  | null
  | bool (value : Bool)
  | number (value : ℤ)
  /-- The number `NaN`. -/
  | nan
  | string (value : JSString)
  | array (items : List JSValue)
  | object (properties : List (JSString × JSValue))

/-- The decimal digits of a natural number, as code units. -/
def digits (n : Nat) : JSString := (Nat.toDigits 10 n).map Char.toNat

/-- The string `ToString(n)` of an integer `n` (below `10^21` in size, where JavaScript
prints every digit). -/
def numberToString (n : ℤ) : JSString :=
  if n < 0 then 45 :: digits n.natAbs else digits n.natAbs

/-- The string a `toFixed(d)` result is: the digits of the units, filled with zeros in front
up to `d + 1` digits, a point before the last `d` of them, and the sign. -/
def Fixed.render (d : Nat) (f : Fixed) : JSString :=
  let all := List.replicate (d + 1 - (digits f.units).length) 48 ++ digits f.units
  let body :=
    if d = 0 then all
    else all.take (all.length - d) ++ 46 :: all.drop (all.length - d)
  if f.negative then 45 :: body else body

/-- The digit of `n < 16` in lower-case hexadecimal. -/
def hexDigit (n : Nat) : Nat := if n < 10 then 48 + n else 87 + n

/-- The escape `\uXXXX` of a code unit. -/
def unicodeEscape (c : Nat) : JSString :=
  [92, 117, hexDigit (c / 4096), hexDigit (c / 256 % 16), hexDigit (c / 16 % 16),
    hexDigit (c % 16)]

/-- The first half of a surrogate pair. -/
def isLeadingSurrogate (c : Nat) : Bool := 55296 ≤ c && c ≤ 56319

/-- The second half of a surrogate pair. -/
def isTrailingSurrogate (c : Nat) : Bool := 56320 ≤ c && c ≤ 57343

/-- The inside of `QuoteJSONString`: the quote and the backslash are escaped, a control
character is written `\b`, `\t`, `\n`, `\f`, `\r` or `\uXXXX`, a surrogate without its partner
is written `\uXXXX`, and every other code unit stands for itself. -/
def quoteUnits : Nat → JSString → JSString
  | 0, _ => []
  | _ + 1, [] => []
  | fuel + 1, c :: rest =>
    if c = 8 then 92 :: 98 :: quoteUnits fuel rest
    else if c = 9 then 92 :: 116 :: quoteUnits fuel rest
    else if c = 10 then 92 :: 110 :: quoteUnits fuel rest
    else if c = 12 then 92 :: 102 :: quoteUnits fuel rest
    else if c = 13 then 92 :: 114 :: quoteUnits fuel rest
    else if c = 34 then 92 :: 34 :: quoteUnits fuel rest
    else if c = 92 then 92 :: 92 :: quoteUnits fuel rest
    else if c < 32 then unicodeEscape c ++ quoteUnits fuel rest
    else if isLeadingSurrogate c then
      match rest with
      | [] => unicodeEscape c
      | d :: rest2 =>
        if isTrailingSurrogate d then c :: d :: quoteUnits fuel rest2
        else unicodeEscape c ++ quoteUnits fuel rest
    else if isTrailingSurrogate c then unicodeEscape c ++ quoteUnits fuel rest
    else c :: quoteUnits fuel rest

/-- The abstract operation `QuoteJSONString`. -/
def quoteJSONString (value : JSString) : JSString :=
  34 :: quoteUnits value.length value ++ [34]

mutual
/-- The abstract operation `SerializeJSONProperty` with a gap of two spaces, at the
indentation `indent`.  `NaN` is written `null`. -/
def serialize (indent : JSString) : JSValue → JSString
  | .null => str "null"
  | .bool true => str "true"
  | .bool false => str "false"
  | .number n => numberToString n
  | .nan => str "null"
  | .string s => quoteJSONString s
  | .array [] => str "[]"
  | .array (item :: items) =>
    [91, 10] ++ (indent ++ [32, 32]) ++ serialize (indent ++ [32, 32]) item ++
      serializeItems (indent ++ [32, 32]) items ++ [10] ++ indent ++ [93]
  | .object [] => [123, 125]
  | .object ((key, value) :: properties) =>
    [123, 10] ++ (indent ++ [32, 32]) ++ quoteJSONString key ++ [58, 32] ++
      serialize (indent ++ [32, 32]) value ++
      serializeProperties (indent ++ [32, 32]) properties ++ [10] ++ indent ++ [125]
/-- The elements of an array after the first one, each behind a comma and a line break. -/
def serializeItems (indent : JSString) : List JSValue → JSString
  | [] => []
  | item :: items =>
    [44, 10] ++ indent ++ serialize indent item ++ serializeItems indent items
/-- The properties of an object after the first one, each behind a comma and a line break. -/
def serializeProperties (indent : JSString) : List (JSString × JSValue) → JSString
  | [] => []
  | (key, value) :: properties =>
    [44, 10] ++ indent ++ quoteJSONString key ++ [58, 32] ++ serialize indent value ++
      serializeProperties indent properties
end

/-- The call `JSON.stringify(value, null, 2)`. -/
def jsonStringify (value : JSValue) : JSString := serialize [] value

/-- The white space of JSON: tab, line feed, carriage return and space. -/
def skipWhiteSpace : JSString → JSString
  | [] => []
  | c :: rest => if c = 9 ∨ c = 10 ∨ c = 13 ∨ c = 32 then skipWhiteSpace rest else c :: rest

/-- The value of a hexadecimal digit. -/
def hexValue (c : Nat) : Option Nat :=
  if 48 ≤ c ∧ c ≤ 57 then some (c - 48)
  else if 97 ≤ c ∧ c ≤ 102 then some (c - 87)
  else if 65 ≤ c ∧ c ≤ 70 then some (c - 55)
  else none

/-- A JSON string from behind its opening quote: its value and the input behind its closing
quote. -/
def parseString : Nat → JSString → Option (JSString × JSString)
  | 0, _ => none
  | _ + 1, [] => none
  | fuel + 1, c :: rest =>
    if c = 34 then some ([], rest)
    else if c = 92 then
      match rest with
      | [] => none
      | e :: rest2 =>
        if e = 117 then
          match rest2 with
          | h1 :: h2 :: h3 :: h4 :: rest3 =>
            match hexValue h1, hexValue h2, hexValue h3, hexValue h4, parseString fuel rest3 with
            | some a, some b, some c, some d, some (value, behind) =>
              some ((a * 4096 + b * 256 + c * 16 + d) :: value, behind)
            | _, _, _, _, _ => none
          | _ => none
        else
          let unit : Option Nat :=
            if e = 34 then some 34 else if e = 92 then some 92 else if e = 47 then some 47
            else if e = 98 then some 8 else if e = 102 then some 12 else if e = 110 then some 10
            else if e = 114 then some 13 else if e = 116 then some 9 else none
          match unit, parseString fuel rest2 with
          | some u, some (value, behind) => some (u :: value, behind)
          | _, _ => none
    else if c < 32 then none
    else
      match parseString fuel rest with
      | some (value, behind) => some (c :: value, behind)
      | none => none

/-- The leading decimal digits of the input, as a number, and the input behind them. -/
def parseDigits : Nat → JSString → Nat × JSString
  | acc, [] => (acc, [])
  | acc, c :: rest =>
    if 48 ≤ c ∧ c ≤ 57 then parseDigits (acc * 10 + (c - 48)) rest else (acc, c :: rest)

/-- A JSON number without fraction and exponent: a minus sign or none, then `0` or digits
that do not start with `0`.  A number with a fraction or an exponent is not read: the
records of the engine hold none. -/
def parseNumber (input : JSString) : Option (JSValue × JSString) :=
  let negative := input.head? = some 45
  let body := if negative then input.drop 1 else input
  match body with
  | [] => none
  | c :: rest =>
    if ¬ (48 ≤ c ∧ c ≤ 57) then none
    else if c = 48 ∧ (∃ d ∈ rest.head?, 48 ≤ d ∧ d ≤ 57) then none
    else
      match parseDigits 0 body with
      | (n, behind) =>
        if ∃ d ∈ behind.head?, d = 46 ∨ d = 101 ∨ d = 69 then none
        else some (.number (if negative then -(n : ℤ) else (n : ℤ)), behind)

/-- The assignment of a property while an object is read: a key met again keeps its place and
takes the new value. -/
def setProperty (properties : List (JSString × JSValue)) (key : JSString) (value : JSValue) :
    List (JSString × JSValue) :=
  if properties.any (fun p => p.1 == key) then
    properties.map (fun p => if p.1 == key then (key, value) else p)
  else properties ++ [(key, value)]

mutual
/-- A JSON value at the head of the input, white space in front of it allowed: the value and
the input behind it. -/
def parseValue : Nat → JSString → Option (JSValue × JSString)
  | 0, _ => none
  | fuel + 1, input =>
    match skipWhiteSpace input with
    | [] => none
    | c :: rest =>
      if c = 123 then
        match skipWhiteSpace rest with
        | [] => none
        | d :: rest2 =>
          if d = 125 then some (.object [], rest2) else parseProperties fuel [] (d :: rest2)
      else if c = 91 then
        match skipWhiteSpace rest with
        | [] => none
        | d :: rest2 =>
          if d = 93 then some (.array [], rest2) else parseItems fuel [] (d :: rest2)
      else if c = 34 then
        match parseString rest.length rest with
        | some (value, behind) => some (.string value, behind)
        | none => none
      else if (c :: rest).take 4 = str "null" then some (.null, rest.drop 3)
      else if (c :: rest).take 4 = str "true" then some (.bool true, rest.drop 3)
      else if (c :: rest).take 5 = str "false" then some (.bool false, rest.drop 4)
      else parseNumber (c :: rest)
/-- The elements of an array from the head of one of them up to the closing bracket. -/
def parseItems : Nat → List JSValue → JSString → Option (JSValue × JSString)
  | 0, _, _ => none
  | fuel + 1, items, input =>
    match parseValue fuel input with
    | none => none
    | some (item, behind) =>
      match skipWhiteSpace behind with
      | [] => none
      | c :: rest =>
        if c = 44 then parseItems fuel (items ++ [item]) rest
        else if c = 93 then some (.array (items ++ [item]), rest)
        else none
/-- The properties of an object from the head of one of them up to the closing brace. -/
def parseProperties : Nat → List (JSString × JSValue) → JSString →
    Option (JSValue × JSString)
  | 0, _, _ => none
  | fuel + 1, properties, input =>
    match skipWhiteSpace input with
    | [] => none
    | q :: rest =>
      if q ≠ 34 then none
      else
        match parseString rest.length rest with
        | none => none
        | some (key, behind) =>
          match skipWhiteSpace behind with
          | [] => none
          | colon :: rest2 =>
            if colon ≠ 58 then none
            else
              match parseValue fuel rest2 with
              | none => none
              | some (value, behind2) =>
                match skipWhiteSpace behind2 with
                | [] => none
                | c :: rest3 =>
                  if c = 44 then parseProperties fuel (setProperty properties key value) rest3
                  else if c = 125 then
                    some (.object (setProperty properties key value), rest3)
                  else none
end

/-- The call `JSON.parse(text)`; `none` is a thrown `SyntaxError`. -/
def jsonParse (text : JSString) : Option JSValue :=
  match parseValue (text.length + 1) text with
  | none => none
  | some (value, behind) => if skipWhiteSpace behind = [] then some value else none

/-- The property `key` of a value, if it is an object that has one. -/
def JSValue.get (key : JSString) : JSValue → Option JSValue
  | .object properties => (properties.find? (fun p => p.1 == key)).map Prod.snd
  | _ => none

/-- The source text of the function `Object`, as `String(Object)` gives it. -/
def objectSource : JSString := str "function Object() \x7b [native code] \x7d"

/-- The JavaScript value of a slot of `wordFreq`. -/
def FreqValue.toValue : FreqValue → JSValue
  | .count n => .number n
  | .text ones => .string (objectSource ++ List.replicate ones 49)

/-- The object literal `extractKeywords` builds for an entry. -/
def Keyword.toValue (keyword : Keyword) : JSValue :=
  .object [(str "word", .string keyword.word), (str "frequency", keyword.frequency.toValue),
    (str "importance",
      match keyword.importance with
      | some n => .number n
      | none => .nan)]

/-- The object literal `analyzeSentiment` returns. -/
def SentimentResult.toValue (result : SentimentResult) : JSValue :=
  .object [(str "score", .string (result.score.render 2)),
    (str "label", .string (str result.label)), (str "emoji", .string (str result.emoji)),
    (str "color", .string (str result.color)),
    (str "positiveWords", .number result.positiveWords),
    (str "negativeWords", .number result.negativeWords),
    (str "confidence", .number result.confidence)]

/-- The object literal `calculateReadability` returns. -/
def ReadabilityResult.toValue (result : ReadabilityResult) : JSValue :=
  .object [(str "fleschScore", .number result.fleschScore),
    (str "level", .string (str result.level)), (str "grade", .string (str result.grade)),
    (str "avgWordsPerSentence", .string (result.avgWordsPerSentence.render 1)),
    (str "avgSyllablesPerWord", .string (result.avgSyllablesPerWord.render 1)),
    (str "sentenceCount", .number result.sentenceCount),
    (str "wordCount", .number result.wordCount)]

/-- The object `results` of `analyze`, its properties in the order `analyze` assigns them. -/
def AnalysisResults.toValue (results : AnalysisResults) : JSValue :=
  .object
    ((results.sentiment.map fun r => (str "sentiment", r.toValue)).toList ++
      (results.keywords.map fun ks =>
        (str "keywords", JSValue.array (ks.map Keyword.toValue))).toList ++
      (results.summary.map fun s => (str "summary", JSValue.string s)).toList ++
      (results.readability.map fun r => (str "readability", r.toValue)).toList)

/-- The object `exportData` of `exportResults`; `timestamp` is the string
`new Date().toISOString()`. -/
def exportData (timestamp : JSString) (results : AnalysisResults) (originalText : JSString) :
    JSValue :=
  .object [(str "timestamp", .string timestamp), (str "originalText", .string originalText),
    (str "analysis", results.toValue),
    (str "metadata", .object [(str "analyzer", .string (str "AI Text Analyzer v1.0")),
      (str "engine", .string (str "Advanced NLP Engine"))])]

/-- The method `exportResults(results, originalText)` at the time `timestamp`. -/
def exportResults (timestamp : JSString) (results : AnalysisResults)
    (originalText : JSString) : JSString :=
  jsonStringify (exportData timestamp results originalText)

/-! ## The Flesch formula as the specification states it -/

/-- The Flesch Reading Ease of a text over exact rationals:
`206.835 − 1.015 × (W / S) − 84.6 × (Y / W)`, with `W = wordCount`, `S = sentenceCount` and
`Y = countSyllables(text)`. -/
def exactFlesch (text : JSString) : ℚ :=
  206835 / 1000 - 1015 / 1000 * ((wordCount text : ℚ) / (sentenceCount text : ℚ)) -
    846 / 10 * ((countSyllables text : ℚ) / (wordCount text : ℚ))

/-- The score of the specification: `exactFlesch` rounded to the nearest integer, a half
going up, and clamped to `[0, 100]`. -/
def specFleschScore (text : JSString) : ℤ :=
  max 0 (min 100 (mathRound (exactFlesch text)))

/-! ## Notions of the specification used in the statements -/

/-- The tokens `extractKeywords` counts: those longer than 3 units that are no stop word (the
test of its loop), in order and with repetition. -/
def qualifyingWords (text : JSString) : List JSString :=
  (matchWords (toLowerCase text)).filter
    (fun word => decide (word.length > 3) && !stopWords.contains word)

/-- The scan behind `vowelRuns`: `run` is the length of the run of vowels under way. -/
def vowelRunsAux : Nat → JSString → List Nat
  | run, [] => if run = 0 then [] else [run]
  | run, c :: cs =>
    if isVowel c then vowelRunsAux (run + 1) cs
    else if run = 0 then vowelRunsAux 0 cs
    else run :: vowelRunsAux 0 cs

/-- The lengths of the maximal runs of consecutive vowels of a word, in order. -/
def vowelRuns (word : JSString) : List Nat := vowelRunsAux 0 word

/-- A text of ASCII characters with every letter in upper case. -/
def upperCaseAscii (text : JSString) : JSString :=
  text.map (fun c => if 97 ≤ c ∧ c ≤ 122 then c - 32 else c)

/-! ## Inputs used in the examples -/

/-- A text of 101 positive tokens followed by 100 negative ones. -/
def nearlyBalanced : JSString :=
  (List.replicate 101 (str "joy ")).flatten ++ (List.replicate 100 (str "sad ")).flatten

/-- The options record with every analysis switched off. -/
def noOptions : Options := ⟨false, false, false, false⟩

/-- The options record with every analysis switched on. -/
def allOptions : Options := ⟨true, true, true, true⟩

/-- The text of the end-to-end example of the specification. -/
def productReview : JSString :=
  str "This product is absolutely amazing! I love everything about it."

/-- The first of the `sampleTexts` of `src/js/app.js`. -/
def sampleText : JSString :=
  str ("This product is absolutely amazing! I love everything about it. The quality is " ++
    "outstanding and it exceeded all my expectations. Highly recommend to everyone!")

/-- A text of 520 words in 14 sentences with 637 syllables: 13 sentences `a.`, then 390 words
`a` and 117 words `aba` in one sentence. -/
def fleschBoundary : JSString :=
  (List.replicate 13 (str "a. ")).flatten ++ (List.replicate 390 (str "a ")).flatten ++
    (List.replicate 116 (str "aba ")).flatten ++ str "aba."

/-- A text of 3 words in 20 sentences. -/
def sparseWords : JSString :=
  str "a. b. c." ++ (List.replicate 17 (str " -.")).flatten

/-- The options record that asks for the keywords only. -/
def keywordsOnly : Options := ⟨false, true, false, false⟩

/-- The results `analyze` returns for the text `constructor` and the keywords alone. -/
def constructorResults : AnalysisResults :=
  ⟨none, some [⟨str "constructor", .text 1, none⟩], none, none⟩

/-- A value of `new Date().toISOString()`. -/
def exportTime : JSString := str "2026-01-01T00:00:00.000Z"

/-! ## Lemmas on strings and numbers -/

theorem trim_eq_nil_iff (text : JSString) :
    trim text = [] ↔ ∀ c ∈ text, isWhiteSpace c = true := by
  unfold trim
  rw [List.reverse_eq_nil_iff, List.dropWhile_eq_nil_iff]
  constructor
  · intro h
    have hnil : text.dropWhile isWhiteSpace = [] := by
      by_contra hne
      have hhead := List.head_dropWhile_not isWhiteSpace text hne
      have hmem := h _ (List.mem_reverse.mpr (List.head_mem hne))
      rw [hmem] at hhead
      exact absurd hhead (by simp)
    exact List.dropWhile_eq_nil_iff.mp hnil
  · intro h c hc
    exact h c ((List.dropWhile_sublist _).subset (List.mem_reverse.mp hc))

theorem blank_iff (text : JSString) :
    (text = [] ∨ (trim text).length = 0) ↔ ∀ c ∈ text, isWhiteSpace c = true := by
  rw [List.length_eq_zero, trim_eq_nil_iff]
  constructor
  · rintro (h | h)
    · subst h; simp
    · exact h
  · exact Or.inr

theorem mathRound_intCast (z : ℤ) : mathRound (z : ℚ) = z := by
  unfold mathRound
  rw [Int.floor_int_add]
  norm_num

theorem toFixed_units_le (d : Nat) (x : ℚ) (k : ℕ) (h : |x| ≤ k) :
    (toFixed d x).units ≤ k * 10 ^ d := by
  unfold toFixed
  simp only
  rw [Int.toNat_le]
  have h10 : (0 : ℚ) < 10 ^ d := by positivity
  rw [← Int.lt_add_one_iff, Int.floor_lt]
  push_cast
  have := mul_le_mul_of_nonneg_right h h10.le
  linarith

theorem toFixed_units_le_of_lt (d : Nat) (x : ℚ) (k : ℕ)
    (h : |x| * 10 ^ d + 1 / 2 < (k : ℚ) + 1) : (toFixed d x).units ≤ k := by
  unfold toFixed
  simp only
  rw [Int.toNat_le, ← Int.lt_add_one_iff, Int.floor_lt]
  push_cast
  exact h

theorem toFixed_units_eq_zero_iff (d : Nat) (x : ℚ) :
    (toFixed d x).units = 0 ↔ 2 * |x| * 10 ^ d < 1 := by
  unfold toFixed
  simp only
  rw [Int.toNat_eq_zero, ← Int.lt_add_one_iff, Int.floor_lt]
  push_cast
  constructor <;> intro h <;> linarith

theorem Fixed.value_eq_zero_iff (d : Nat) (f : Fixed) : f.value d = 0 ↔ f.units = 0 := by
  have h10 : (10 : ℚ) ^ d ≠ 0 := by positivity
  unfold Fixed.value
  split_ifs <;> simp [h10]

theorem Fixed.abs_value (d : Nat) (f : Fixed) : |f.value d| = (f.units : ℚ) / 10 ^ d := by
  have h : (0 : ℚ) ≤ (f.units : ℚ) / 10 ^ d := by positivity
  unfold Fixed.value
  split_ifs
  · rw [abs_neg, abs_of_nonneg h]
  · rw [abs_of_nonneg h]

/-! ## Lemmas on doubles -/

theorem bitLength_spec : ∀ fuel n : Nat, n ≤ fuel → n ≠ 0 →
    2 ^ (bitLength fuel n - 1) ≤ n ∧ n < 2 ^ bitLength fuel n := by
  intro fuel
  induction fuel with
  | zero => intro n h hn; omega
  | succ fuel ih =>
    intro n h hn
    rw [bitLength, if_neg hn]
    by_cases h2 : n / 2 = 0
    · have : n = 1 := by omega
      subst this
      cases fuel <;> simp [bitLength]
    · have hle : n / 2 ≤ fuel := by omega
      obtain ⟨h1, h3⟩ := ih (n / 2) hle h2
      have hpos : 0 < bitLength fuel (n / 2) := by
        by_contra hc
        have : bitLength fuel (n / 2) = 0 := by omega
        rw [this] at h3
        omega
      have e1 : bitLength fuel (n / 2) + 1 - 1 = (bitLength fuel (n / 2) - 1) + 1 := by omega
      rw [e1, pow_succ, pow_succ]
      constructor <;> omega

theorem abs_eq_natAbs_div_den (x : ℚ) : |x| = (x.num.natAbs : ℚ) / (x.den : ℚ) := by
  have hd : (0 : ℚ) < (x.den : ℚ) := by exact_mod_cast x.den_pos
  conv_lhs => rw [← Rat.num_div_den x]
  rw [abs_div, abs_of_pos hd, Nat.cast_natAbs, Int.cast_abs]

theorem two_zpow_binaryExponent_le (x : ℚ) (hx : x ≠ 0) : (2 : ℚ) ^ binaryExponent x ≤ |x| := by
  unfold binaryExponent
  simp only
  split_ifs with h
  · exact h
  · have hn : x.num.natAbs ≠ 0 := by simpa using hx
    have hd : x.den ≠ 0 := x.den_nz
    obtain ⟨h1, -⟩ := bitLength_spec x.num.natAbs x.num.natAbs le_rfl hn
    obtain ⟨-, h2⟩ := bitLength_spec x.den x.den le_rfl hd
    have hbn : 0 < bitLength x.num.natAbs x.num.natAbs := by
      by_contra hc
      have h0 : bitLength x.num.natAbs x.num.natAbs = 0 := by omega
      have := (bitLength_spec x.num.natAbs x.num.natAbs le_rfl hn).2
      rw [h0] at this
      omega
    have h1q : (2 : ℚ) ^ (bitLength x.num.natAbs x.num.natAbs - 1) ≤ (x.num.natAbs : ℚ) := by
      exact_mod_cast h1
    have h2q : (x.den : ℚ) ≤ 2 ^ bitLength x.den x.den := by
      exact_mod_cast h2.le
    have hdpos : (0 : ℚ) < (x.den : ℚ) := by exact_mod_cast x.den_pos
    have hexp : ((bitLength x.num.natAbs x.num.natAbs : ℤ) - (bitLength x.den x.den : ℤ) - 1) =
        ((bitLength x.num.natAbs x.num.natAbs - 1 : ℕ) : ℤ) -
          ((bitLength x.den x.den : ℕ) : ℤ) := by
      omega
    rw [hexp, zpow_sub₀ (by norm_num), zpow_natCast, zpow_natCast, abs_eq_natAbs_div_den]
    have hp : (0 : ℚ) < 2 ^ bitLength x.den x.den := by positivity
    rw [div_le_div_iff₀ hp hdpos]
    calc (2 : ℚ) ^ (bitLength x.num.natAbs x.num.natAbs - 1) * (x.den : ℚ)
        ≤ (2 : ℚ) ^ (bitLength x.num.natAbs x.num.natAbs - 1) * 2 ^ bitLength x.den x.den :=
          mul_le_mul_of_nonneg_left h2q (by positivity)
      _ ≤ (x.num.natAbs : ℚ) * 2 ^ bitLength x.den x.den :=
          mul_le_mul_of_nonneg_right h1q hp.le

theorem abs_roundHalfEven_sub_le (y : ℚ) : |(roundHalfEven y : ℚ) - y| ≤ 1 / 2 := by
  have h1 := Int.floor_le y
  have h2 := Int.lt_floor_add_one y
  unfold roundHalfEven
  rw [abs_le]
  split_ifs with ha hb hc
  · constructor <;> linarith
  · push_cast
    constructor <;> linarith
  · constructor <;> linarith
  · push_cast
    constructor <;> linarith

/-- A double is within half a unit of the last place of the number it rounds: the relative error
is at most `2^-53`. -/
theorem abs_roundDouble_sub_le (x : ℚ) : |roundDouble x - x| ≤ |x| / 2 ^ 53 := by
  unfold roundDouble
  split_ifs with h0
  · simp [h0]
  · have hu : (0 : ℚ) < 2 ^ (binaryExponent x - 52) := by positivity
    have hr := abs_roundHalfEven_sub_le (x / 2 ^ (binaryExponent x - 52))
    have hdiff : (roundHalfEven (x / 2 ^ (binaryExponent x - 52)) : ℚ) *
          2 ^ (binaryExponent x - 52) - x =
        ((roundHalfEven (x / 2 ^ (binaryExponent x - 52)) : ℚ) -
          x / 2 ^ (binaryExponent x - 52)) * 2 ^ (binaryExponent x - 52) := by
      field_simp
    rw [hdiff, abs_mul, abs_of_pos hu]
    have hle := two_zpow_binaryExponent_le x h0
    have hsplit : (2 : ℚ) ^ (binaryExponent x - 52) = 2 ^ binaryExponent x / 2 ^ 52 := by
      rw [zpow_sub₀ (by norm_num)]
      norm_num
    calc |(roundHalfEven (x / 2 ^ (binaryExponent x - 52)) : ℚ) -
            x / 2 ^ (binaryExponent x - 52)| * 2 ^ (binaryExponent x - 52)
        ≤ 1 / 2 * 2 ^ (binaryExponent x - 52) := mul_le_mul_of_nonneg_right hr hu.le
      _ = 2 ^ binaryExponent x / 2 ^ 53 := by rw [hsplit]; ring
      _ ≤ |x| / 2 ^ 53 := div_le_div_of_nonneg_right hle (by positivity)

theorem roundDouble_zero : roundDouble 0 = 0 := by
  unfold roundDouble
  rw [if_pos rfl]

/-- The double of a number `x ≥ 0` lies between `x (1 - 2^-53)` and `x (1 + 2^-53)`. -/
theorem roundDouble_bounds {x : ℚ} (hx : 0 ≤ x) :
    x * (1 - 1 / 2 ^ 53) ≤ roundDouble x ∧ roundDouble x ≤ x * (1 + 1 / 2 ^ 53) := by
  have h := abs_roundDouble_sub_le x
  rw [abs_of_nonneg hx, abs_le] at h
  constructor <;> linarith [h.1, h.2]

/-- The double of a number `x ≤ 0` lies between `x (1 + 2^-53)` and `x (1 - 2^-53)`. -/
theorem roundDouble_bounds_neg {x : ℚ} (hx : x ≤ 0) :
    x * (1 + 1 / 2 ^ 53) ≤ roundDouble x ∧ roundDouble x ≤ x * (1 - 1 / 2 ^ 53) := by
  have h := abs_roundDouble_sub_le x
  rw [abs_of_nonpos hx, abs_le] at h
  constructor <;> linarith [h.1, h.2]

theorem roundDouble_pos {x : ℚ} (hx : 0 < x) : 0 < roundDouble x := by
  have h := (roundDouble_bounds hx.le).1
  have : 0 < x * (1 - 1 / 2 ^ 53) := mul_pos hx (by norm_num)
  linarith

theorem roundDouble_neg {x : ℚ} (hx : x < 0) : roundDouble x < 0 := by
  have h := (roundDouble_bounds_neg hx.le).2
  have : x * (1 - 1 / 2 ^ 53) < 0 := mul_neg_of_neg_of_pos hx (by norm_num)
  linarith

theorem roundDouble_eq_zero_iff (x : ℚ) : roundDouble x = 0 ↔ x = 0 := by
  constructor
  · intro h
    by_contra hne
    rcases lt_or_gt_of_ne hne with hlt | hgt
    · exact absurd h (ne_of_lt (roundDouble_neg hlt))
    · exact absurd h (ne_of_gt (roundDouble_pos hgt))
  · intro h
    rw [h, roundDouble_zero]

theorem roundDouble_neg_iff (x : ℚ) : roundDouble x < 0 ↔ x < 0 := by
  constructor
  · intro h
    by_contra hge
    rw [not_lt] at hge
    rcases eq_or_lt_of_le hge with h0 | hpos
    · rw [← h0, roundDouble_zero] at h
      exact lt_irrefl _ h
    · exact absurd h (not_lt.mpr (roundDouble_pos hpos).le)
  · exact roundDouble_neg

theorem abs_roundDouble_bounds (x : ℚ) :
    |x| * (1 - 1 / 2 ^ 53) ≤ |roundDouble x| ∧ |roundDouble x| ≤ |x| * (1 + 1 / 2 ^ 53) := by
  rcases le_total 0 x with hx | hx
  · have hb := roundDouble_bounds hx
    have hr : 0 ≤ roundDouble x := by
      rcases eq_or_lt_of_le hx with h0 | hpos
      · rw [← h0, roundDouble_zero]
      · exact (roundDouble_pos hpos).le
    rw [abs_of_nonneg hx, abs_of_nonneg hr]
    exact hb
  · have hb := roundDouble_bounds_neg hx
    have hr : roundDouble x ≤ 0 := by
      rcases eq_or_lt_of_le hx with h0 | hneg
      · rw [h0, roundDouble_zero]
      · exact (roundDouble_neg hneg).le
    rw [abs_of_nonpos hx, abs_of_nonpos hr]
    constructor <;> linarith [hb.1, hb.2]

/-! ## Lemmas on the size of a text -/

theorem matchWordsAux_length_le (text : JSString) :
    ∀ cur : List Nat, (matchWordsAux cur text).length ≤ text.length + 1 ∧
      (cur = [] → (matchWordsAux cur text).length ≤ text.length) := by
  induction text with
  | nil =>
    intro cur
    constructor
    · rw [matchWordsAux]
      split_ifs <;> simp
    · intro h
      rw [matchWordsAux, if_pos h]
      simp
  | cons c cs ih =>
    intro cur
    rw [matchWordsAux]
    split_ifs with h1 h2
    · have := (ih (c :: cur)).1
      simp only [List.length_cons]
      exact ⟨by omega, fun _ => this⟩
    · have := (ih []).2 rfl
      simp only [List.length_cons]
      exact ⟨by omega, fun _ => by omega⟩
    · have := (ih []).2 rfl
      simp only [List.length_cons]
      exact ⟨by omega, fun h => absurd h h2⟩

theorem matchWords_length_le (text : JSString) : (matchWords text).length ≤ text.length :=
  (matchWordsAux_length_le text []).2 rfl

theorem toLowerCase_length_le (text : JSString) :
    (toLowerCase text).length ≤ 2 * text.length := by
  unfold toLowerCase
  induction text with
  | nil => simp
  | cons c cs ih =>
    rw [List.flatMap_cons, List.length_append, List.length_cons]
    have : (lowerUnit c).length ≤ 2 := by
      unfold lowerUnit
      split_ifs <;> simp
    omega

/-- A text has at most four times as many sentiment words as code units. -/
theorem sentiment_total_le (text : JSString) :
    positiveCount text + negativeCount text ≤ 4 * text.length := by
  have h1 : positiveCount text ≤ (matchWords (toLowerCase text)).length :=
    List.length_filter_le _ _
  have h2 : negativeCount text ≤ (matchWords (toLowerCase text)).length :=
    List.length_filter_le _ _
  have h3 := matchWords_length_le (toLowerCase text)
  have h4 := toLowerCase_length_le text
  omega

/-! ## Lemmas on the sentiment scorer -/

theorem roundDouble_one_fifth :
    roundDouble (2 / 10) = 3602879701896397 / 18014398509481984 ∧
      roundDouble (-(2 / 10)) = -(3602879701896397 / 18014398509481984) := by
  decide!

theorem roundDouble_one_two_hundredth :
    roundDouble (1 / 200) = 5764607523034235 / 1152921504606846976 ∧
      roundDouble (-(1 / 200)) = -(5764607523034235 / 1152921504606846976) := by
  decide!

/-- The local variable `score` is the double of the exact ratio, which is 0 for a text without
sentiment words. -/
theorem sentimentScore_eq (text : JSString) :
    sentimentScore text =
      roundDouble (((positiveCount text : ℚ) - (negativeCount text : ℚ)) /
        ((positiveCount text + negativeCount text : ℕ) : ℚ)) := by
  unfold sentimentScore
  simp only
  split_ifs with h
  · rfl
  · have h0 : positiveCount text + negativeCount text = 0 := by omega
    rw [h0]
    simp [roundDouble_zero]

theorem abs_sentimentRatio_le_one (text : JSString) :
    |((positiveCount text : ℚ) - (negativeCount text : ℚ)) /
        ((positiveCount text + negativeCount text : ℕ) : ℚ)| ≤ 1 := by
  by_cases h : positiveCount text + negativeCount text > 0
  · have ht : (0 : ℚ) < ((positiveCount text + negativeCount text : ℕ) : ℚ) := by exact_mod_cast h
    rw [abs_div, abs_of_pos ht, div_le_one ht, abs_le]
    push_cast
    constructor <;> linarith [Nat.cast_nonneg (α := ℚ) (positiveCount text),
      Nat.cast_nonneg (α := ℚ) (negativeCount text)]
  · have h0 : positiveCount text + negativeCount text = 0 := by omega
    rw [h0]
    simp

theorem analyzeSentiment_score (text : JSString) :
    (analyzeSentiment text).score = toFixed 2 (sentimentScore text) := by
  unfold analyzeSentiment
  simp only
  split_ifs <;> rfl

theorem analyzeSentiment_counts (text : JSString) :
    (analyzeSentiment text).positiveWords = positiveCount text ∧
      (analyzeSentiment text).negativeWords = negativeCount text := by
  unfold analyzeSentiment
  simp only
  split_ifs <;> exact ⟨rfl, rfl⟩

theorem analyzeSentiment_confidence (text : JSString) :
    (analyzeSentiment text).confidence =
      min 100 (5 * ((positiveCount text : ℤ) + (negativeCount text : ℤ))) := by
  have h : (analyzeSentiment text).confidence =
      mathRound (min 100 (((positiveCount text + negativeCount text : ℕ) : ℚ) * 5)) := by
    unfold analyzeSentiment
    simp only
    split_ifs <;> rfl
  rw [h, ← mathRound_intCast (min 100 (5 * ((positiveCount text : ℤ) + (negativeCount text : ℤ))))]
  congr 1
  push_cast
  ring_nf

theorem sentimentScore_eq_zero_iff (text : JSString) :
    sentimentScore text = 0 ↔ positiveCount text = negativeCount text := by
  rw [sentimentScore_eq, roundDouble_eq_zero_iff]
  by_cases h : positiveCount text + negativeCount text > 0
  · have ht : ((positiveCount text + negativeCount text : ℕ) : ℚ) ≠ 0 := by
      exact_mod_cast (Nat.pos_iff_ne_zero.mp h)
    rw [div_eq_zero_iff, or_iff_left ht, sub_eq_zero]
    exact_mod_cast Iff.rfl
  · have h0 : positiveCount text + negativeCount text = 0 := by omega
    rw [h0]
    constructor
    · intro _; omega
    · intro _; simp

/-- The double of a quotient of integers, the divisor at most `2^52`, passes the double `0.2`
exactly when the quotient passes one fifth, and likewise below. -/
theorem roundDouble_div_thresholds (d t : ℤ) (ht : 0 < t) (hle : t ≤ 2 ^ 52) :
    (roundDouble ((d : ℚ) / t) > roundDouble (2 / 10) ↔ (d : ℚ) / t > 2 / 10) ∧
      (roundDouble ((d : ℚ) / t) < -roundDouble (2 / 10) ↔ (d : ℚ) / t < -(2 / 10)) := by
  rw [roundDouble_one_fifth.1]
  have hT : (0 : ℚ) < (t : ℚ) := by exact_mod_cast ht
  have hTle : (t : ℚ) ≤ 2 ^ 52 := by exact_mod_cast hle
  have hqT : (d : ℚ) / t * t = d := by field_simp
  constructor
  · constructor
    · intro hs
      by_contra hnot
      rw [gt_iff_lt, not_lt] at hnot
      have h5 : 5 * (d : ℚ) ≤ t := by
        have := mul_le_mul_of_nonneg_right hnot hT.le
        rw [hqT] at this
        linarith
      have h5z : 5 * d ≤ t := by exact_mod_cast h5
      rcases eq_or_lt_of_le h5z with heq | hlt
      · have hq5 : (d : ℚ) / t = 2 / 10 := by
          rw [div_eq_iff (ne_of_gt hT)]
          have : (5 * d : ℚ) = t := by exact_mod_cast heq
          linarith
        rw [hq5, roundDouble_one_fifth.1] at hs
        exact lt_irrefl _ hs
      · have hlt' : 5 * (d : ℚ) ≤ t - 1 := by
          have : 5 * d ≤ t - 1 := by omega
          exact_mod_cast this
        rcases le_or_lt 0 ((d : ℚ) / t) with hq0 | hq0
        · have hb := (roundDouble_bounds hq0).2
          have hqle : (d : ℚ) / t * (1 + 1 / 2 ^ 53) * t ≤
              3602879701896397 / 18014398509481984 * t := by
            have : (d : ℚ) / t * (1 + 1 / 2 ^ 53) * t = d * (1 + 1 / 2 ^ 53) := by
              rw [mul_right_comm, hqT]
            rw [this]
            linarith
          have := le_of_mul_le_mul_right hqle hT
          linarith
        · have := roundDouble_neg hq0
          linarith
    · intro hgt
      have h5 : (t : ℚ) < 5 * d := by
        have := mul_lt_mul_of_pos_right hgt hT
        rw [hqT] at this
        linarith
      have h5z : t + 1 ≤ 5 * d := by
        have : t < 5 * d := by exact_mod_cast h5
        omega
      have h5q : (t : ℚ) + 1 ≤ 5 * d := by exact_mod_cast h5z
      have hq0 : 0 ≤ (d : ℚ) / t := by
        have : (0 : ℚ) < 2 / 10 := by norm_num
        linarith
      have hb := (roundDouble_bounds hq0).1
      have hlt : 3602879701896397 / 18014398509481984 * (t : ℚ) <
          (d : ℚ) / t * (1 - 1 / 2 ^ 53) * t := by
        have : (d : ℚ) / t * (1 - 1 / 2 ^ 53) * t = d * (1 - 1 / 2 ^ 53) := by
          rw [mul_right_comm, hqT]
        rw [this]
        linarith
      have := lt_of_mul_lt_mul_right hlt hT.le
      linarith
  · constructor
    · intro hs
      by_contra hnot
      rw [not_lt] at hnot
      have h5 : -(t : ℚ) ≤ 5 * d := by
        have := mul_le_mul_of_nonneg_right hnot hT.le
        rw [hqT] at this
        linarith
      have h5z : -t ≤ 5 * d := by exact_mod_cast h5
      rcases eq_or_lt_of_le h5z with heq | hlt
      · have hq5 : (d : ℚ) / t = -(2 / 10) := by
          rw [div_eq_iff (ne_of_gt hT)]
          have : (-(t : ℚ)) = 5 * d := by exact_mod_cast heq
          linarith
        rw [hq5, roundDouble_one_fifth.2] at hs
        exact lt_irrefl _ hs
      · have hlt' : -(t : ℚ) + 1 ≤ 5 * d := by
          have : -t + 1 ≤ 5 * d := by omega
          exact_mod_cast this
        rcases le_or_lt ((d : ℚ) / t) 0 with hq0 | hq0
        · have hb := (roundDouble_bounds_neg hq0).1
          have hqle : -(3602879701896397 / 18014398509481984) * (t : ℚ) ≤
              (d : ℚ) / t * (1 + 1 / 2 ^ 53) * t := by
            have : (d : ℚ) / t * (1 + 1 / 2 ^ 53) * t = d * (1 + 1 / 2 ^ 53) := by
              rw [mul_right_comm, hqT]
            rw [this]
            linarith
          have := le_of_mul_le_mul_right hqle hT
          linarith
        · have := roundDouble_pos hq0
          linarith
    · intro hlt
      have h5 : 5 * (d : ℚ) < -t := by
        have := mul_lt_mul_of_pos_right hlt hT
        rw [hqT] at this
        linarith
      have h5z : 5 * d + 1 ≤ -t := by
        have : 5 * d < -t := by exact_mod_cast h5
        omega
      have h5q : 5 * (d : ℚ) + 1 ≤ -t := by exact_mod_cast h5z
      have hq0 : (d : ℚ) / t ≤ 0 := by
        have : (-(2 / 10) : ℚ) < 0 := by norm_num
        linarith
      have hb := (roundDouble_bounds_neg hq0).2
      have hlt2 : (d : ℚ) / t * (1 - 1 / 2 ^ 53) * t <
          -(3602879701896397 / 18014398509481984) * (t : ℚ) := by
        have : (d : ℚ) / t * (1 - 1 / 2 ^ 53) * t = d * (1 - 1 / 2 ^ 53) := by
          rw [mul_right_comm, hqT]
        rw [this]
        linarith
      have := lt_of_mul_lt_mul_right hlt2 hT.le
      linarith

/-- The double of a quotient of integers, the divisor at most `2^52`, is printed as `0.00` by
`toFixed(2)` exactly when the quotient is below `0.005` in absolute value. -/
theorem roundDouble_div_small (d t : ℤ) (ht : 0 < t) (hle : t ≤ 2 ^ 52) :
    2 * |roundDouble ((d : ℚ) / t)| * 10 ^ 2 < 1 ↔ 200 * |d| < t := by
  have hT : (0 : ℚ) < (t : ℚ) := by exact_mod_cast ht
  have hTle : (t : ℚ) ≤ 2 ^ 52 := by exact_mod_cast hle
  have hb := abs_roundDouble_bounds ((d : ℚ) / t)
  have habs : |(d : ℚ) / t| * t = |(d : ℚ)| := by
    rw [abs_div, abs_of_pos hT]
    field_simp
  have hcast : (200 * |d| < t) ↔ (200 * |(d : ℚ)| < t) := by
    constructor
    · intro h
      have : ((200 * |d| : ℤ) : ℚ) < (t : ℚ) := by exact_mod_cast h
      push_cast at this
      exact this
    · intro h
      have : ((200 * |d| : ℤ) : ℚ) < (t : ℚ) := by
        push_cast
        exact h
      exact_mod_cast this
  constructor
  · intro hs
    by_contra hnot
    have hge : t ≤ 200 * |d| := not_lt.mp hnot
    rcases eq_or_lt_of_le hge with heq | hlt
    · -- the quotient is 0.005 or -0.005, whose doubles are beyond 0.005
      have hdq : 200 * |(d : ℚ)| = t := by
        have : ((200 * |d| : ℤ) : ℚ) = (t : ℚ) := by exact_mod_cast heq.symm
        push_cast at this
        exact this
      rcases le_total 0 d with hd0 | hd0
      · have hq : (d : ℚ) / t = 1 / 200 := by
          rw [div_eq_iff (ne_of_gt hT)]
          have : |(d : ℚ)| = d := abs_of_nonneg (by exact_mod_cast hd0)
          rw [this] at hdq
          linarith
        rw [hq, roundDouble_one_two_hundredth.1] at hs
        norm_num [abs_of_pos] at hs
      · have hq : (d : ℚ) / t = -(1 / 200) := by
          rw [div_eq_iff (ne_of_gt hT)]
          have : |(d : ℚ)| = -d := abs_of_nonpos (by exact_mod_cast hd0)
          rw [this] at hdq
          linarith
        rw [hq, roundDouble_one_two_hundredth.2] at hs
        norm_num [abs_of_pos] at hs
    · have hlt' : (t : ℚ) + 1 ≤ 200 * |(d : ℚ)| := by
        have h1 : t + 1 ≤ 200 * |d| := by omega
        have : ((t + 1 : ℤ) : ℚ) ≤ ((200 * |d| : ℤ) : ℚ) := by exact_mod_cast h1
        push_cast at this
        exact this
      have h1 : |(d : ℚ) / t| * (1 - 1 / 2 ^ 53) * t ≤ |roundDouble ((d : ℚ) / t)| * t :=
        mul_le_mul_of_nonneg_right hb.1 hT.le
      have h2 : |(d : ℚ) / t| * (1 - 1 / 2 ^ 53) * t = |(d : ℚ)| * (1 - 1 / 2 ^ 53) := by
        rw [mul_right_comm, habs]
      have h3 : |roundDouble ((d : ℚ) / t)| * t < 1 / 200 * t := by
        have : |roundDouble ((d : ℚ) / t)| < 1 / 200 := by linarith
        exact mul_lt_mul_of_pos_right this hT
      rw [h2] at h1
      linarith
  · intro hs
    have hs' : 200 * |(d : ℚ)| ≤ t - 1 := by
      have h1 : 200 * |d| ≤ t - 1 := by omega
      have : ((200 * |d| : ℤ) : ℚ) ≤ ((t - 1 : ℤ) : ℚ) := by exact_mod_cast h1
      push_cast at this
      exact this
    have h1 : |roundDouble ((d : ℚ) / t)| * t ≤ |(d : ℚ) / t| * (1 + 1 / 2 ^ 53) * t :=
      mul_le_mul_of_nonneg_right hb.2 hT.le
    have h2 : |(d : ℚ) / t| * (1 + 1 / 2 ^ 53) * t = |(d : ℚ)| * (1 + 1 / 2 ^ 53) := by
      rw [mul_right_comm, habs]
    rw [h2] at h1
    have h3 : |roundDouble ((d : ℚ) / t)| * t < 1 / 200 * t := by linarith
    have := lt_of_mul_lt_mul_right h3 hT.le
    linarith

/-! ## Lemmas on the readability scorer -/

/-- The place of the level of a score in the list of levels, the hardest first. -/
theorem readingLevel_rank (f : ℤ) :
    ["Very Difficult", "Difficult", "Fairly Difficult", "Standard", "Fairly Easy", "Easy",
        "Very Easy"].indexOf (readingLevel f).1 =
      if f ≥ 90 then 6 else if f ≥ 80 then 5 else if f ≥ 70 then 4 else if f ≥ 60 then 3
      else if f ≥ 50 then 2 else if f ≥ 30 then 1 else 0 := by
  unfold readingLevel
  split_ifs <;> rfl

theorem readingLevel_rank_mono (f g : ℤ) (hfg : f ≤ g) :
    ["Very Difficult", "Difficult", "Fairly Difficult", "Standard", "Fairly Easy", "Easy",
        "Very Easy"].indexOf (readingLevel f).1 ≤
      ["Very Difficult", "Difficult", "Fairly Difficult", "Standard", "Fairly Easy", "Easy",
        "Very Easy"].indexOf (readingLevel g).1 := by
  rw [readingLevel_rank f, readingLevel_rank g]
  split_ifs <;> omega

/-! ## Lemmas on the summarizer -/

/-- What `trim` removes: white space in front and white space behind. -/
theorem trim_spec (text : JSString) :
    ∃ front back : JSString, text = front ++ trim text ++ back ∧
      (∀ c ∈ front, isWhiteSpace c = true) ∧ (∀ c ∈ back, isWhiteSpace c = true) := by
  refine ⟨text.takeWhile isWhiteSpace,
    ((text.dropWhile isWhiteSpace).reverse.takeWhile isWhiteSpace).reverse, ?_, ?_, ?_⟩
  · unfold trim
    rw [List.append_assoc, ← List.reverse_append, List.takeWhile_append_dropWhile,
      List.reverse_reverse, List.takeWhile_append_dropWhile]
  · intro c hc
    exact List.mem_takeWhile_imp hc
  · intro c hc
    exact List.mem_takeWhile_imp (List.mem_reverse.mp hc)

/-- The number of sentences `generateSummary` keeps: rounding `n / 3` to a double does not
change `min(3, ceil(n / 3))`. -/
theorem summary_size (n : Nat) :
    min 3 ⌈roundDouble ((n : ℚ) / 3)⌉.toNat = min 3 ⌈(n : ℚ) / 3⌉.toNat := by
  by_cases h : n ≤ 6
  · interval_cases n <;> decide!
  · have hn : (7 : ℚ) ≤ (n : ℚ) := by
      have : 7 ≤ n := by omega
      exact_mod_cast this
    have hpos : (0 : ℚ) ≤ (n : ℚ) / 3 := by positivity
    have hb := (roundDouble_bounds hpos).1
    have h1 : (2 : ℤ) < ⌈roundDouble ((n : ℚ) / 3)⌉ := by
      rw [Int.lt_ceil]
      have : (2 : ℚ) < (n : ℚ) / 3 * (1 - 1 / 2 ^ 53) := by
        have h7 : (7 : ℚ) / 3 * (1 - 1 / 2 ^ 53) ≤ (n : ℚ) / 3 * (1 - 1 / 2 ^ 53) :=
          mul_le_mul_of_nonneg_right (by linarith) (by norm_num)
        have : (2 : ℚ) < 7 / 3 * (1 - 1 / 2 ^ 53) := by norm_num
        linarith
      push_cast
      linarith
    have h2 : (2 : ℤ) < ⌈(n : ℚ) / 3⌉ := by
      rw [Int.lt_ceil]
      push_cast
      linarith
    omega

/-- Sorting a list of images is sorting the list behind them. -/
theorem sortBy_map {α β : Type} (f : α → β) (compareFn : β → β → Option ℤ) (l : List α) :
    sortBy compareFn (l.map f) = (sortBy (fun a b => compareFn (f a) (f b)) l).map f := by
  unfold sortBy
  exact (List.map_insertionSort (staysBefore fun a b => compareFn (f a) (f b))
    (staysBefore compareFn) f l (fun a _ b _ => Iff.rfl)).symm

theorem sortBy_perm {α : Type} (compareFn : α → α → Option ℤ) (l : List α) :
    (sortBy compareFn l).Perm l :=
  List.perm_insertionSort _ l

/-- Sorting, cutting and sorting again picks elements at distinct positions. -/
theorem sort_take_sort_positions {β γ : Type} (sentences : List JSString) (g : JSString → β)
    (first second : β → β → Option ℤ) (k : Nat) (out : β → γ) :
    ∃ positions : List Nat,
      positions.Nodup ∧ positions.length = min k sentences.length ∧
      (∀ i ∈ positions, i < sentences.length) ∧
      (sortBy second ((sortBy first (sentences.map g)).take k)).map out =
        positions.map (fun i => out (g (sentences.getD i []))) := by
  have hmap : sentences.map g = sentences.enum.map (fun p => g p.2) := by
    conv_lhs => rw [← List.enum_map_snd sentences]
    rw [List.map_map]
    rfl
  refine ⟨(sortBy (fun a b => second (g a.2) (g b.2))
    ((sortBy (fun a b => first (g a.2) (g b.2)) sentences.enum).take k)).map Prod.fst,
    ?_, ?_, ?_, ?_⟩
  · have h1 := ((sortBy_perm (fun a b => second (g a.2) (g b.2))
      ((sortBy (fun a b => first (g a.2) (g b.2)) sentences.enum).take k)).map Prod.fst)
    rw [h1.nodup_iff]
    have h2 : List.Sublist
        (((sortBy (fun a b => first (g a.2) (g b.2)) sentences.enum).take k).map Prod.fst)
        ((sortBy (fun a b => first (g a.2) (g b.2)) sentences.enum).map Prod.fst) :=
      (List.take_sublist _ _).map _
    refine List.Nodup.sublist h2 ?_
    have h3 := ((sortBy_perm (fun a b => first (g a.2) (g b.2)) sentences.enum).map Prod.fst)
    rw [h3.nodup_iff, List.enum_map_fst]
    exact List.nodup_range _
  · rw [List.length_map, (sortBy_perm _ _).length_eq, List.length_take,
      (sortBy_perm _ _).length_eq, List.enum_length]
  · intro i hi
    obtain ⟨p, hp, rfl⟩ := List.mem_map.mp hi
    have h1 := (sortBy_perm _ _).subset hp
    have h2 := (List.take_sublist _ _).subset h1
    have h3 := (sortBy_perm _ _).subset h2
    have := List.mem_enum_iff_getElem?.mp h3
    by_contra hge
    rw [List.getElem?_eq_none (by omega)] at this
    cases this
  · rw [hmap, sortBy_map, ← List.map_take, sortBy_map, List.map_map, List.map_map]
    apply List.map_congr_left
    intro p hp
    have h1 := (sortBy_perm _ _).subset hp
    have h2 := (List.take_sublist _ _).subset h1
    have h3 := (sortBy_perm _ _).subset h2
    have := List.mem_enum_iff_getElem?.mp h3
    simp only [Function.comp, List.getD_eq_getElem?_getD, this, Option.getD_some]

/-! ## Lemmas: the Flesch formula in doubles -/

theorem roundDouble_flesch_constants :
    roundDouble (206835 / 1000) = 7277359600993567 / 35184372088832 ∧
      roundDouble (1015 / 1000) = 4571153621781053 / 4503599627370496 ∧
      roundDouble (846 / 10) = 2976597878715187 / 35184372088832 := by
  decide!

/-- Two-sided form of the rounding error of a double. -/
theorem roundDouble_sub_bounds (x B : ℚ) (h : |x| ≤ B) :
    x - B / 2 ^ 53 ≤ roundDouble x ∧ roundDouble x ≤ x + B / 2 ^ 53 := by
  have h1 := abs_roundDouble_sub_le x
  have h2 : |x| / 2 ^ 53 ≤ B / 2 ^ 53 := div_le_div_of_nonneg_right h (by positivity)
  rw [abs_le] at h1
  constructor <;> linarith [h1.1, h1.2]

/-- The Flesch formula evaluated in doubles, at averages `a` and `b` that are given exactly,
is within `(1035 + 9 (1.015 a + 84.6 b)) / 2^53` of its exact value. -/
theorem flesch_double_error (a b : ℚ) (ha : 0 ≤ a) (hb : 0 ≤ b) :
    |roundDouble (roundDouble (roundDouble (206835 / 1000) -
          roundDouble (roundDouble (1015 / 1000) * roundDouble a)) -
        roundDouble (roundDouble (846 / 10) * roundDouble b)) -
      (206835 / 1000 - 1015 / 1000 * a - 846 / 10 * b)| ≤
      (1035 + 9 * (1015 / 1000 * a + 846 / 10 * b)) / 2 ^ 53 := by
  obtain ⟨hc0, hc1, hc2⟩ := roundDouble_flesch_constants
  rw [hc0, hc1, hc2]
  obtain ⟨ha1, ha2⟩ := roundDouble_bounds ha
  obtain ⟨hb1, hb2⟩ := roundDouble_bounds hb
  generalize roundDouble a = a1 at *
  generalize roundDouble b = b1 at *
  have ha0 : 0 ≤ a1 := by
    have : 0 ≤ a * (1 - 1 / 2 ^ 53) := mul_nonneg ha (by norm_num)
    linarith
  have hb0 : 0 ≤ b1 := by
    have : 0 ≤ b * (1 - 1 / 2 ^ 53) := mul_nonneg hb (by norm_num)
    linarith
  have hP1 : (0 : ℚ) ≤ 4571153621781053 / 4503599627370496 * a1 := by positivity
  have hP2 : (0 : ℚ) ≤ 2976597878715187 / 35184372088832 * b1 := by positivity
  obtain ⟨hp1l, hp1u⟩ := roundDouble_bounds hP1
  obtain ⟨hp2l, hp2u⟩ := roundDouble_bounds hP2
  generalize roundDouble (4571153621781053 / 4503599627370496 * a1) = p1 at *
  generalize roundDouble (2976597878715187 / 35184372088832 * b1) = p2 at *
  have hp1 : 0 ≤ p1 := by
    have : 0 ≤ 4571153621781053 / 4503599627370496 * a1 * (1 - 1 / 2 ^ 53) :=
      mul_nonneg hP1 (by norm_num)
    linarith
  have hp2 : 0 ≤ p2 := by
    have : 0 ≤ 2976597878715187 / 35184372088832 * b1 * (1 - 1 / 2 ^ 53) :=
      mul_nonneg hP2 (by norm_num)
    linarith
  have hQ : |(7277359600993567 / 35184372088832 : ℚ) - p1| ≤
      7277359600993567 / 35184372088832 + p1 := by
    rw [abs_le]
    constructor <;> linarith
  obtain ⟨hu1l, hu1u⟩ := roundDouble_sub_bounds _ _ hQ
  generalize roundDouble (7277359600993567 / 35184372088832 - p1) = u1 at *
  have hR : |u1 - p2| ≤ 7277359600993567 / 35184372088832 + p1 +
      (7277359600993567 / 35184372088832 + p1) / 2 ^ 53 + p2 := by
    rw [abs_le]
    constructor <;> linarith
  obtain ⟨hFl, hFu⟩ := roundDouble_sub_bounds _ _ hR
  generalize roundDouble (u1 - p2) = F at *
  rw [abs_le]
  constructor <;> linarith

/-- The number printed by `toFixed(d)` for `x ≥ 0` is within half a unit of `10^-d` of `x`. -/
theorem toFixed_value_near (d : Nat) (x : ℚ) (hx : 0 ≤ x) :
    (toFixed d x).negative = false ∧ |(toFixed d x).value d - x| ≤ 1 / (2 * 10 ^ d) := by
  have h10 : (0 : ℚ) < 10 ^ d := by positivity
  have hneg : (toFixed d x).negative = false := by
    unfold toFixed
    simp only [decide_eq_false_iff_not, not_lt]
    exact hx
  refine ⟨hneg, ?_⟩
  unfold Fixed.value
  rw [hneg]
  simp only [Bool.false_eq_true, if_false]
  unfold toFixed
  simp only
  rw [abs_of_nonneg hx]
  have hfl : 0 ≤ ⌊x * 10 ^ d + 1 / 2⌋ := Int.floor_nonneg.mpr (by positivity)
  have hcast : ((⌊x * 10 ^ d + 1 / 2⌋.toNat : ℕ) : ℚ) = (⌊x * 10 ^ d + 1 / 2⌋ : ℚ) := by
    have := Int.toNat_of_nonneg hfl
    exact_mod_cast this
  rw [hcast]
  have h1 := Int.floor_le (x * 10 ^ d + 1 / 2)
  have h2 := Int.lt_floor_add_one (x * 10 ^ d + 1 / 2)
  have hsub : (⌊x * 10 ^ d + 1 / 2⌋ : ℚ) / 10 ^ d - x =
      ((⌊x * 10 ^ d + 1 / 2⌋ : ℚ) - x * 10 ^ d) / 10 ^ d := by
    field_simp
    ring
  have habs : |(⌊x * 10 ^ d + 1 / 2⌋ : ℚ) - x * 10 ^ d| ≤ 1 / 2 := by
    rw [abs_le]
    constructor <;> linarith
  rw [hsub, abs_div, abs_of_pos h10]
  calc |(⌊x * 10 ^ d + 1 / 2⌋ : ℚ) - x * 10 ^ d| / 10 ^ d ≤ 1 / 2 / 10 ^ d :=
        div_le_div_of_nonneg_right habs h10.le
    _ = 1 / (2 * 10 ^ d) := by rw [div_div]

/-- The score in doubles is within the rounding error of the exact Flesch value. -/
theorem fleschScore_error (text : JSString) :
    |fleschScore text - exactFlesch text| ≤
      (1035 + 9 * (206835 / 1000 - exactFlesch text)) / 2 ^ 53 := by
  have h := flesch_double_error ((wordCount text : ℚ) / (sentenceCount text : ℚ))
    ((countSyllables text : ℚ) / (wordCount text : ℚ)) (by positivity) (by positivity)
  unfold fleschScore avgWordsPerSentence avgSyllablesPerWord exactFlesch
  refine le_trans h (le_of_eq ?_)
  ring

/-- Clamping to `[0, 100]` moves two integers no further apart. -/
theorem clamp_dist (x y : ℤ) (h : |x - y| ≤ 1) :
    |max 0 (min 100 x) - max 0 (min 100 y)| ≤ 1 := by
  rw [abs_le] at h ⊢
  omega

/-- Either the exact Flesch value is below -1 and both scores are 0, or the score in doubles
is within `2^-41` of the exact value. -/
theorem normalizedFlesch_cases (text : JSString) :
    (normalizedFlesch text = 0 ∧ specFleschScore text = 0) ∨
      |fleschScore text - exactFlesch text| < 1 / 2 ^ 41 := by
  have h := fleschScore_error text
  rcases lt_or_le (exactFlesch text) (-1) with hV | hV
  · left
    rw [abs_le] at h
    have hF : mathRound (fleschScore text) < 1 := by
      unfold mathRound
      rw [Int.floor_lt]
      push_cast
      linarith [h.2]
    have hE : mathRound (exactFlesch text) < 1 := by
      unfold mathRound
      rw [Int.floor_lt]
      push_cast
      linarith
    unfold normalizedFlesch specFleschScore
    constructor <;> omega
  · right
    refine lt_of_le_of_lt h ?_
    linarith

/-- Two numbers less than 1 apart round to integers at most 1 apart. -/
theorem mathRound_dist (x y : ℚ) (h : |x - y| < 1) : |mathRound x - mathRound y| ≤ 1 := by
  rw [abs_lt] at h
  unfold mathRound
  have hx1 := Int.floor_le (x + 1 / 2)
  have hx2 := Int.lt_floor_add_one (x + 1 / 2)
  have hy1 := Int.floor_le (y + 1 / 2)
  have hy2 := Int.lt_floor_add_one (y + 1 / 2)
  have h1 : (⌊x + 1 / 2⌋ : ℚ) < ⌊y + 1 / 2⌋ + 2 := by linarith [h.1, h.2]
  have h2 : (⌊y + 1 / 2⌋ : ℚ) < ⌊x + 1 / 2⌋ + 2 := by linarith [h.1, h.2]
  have h3 : ⌊x + 1 / 2⌋ < ⌊y + 1 / 2⌋ + 2 := by exact_mod_cast h1
  have h4 : ⌊y + 1 / 2⌋ < ⌊x + 1 / 2⌋ + 2 := by exact_mod_cast h2
  rw [abs_le]
  omega

/-- A number within `e` of `y` rounds like `y` when `y + 1/2` is at least `e` away from the
integers. -/
theorem mathRound_eq_of_near (x y e : ℚ) (h : |x - y| < e)
    (hlo : e ≤ Int.fract (y + 1 / 2)) (hhi : Int.fract (y + 1 / 2) ≤ 1 - e) :
    mathRound x = mathRound y := by
  rw [abs_lt] at h
  unfold mathRound
  rw [Int.floor_eq_iff]
  unfold Int.fract at hlo hhi
  constructor <;> linarith [h.1, h.2]

/-! ## Lemmas on the keyword extractor -/

theorem indexOf_lt_length_iff (a : JSString) (l : List JSString) :
    l.indexOf a < l.length ↔ a ∈ l := by
  unfold List.indexOf
  rw [List.findIdx_lt_length]
  constructor
  · rintro ⟨x, hx, hxa⟩
    rw [beq_iff_eq] at hxa
    exact hxa ▸ hx
  · intro h
    exact ⟨a, h, by simp⟩

theorem indexOf_append_left {a : JSString} {l₁ : List JSString} (l₂ : List JSString)
    (h : a ∈ l₁) : (l₁ ++ l₂).indexOf a = l₁.indexOf a := by
  have hlt := (indexOf_lt_length_iff a l₁).mpr h
  unfold List.indexOf at hlt ⊢
  rw [List.findIdx_append, if_pos hlt]

theorem indexOf_append_right {a : JSString} {l₁ : List JSString} (l₂ : List JSString)
    (h : a ∉ l₁) : (l₁ ++ l₂).indexOf a = l₁.length + l₂.indexOf a := by
  have hlt : ¬ l₁.indexOf a < l₁.length := fun hc => h ((indexOf_lt_length_iff a l₁).mp hc)
  unfold List.indexOf at hlt ⊢
  rw [List.findIdx_append, if_neg hlt, Nat.add_comm]

theorem keys_setOwn_of_mem (table : WordFreq) (word : JSString) (value : FreqValue)
    (h : word ∈ table.map Prod.fst) :
    (setOwn table word value).map Prod.fst = table.map Prod.fst := by
  have hany : table.any (fun entry => entry.1 == word) = true := by
    obtain ⟨e, he, hw⟩ := List.mem_map.mp h
    exact List.any_eq_true.mpr ⟨e, he, by simp [hw]⟩
  unfold setOwn
  rw [if_pos hany, List.map_map]
  apply List.map_congr_left
  intro e _
  by_cases hk : e.1 = word
  · simp [hk]
  · simp [hk]

theorem keys_setOwn_of_not_mem (table : WordFreq) (word : JSString) (value : FreqValue)
    (h : word ∉ table.map Prod.fst) :
    (setOwn table word value).map Prod.fst = table.map Prod.fst ++ [word] := by
  have hany : ¬ table.any (fun entry => entry.1 == word) = true := by
    intro hc
    obtain ⟨e, he, hw⟩ := List.any_eq_true.mp hc
    exact h (List.mem_map.mpr ⟨e, he, by simpa using hw⟩)
  unfold setOwn
  rw [if_neg hany]
  simp

/-- The keys of the frequency table after a run of the loop over `tokens`, started on a table
whose keys are the counted words of `pre` in order of first occurrence: they are the counted
words of `pre ++ tokens`, in order of first occurrence. -/
theorem foldl_countWord_keys (tokens : List JSString) :
    ∀ (pre : List JSString) (table : WordFreq),
      (∀ w, w ∈ table.map Prod.fst ↔
        w ∈ pre ∧ w.length > 3 ∧ ¬ stopWords.contains w = true ∧ w ≠ str "__proto__") →
      (table.map Prod.fst).Pairwise (fun a b => pre.indexOf a < pre.indexOf b) →
      (∀ w, w ∈ (tokens.foldl countWord table).map Prod.fst ↔
        w ∈ pre ++ tokens ∧ w.length > 3 ∧ ¬ stopWords.contains w = true ∧
          w ≠ str "__proto__") ∧
      ((tokens.foldl countWord table).map Prod.fst).Pairwise
        (fun a b => (pre ++ tokens).indexOf a < (pre ++ tokens).indexOf b) := by
  induction tokens with
  | nil =>
    intro pre table hmem hord
    simp only [List.foldl_nil, List.append_nil]
    exact ⟨hmem, hord⟩
  | cons t ts ih =>
    intro pre table hmem hord
    have happ : pre ++ t :: ts = (pre ++ [t]) ++ ts := by simp
    rw [List.foldl_cons, happ]
    have hord' : (table.map Prod.fst).Pairwise
        (fun a b => (pre ++ [t]).indexOf a < (pre ++ [t]).indexOf b) := by
      refine hord.imp_of_mem ?_
      intro a b ha hb hlt
      rw [indexOf_append_left _ ((hmem a).mp ha).1, indexOf_append_left _ ((hmem b).mp hb).1]
      exact hlt
    apply ih
    · intro w
      unfold countWord
      by_cases hq : t.length > 3 ∧ ¬ stopWords.contains t = true
      · rw [if_pos hq]
        by_cases hp : t = str "__proto__"
        · rw [if_pos hp, hmem]
          constructor
          · rintro ⟨h1, h2⟩
            exact ⟨List.mem_append_left _ h1, h2⟩
          · rintro ⟨h1, h2, h3, h4⟩
            refine ⟨?_, h2, h3, h4⟩
            rcases List.mem_append.mp h1 with h | h
            · exact h
            · rw [List.mem_singleton] at h
              exact absurd (h.trans hp) h4
        · rw [if_neg hp]
          by_cases hk : t ∈ table.map Prod.fst
          · rw [keys_setOwn_of_mem _ _ _ hk, hmem]
            constructor
            · rintro ⟨h1, h2⟩
              exact ⟨List.mem_append_left _ h1, h2⟩
            · rintro ⟨h1, h2⟩
              refine ⟨?_, h2⟩
              rcases List.mem_append.mp h1 with h | h
              · exact h
              · rw [List.mem_singleton] at h
                rw [h]
                exact ((hmem t).mp hk).1
          · rw [keys_setOwn_of_not_mem _ _ _ hk, List.mem_append, hmem, List.mem_append,
              List.mem_singleton]
            constructor
            · rintro (⟨h1, h2⟩ | h)
              · exact ⟨Or.inl h1, h2⟩
              · rw [h]
                exact ⟨Or.inr rfl, hq.1, hq.2, hp⟩
            · rintro ⟨h1 | h1, h2⟩
              · exact Or.inl ⟨h1, h2⟩
              · exact Or.inr h1
      · rw [if_neg hq, hmem]
        constructor
        · rintro ⟨h1, h2⟩
          exact ⟨List.mem_append_left _ h1, h2⟩
        · rintro ⟨h1, h2, h3, h4⟩
          refine ⟨?_, h2, h3, h4⟩
          rcases List.mem_append.mp h1 with h | h
          · exact h
          · rw [List.mem_singleton] at h
            rw [h] at h2 h3
            exact absurd ⟨h2, h3⟩ hq
    · unfold countWord
      by_cases hq : t.length > 3 ∧ ¬ stopWords.contains t = true
      · rw [if_pos hq]
        by_cases hp : t = str "__proto__"
        · rw [if_pos hp]
          exact hord'
        · rw [if_neg hp]
          by_cases hk : t ∈ table.map Prod.fst
          · rw [keys_setOwn_of_mem _ _ _ hk]
            exact hord'
          · rw [keys_setOwn_of_not_mem _ _ _ hk, List.pairwise_append]
            refine ⟨hord', List.pairwise_singleton _ _, ?_⟩
            intro a ha b hb
            rw [List.mem_singleton] at hb
            have hat : a ∈ pre := ((hmem a).mp ha).1
            have htp : t ∉ pre := fun hc => hk ((hmem t).mpr ⟨hc, hq.1, hq.2, hp⟩)
            rw [hb, indexOf_append_left _ hat, indexOf_append_right _ htp]
            have := (indexOf_lt_length_iff a pre).mpr hat
            omega
      · rw [if_neg hq]
        exact hord'

/-- The keys of `wordFreq`: the tokens longer than 3 units that are no stop word and are not
`__proto__`, in order of first occurrence. -/
theorem wordFreq_keys (text : JSString) :
    (∀ w, w ∈ (wordFreq text).map Prod.fst ↔
      w ∈ matchWords (toLowerCase text) ∧ w.length > 3 ∧ ¬ stopWords.contains w = true ∧
        w ≠ str "__proto__") ∧
    ((wordFreq text).map Prod.fst).Pairwise
      (fun a b => (matchWords (toLowerCase text)).indexOf a <
        (matchWords (toLowerCase text)).indexOf b) := by
  have h := foldl_countWord_keys (matchWords (toLowerCase text)) [] [] (by simp) (by simp)
  simpa [wordFreq] using h

/-- Insertion into a list keeps track of who overtook whom: if `T` holds from `a` to every
element and the list is pairwise `T`-or-overtaken, so is the list with `a` inserted. -/
theorem pairwise_orderedInsert_or {α : Type} (r : α → α → Prop) [DecidableRel r]
    (T : α → α → Prop) (a : α) :
    ∀ l : List α, l.Pairwise (fun x y => T x y ∨ ¬ r y x) → (∀ b ∈ l, T a b) →
      (l.orderedInsert r a).Pairwise (fun x y => T x y ∨ ¬ r y x) := by
  intro l
  induction l with
  | nil =>
    intro _ _
    simp
  | cons b l ih =>
    intro hl ha
    rw [List.orderedInsert]
    rw [List.pairwise_cons] at hl
    split_ifs with hab
    · rw [List.pairwise_cons, List.pairwise_cons]
      exact ⟨fun c hc => Or.inl (ha c hc), hl.1, hl.2⟩
    · rw [List.pairwise_cons]
      refine ⟨?_, ih hl.2 (fun c hc => ha c (List.mem_cons_of_mem _ hc))⟩
      intro c hc
      rcases (List.mem_orderedInsert r).mp hc with h | h
      · rw [h]
        exact Or.inr hab
      · exact hl.1 c h

/-- A stable sort changes the order of two elements only when the comparison asks for it. -/
theorem pairwise_insertionSort_or {α : Type} (r : α → α → Prop) [DecidableRel r]
    (T : α → α → Prop) :
    ∀ l : List α, l.Pairwise T → (l.insertionSort r).Pairwise (fun x y => T x y ∨ ¬ r y x) := by
  intro l
  induction l with
  | nil =>
    intro _
    simp
  | cons a l ih =>
    intro hl
    rw [List.pairwise_cons] at hl
    rw [List.insertionSort]
    exact pairwise_orderedInsert_or r T a _ (ih hl.2)
      (fun b hb => hl.1 b ((List.mem_insertionSort r).mp hb))

/-- The value `arrayIndex` reads off a key, as a number written in base 10. -/
theorem foldl_digits_eq_ofDigits (key : JSString) :
    key.foldl (fun acc c => 10 * acc + (c - 48)) 0 =
      Nat.ofDigits 10 (key.reverse.map (fun c => c - 48)) := by
  rw [Nat.ofDigits_eq_foldr, List.foldr_map, List.foldr_reverse]
  congr 1
  funext acc c
  simp only [Nat.cast_id]
  omega

theorem arrayIndex_eq_some {key : JSString} {v : Nat} (h : arrayIndex key = some v) :
    key ≠ [] ∧ (∀ c ∈ key, 48 ≤ c ∧ c ≤ 57) ∧ (key.head? ≠ some 48 ∨ key.length = 1) ∧
      v = Nat.ofDigits 10 (key.reverse.map (fun c => c - 48)) := by
  unfold arrayIndex at h
  simp only at h
  split_ifs at h with hc
  obtain ⟨h1, h2, h3, _⟩ := hc
  refine ⟨h1, ?_, h3, ?_⟩
  · intro c hcm
    have := List.all_eq_true.mp h2 c hcm
    simpa using this
  · rw [← foldl_digits_eq_ofDigits]
    exact (Option.some.inj h).symm

theorem digits_of_no_leading_zero (key : JSString) (hne : key ≠ [])
    (hd : ∀ c ∈ key, 48 ≤ c ∧ c ≤ 57) (hz : key.head? ≠ some 48) :
    Nat.digits 10 (Nat.ofDigits 10 (key.reverse.map (fun c => c - 48))) =
      key.reverse.map (fun c => c - 48) := by
  apply Nat.digits_ofDigits 10 (by norm_num)
  · intro l hl
    obtain ⟨c, hc, rfl⟩ := List.mem_map.mp hl
    have := hd c (List.mem_reverse.mp hc)
    omega
  · intro hnil
    cases key with
    | nil => exact absurd rfl hne
    | cons c t =>
      have hc := hd c (List.mem_cons_self _ _)
      have hc48 : c ≠ 48 := fun h => hz (by simp [h])
      simp only [List.reverse_cons, List.map_append, List.map_cons, List.map_nil,
        List.getLast_append_singleton]
      omega

theorem arrayIndex_injective {a b : JSString} {v : Nat} (ha : arrayIndex a = some v)
    (hb : arrayIndex b = some v) : a = b := by
  obtain ⟨ha1, ha2, ha3, hav⟩ := arrayIndex_eq_some ha
  obtain ⟨hb1, hb2, hb3, hbv⟩ := arrayIndex_eq_some hb
  have hzero : ∀ k : JSString, k ≠ [] → (∀ c ∈ k, 48 ≤ c ∧ c ≤ 57) → k.head? = some 48 →
      k.length = 1 → k = [48] := by
    intro k _ _ hh hl
    match k, hh, hl with
    | [c], hh, _ => simpa using hh
  have hdigits : ∀ k : JSString, k ≠ [] → (∀ c ∈ k, 48 ≤ c ∧ c ≤ 57) →
      (k.head? ≠ some 48 ∨ k.length = 1) →
      v = Nat.ofDigits 10 (k.reverse.map (fun c => c - 48)) →
      k.reverse.map (fun c => c - 48) = if v = 0 then [0] else Nat.digits 10 v := by
    intro k h1 h2 h3 hv
    by_cases hz : k.head? = some 48
    · have hl : k.length = 1 := by
        rcases h3 with h | h
        · exact absurd hz h
        · exact h
      have hk := hzero k h1 h2 hz hl
      subst hk
      have : v = 0 := by rw [hv]; simp [Nat.ofDigits]
      rw [if_pos this]
      rfl
    · have hd := digits_of_no_leading_zero k h1 h2 hz
      rw [← hv] at hd
      have hv0 : v ≠ 0 := by
        intro h0
        rw [h0, Nat.digits_zero] at hd
        have : k.reverse = [] := List.map_eq_nil_iff.mp hd.symm
        exact h1 (List.reverse_eq_nil_iff.mp this)
      rw [if_neg hv0, hd]
  have hab : a.reverse.map (fun c => c - 48) = b.reverse.map (fun c => c - 48) := by
    rw [hdigits a ha1 ha2 ha3 hav, hdigits b hb1 hb2 hb3 hbv]
  have hinj : ∀ (l₁ l₂ : JSString), (∀ c ∈ l₁, 48 ≤ c) → (∀ c ∈ l₂, 48 ≤ c) →
      l₁.map (fun c => c - 48) = l₂.map (fun c => c - 48) → l₁ = l₂ := by
    intro l₁
    induction l₁ with
    | nil =>
      intro l₂ _ _ h
      exact (List.map_eq_nil_iff.mp h.symm).symm
    | cons c t ih =>
      intro l₂ h1 h2 h
      cases l₂ with
      | nil => simp at h
      | cons d u =>
        simp only [List.map_cons, List.cons.injEq] at h
        have hc := h1 c (List.mem_cons_self _ _)
        have hd := h2 d (List.mem_cons_self _ _)
        rw [ih u (fun x hx => h1 x (List.mem_cons_of_mem _ hx))
          (fun x hx => h2 x (List.mem_cons_of_mem _ hx)) h.2]
        congr 1
        omega
  have := hinj a.reverse b.reverse (fun c hc => (ha2 c (List.mem_reverse.mp hc)).1)
    (fun c hc => (hb2 c (List.mem_reverse.mp hc)).1) hab
  exact List.reverse_injective this

/-- The order of `Object.entries(wordFreq)`: keys that are array indices first, by ascending
index, then the other keys by first occurrence among the tokens. -/
theorem objectEntries_order (text : JSString) :
    (objectEntries (wordFreq text)).Pairwise (fun x y =>
      match arrayIndex x.1, arrayIndex y.1 with
      | some m, some n => m < n
      | some _, none => True
      | none, some _ => False
      | none, none =>
        (matchWords (toLowerCase text)).indexOf x.1 <
          (matchWords (toLowerCase text)).indexOf y.1) := by
  have hkeys := ((wordFreq_keys text).2 : _)
  have hnodup : ((wordFreq text).map Prod.fst).Nodup :=
    hkeys.imp (fun {a b} hab hc => by rw [hc] at hab; exact lt_irrefl _ hab)
  rw [List.pairwise_map] at hkeys
  unfold objectEntries
  rw [List.pairwise_append]
  refine ⟨?_, ?_, ?_⟩
  · haveI : IsTotal (JSString × FreqValue)
        (fun a b => (arrayIndex a.1).getD 0 ≤ (arrayIndex b.1).getD 0) :=
      ⟨fun a b => le_total _ _⟩
    haveI : IsTrans (JSString × FreqValue)
        (fun a b => (arrayIndex a.1).getD 0 ≤ (arrayIndex b.1).getD 0) :=
      ⟨fun a b c hab hbc => le_trans hab hbc⟩
    have hsorted := List.sorted_insertionSort
      (fun a b : JSString × FreqValue => (arrayIndex a.1).getD 0 ≤ (arrayIndex b.1).getD 0)
      ((wordFreq text).filter (fun entry => (arrayIndex entry.1).isSome))
    have hperm := List.perm_insertionSort
      (fun a b : JSString × FreqValue => (arrayIndex a.1).getD 0 ≤ (arrayIndex b.1).getD 0)
      ((wordFreq text).filter (fun entry => (arrayIndex entry.1).isSome))
    have hnd : (((wordFreq text).filter (fun entry => (arrayIndex entry.1).isSome)).insertionSort
        (fun a b => (arrayIndex a.1).getD 0 ≤ (arrayIndex b.1).getD 0)).Pairwise
        (fun x y => x.1 ≠ y.1) := by
      rw [← List.pairwise_map (f := Prod.fst) (R := fun a b => a ≠ b)]
      exact ((hperm.map Prod.fst).nodup_iff).mpr
        (hnodup.sublist ((List.filter_sublist _).map Prod.fst))
    refine List.Pairwise.imp_of_mem ?_ (hsorted.and hnd)
    intro x y hx hy hxy
    have hx' := (List.mem_filter.mp ((List.mem_insertionSort _).mp hx)).2
    have hy' := (List.mem_filter.mp ((List.mem_insertionSort _).mp hy)).2
    obtain ⟨m, hm⟩ := Option.isSome_iff_exists.mp hx'
    obtain ⟨n, hn⟩ := Option.isSome_iff_exists.mp hy'
    obtain ⟨hle, hne⟩ := hxy
    rw [hm, hn] at hle
    rw [hm, hn]
    have hmn : m ≠ n := by
      intro hc
      rw [hc] at hm
      exact hne (arrayIndex_injective hm hn)
    exact lt_of_le_of_ne hle hmn
  · refine List.Pairwise.imp_of_mem ?_ (hkeys.sublist (List.filter_sublist _))
    intro x y hx hy hxy
    have hx' := (List.mem_filter.mp hx).2
    have hy' := (List.mem_filter.mp hy).2
    have hm : arrayIndex x.1 = none := by
      cases h : arrayIndex x.1 with
      | none => rfl
      | some v => rw [h] at hx'; simp at hx'
    have hn : arrayIndex y.1 = none := by
      cases h : arrayIndex y.1 with
      | none => rfl
      | some v => rw [h] at hy'; simp at hy'
    rw [hm, hn]
    exact hxy
  · intro x hx y hy
    have hx' := (List.mem_filter.mp ((List.mem_insertionSort _).mp hx)).2
    have hy' := (List.mem_filter.mp hy).2
    obtain ⟨m, hm⟩ := Option.isSome_iff_exists.mp hx'
    have hn : arrayIndex y.1 = none := by
      cases h : arrayIndex y.1 with
      | none => rfl
      | some v => rw [h] at hy'; simp at hy'
    rw [hm, hn]
    trivial

theorem staysBefore_of_eq (a b : JSString × FreqValue) (h : a.2 = b.2) :
    staysBefore compareFrequency a b := by
  intro v hv
  unfold compareFrequency at hv
  rw [h] at hv
  cases hb : b.2.toNumber with
  | none => rw [hb] at hv; cases hv
  | some x =>
    rw [hb] at hv
    simp only [Option.some.injEq] at hv
    omega

/-! ## Lemmas on the values of the frequency table -/

theorem getOwn_of_mem (table : WordFreq) (word : JSString) (h : word ∈ table.map Prod.fst) :
    ∃ e ∈ table, e.1 = word ∧ getOwn table word = some e.2 := by
  unfold getOwn
  cases hf : table.find? (fun entry => entry.1 == word) with
  | none =>
    obtain ⟨e, he, hw⟩ := List.mem_map.mp h
    have := List.find?_eq_none.mp hf e he
    simp [hw] at this
  | some e =>
    refine ⟨e, List.mem_of_find?_eq_some hf, ?_, rfl⟩
    have := List.find?_some hf
    simpa using this

theorem getOwn_of_not_mem (table : WordFreq) (word : JSString)
    (h : word ∉ table.map Prod.fst) : getOwn table word = none := by
  unfold getOwn
  cases hf : table.find? (fun entry => entry.1 == word) with
  | none => rfl
  | some e =>
    exfalso
    apply h
    have h1 := List.find?_some hf
    exact List.mem_map.mpr ⟨e, List.mem_of_find?_eq_some hf, by simpa using h1⟩

/-- The value of each key of the frequency table after a run of the loop: the number of
occurrences of the key among the tokens read, as a number, or for the key `constructor` as that
many characters `1` after the source text of `Object`. -/
theorem foldl_countWord_values (tokens : List JSString) :
    ∀ (pre : List JSString) (table : WordFreq),
      (∀ w, w ∈ table.map Prod.fst ↔
        w ∈ pre ∧ w.length > 3 ∧ ¬ stopWords.contains w = true ∧ w ≠ str "__proto__") →
      (table.map Prod.fst).Pairwise (fun a b => pre.indexOf a < pre.indexOf b) →
      (∀ e ∈ table, e.2 =
        if e.1 = str "constructor" then FreqValue.text (pre.count e.1)
        else FreqValue.count (pre.count e.1)) →
      ∀ e ∈ tokens.foldl countWord table, e.2 =
        if e.1 = str "constructor" then FreqValue.text ((pre ++ tokens).count e.1)
        else FreqValue.count ((pre ++ tokens).count e.1) := by
  induction tokens with
  | nil =>
    intro pre table _ _ hval
    simpa using hval
  | cons t ts ih =>
    intro pre table hmem hord hval
    have happ : pre ++ t :: ts = (pre ++ [t]) ++ ts := by simp
    have hstep := foldl_countWord_keys [t] pre table hmem hord
    simp only [List.foldl_cons, List.foldl_nil] at hstep
    rw [List.foldl_cons, happ]
    apply ih (pre ++ [t]) (countWord table t) hstep.1 hstep.2
    have hother : ∀ e ∈ table, e.1 ≠ t → e.2 =
        if e.1 = str "constructor" then FreqValue.text ((pre ++ [t]).count e.1)
        else FreqValue.count ((pre ++ [t]).count e.1) := by
      intro e he hne
      have : (pre ++ [t]).count e.1 = pre.count e.1 := by
        rw [List.count_append, List.count_singleton]
        simp [Ne.symm hne]
      rw [this]
      exact hval e he
    unfold countWord
    by_cases hq : t.length > 3 ∧ ¬ stopWords.contains t = true
    · rw [if_pos hq]
      by_cases hp : t = str "__proto__"
      · rw [if_pos hp]
        intro e he
        apply hother e he
        intro hc
        have := ((hmem e.1).mp (List.mem_map_of_mem _ he)).2.2.2
        exact this (hc.trans hp)
      · rw [if_neg hp]
        by_cases hk : t ∈ table.map Prod.fst
        · obtain ⟨e₀, he₀, hkey, hget⟩ := getOwn_of_mem table t hk
          have hany : table.any (fun entry => entry.1 == t) = true :=
            List.any_eq_true.mpr ⟨e₀, he₀, by simp [hkey]⟩
          have hinc : increment table t =
              if t = str "constructor" then FreqValue.text ((pre ++ [t]).count t)
              else FreqValue.count ((pre ++ [t]).count t) := by
            have hv := hval e₀ he₀
            rw [hkey] at hv
            have hcount : (pre ++ [t]).count t = pre.count t + 1 := by
              rw [List.count_append, List.count_singleton]
              simp
            unfold increment
            rw [hget, hv, hcount]
            split_ifs <;> rfl
          unfold setOwn
          rw [if_pos hany]
          intro e he
          obtain ⟨e₁, he₁, rfl⟩ := List.mem_map.mp he
          by_cases h1 : e₁.1 = t
          · simp only [h1, if_true]
            exact hinc
          · simp only [h1, if_false]
            exact hother e₁ he₁ h1
        · have hany : ¬ table.any (fun entry => entry.1 == t) = true := by
            intro hc
            obtain ⟨e, he, hw⟩ := List.any_eq_true.mp hc
            exact hk (List.mem_map.mpr ⟨e, he, by simpa using hw⟩)
          have htp : t ∉ pre := fun hc => hk ((hmem t).mpr ⟨hc, hq.1, hq.2, hp⟩)
          have hcount : (pre ++ [t]).count t = 1 := by
            rw [List.count_append, List.count_singleton, List.count_eq_zero.mpr htp]
            simp
          unfold setOwn
          rw [if_neg hany]
          intro e he
          rcases List.mem_append.mp he with h | h
          · apply hother e h
            intro hc
            exact hk (hc ▸ List.mem_map_of_mem _ h)
          · rw [List.mem_singleton] at h
            rw [h]
            simp only
            unfold increment
            rw [getOwn_of_not_mem table t hk, hcount]
    · rw [if_neg hq]
      intro e he
      apply hother e he
      intro hc
      have := (hmem e.1).mp (List.mem_map_of_mem _ he)
      rw [hc] at this
      exact hq ⟨this.2.1, this.2.2.1⟩

/-- The values of `wordFreq`: each key is paired with the number of tokens equal to it, as a
number, or for the key `constructor` as a string. -/
theorem wordFreq_values (text : JSString) :
    ∀ e ∈ wordFreq text, e.2 =
      if e.1 = str "constructor" then
        FreqValue.text ((matchWords (toLowerCase text)).count e.1)
      else FreqValue.count ((matchWords (toLowerCase text)).count e.1) := by
  have h := foldl_countWord_values (matchWords (toLowerCase text)) [] [] (by simp) (by simp)
    (by simp)
  simpa [wordFreq] using h

/-! ## Lemmas on the result of the keyword extractor -/

theorem mem_objectEntries (table : WordFreq) (e : JSString × FreqValue) :
    e ∈ objectEntries table ↔ e ∈ table := by
  unfold objectEntries
  rw [List.mem_append, List.mem_insertionSort, List.mem_filter, List.mem_filter]
  constructor
  · rintro (h | h) <;> exact h.1
  · intro h
    cases hi : (arrayIndex e.1).isSome
    · exact Or.inr ⟨h, by simp⟩
    · exact Or.inl ⟨h, rfl⟩

theorem mem_extractKeywords {text : JSString} {k : Keyword} (h : k ∈ extractKeywords text) :
    ∃ e ∈ wordFreq text, k.word = e.1 ∧ k.frequency = e.2 ∧
      k.importance = e.2.toNumber.map (fun freq => min 100 (freq * 10)) := by
  unfold extractKeywords sortBy at h
  obtain ⟨e, he, rfl⟩ := List.mem_map.mp h
  have h1 := (List.take_sublist _ _).subset he
  rw [List.mem_insertionSort, mem_objectEntries] at h1
  exact ⟨e, h1, rfl, rfl, rfl⟩

/-- What holds of the result on every text: at most 10 entries, each a token of the text longer
than 3 units that is no stop word. -/
theorem extractKeywords_words (text : JSString) :
    (extractKeywords text).length ≤ 10 ∧
      ∀ k ∈ extractKeywords text, k.word ∈ matchWords (toLowerCase text) ∧
        k.word.length > 3 ∧ ¬ stopWords.contains k.word = true := by
  constructor
  · unfold extractKeywords
    rw [List.length_map, List.length_take]
    exact Nat.min_le_left _ _
  · intro k hk
    obtain ⟨e, he, hw, -, -⟩ := mem_extractKeywords hk
    have := ((wordFreq_keys text).1 e.1).mp (List.mem_map_of_mem _ he)
    rw [hw]
    exact ⟨this.1, this.2.1, this.2.2.1⟩

/-- On a text without the token `constructor`, the frequency of an entry is the number of tokens
equal to its word, a positive integer, and its importance is `min(100, 10 * frequency)`. -/
theorem extractKeywords_frequency (text : JSString)
    (h : str "constructor" ∉ matchWords (toLowerCase text)) :
    ∀ k ∈ extractKeywords text,
      k.frequency = .count ((matchWords (toLowerCase text)).count k.word) ∧
      0 < (matchWords (toLowerCase text)).count k.word ∧
      k.importance = some (min 100 (((matchWords (toLowerCase text)).count k.word : ℤ) * 10)) := by
  intro k hk
  obtain ⟨e, he, hw, hf, hi⟩ := mem_extractKeywords hk
  have hkey := ((wordFreq_keys text).1 e.1).mp (List.mem_map_of_mem _ he)
  have hne : e.1 ≠ str "constructor" := fun hc => h (hc ▸ hkey.1)
  have hval := wordFreq_values text e he
  rw [if_neg hne] at hval
  rw [hw, hf, hi, hval]
  exact ⟨rfl, List.count_pos_iff.mpr hkey.1, rfl⟩

theorem sortBy_compareFrequency_sorted (l : List (JSString × FreqValue))
    (h : ∀ e ∈ l, ∃ n, e.2 = .count n) :
    (sortBy compareFrequency l).Pairwise
      (fun a b => ∃ m n, a.2 = .count m ∧ b.2 = .count n ∧ n ≤ m) := by
  have hrel : ∀ a ∈ l, ∀ b ∈ l, staysBefore compareFrequency a b ↔
      (fun x y : JSString × FreqValue => y.2.toNumber.getD 0 ≤ x.2.toNumber.getD 0) a b := by
    intro a ha b hb
    obtain ⟨m, hm⟩ := h a ha
    obtain ⟨n, hn⟩ := h b hb
    unfold staysBefore compareFrequency
    simp only [hm, hn, FreqValue.toNumber, Option.getD_some, Option.some.injEq]
    constructor
    · intro hs
      have := hs _ rfl
      omega
    · intro hs v hv
      omega
  haveI : IsTotal (JSString × FreqValue)
      (fun x y => y.2.toNumber.getD 0 ≤ x.2.toNumber.getD 0) := ⟨fun a b => le_total _ _⟩
  haveI : IsTrans (JSString × FreqValue)
      (fun x y => y.2.toNumber.getD 0 ≤ x.2.toNumber.getD 0) :=
    ⟨fun a b c hab hbc => le_trans hbc hab⟩
  have heq := List.map_insertionSort (staysBefore compareFrequency)
    (fun x y : JSString × FreqValue => y.2.toNumber.getD 0 ≤ x.2.toNumber.getD 0) id l hrel
  rw [List.map_id, List.map_id] at heq
  unfold sortBy
  rw [heq]
  have hsorted := List.sorted_insertionSort
    (fun x y : JSString × FreqValue => y.2.toNumber.getD 0 ≤ x.2.toNumber.getD 0) l
  refine List.Pairwise.imp_of_mem ?_ hsorted
  intro a b ha hb hab
  obtain ⟨m, hm⟩ := h a ((List.mem_insertionSort _).mp ha)
  obtain ⟨n, hn⟩ := h b ((List.mem_insertionSort _).mp hb)
  refine ⟨m, n, hm, hn, ?_⟩
  simp only [hm, hn, FreqValue.toNumber, Option.getD_some] at hab
  exact_mod_cast hab

/-- On a text without the token `constructor`, the frequencies are numbers and the list is
sorted by frequency in non-increasing order. -/
theorem extractKeywords_sorted (text : JSString)
    (h : str "constructor" ∉ matchWords (toLowerCase text)) :
    (extractKeywords text).Pairwise
      (fun a b => ∃ m n, a.frequency = .count m ∧ b.frequency = .count n ∧ n ≤ m) := by
  have hcounts : ∀ e ∈ objectEntries (wordFreq text), ∃ n, e.2 = .count n := by
    intro e he
    rw [mem_objectEntries] at he
    have hkey := ((wordFreq_keys text).1 e.1).mp (List.mem_map_of_mem _ he)
    have hne : e.1 ≠ str "constructor" := fun hc => h (hc ▸ hkey.1)
    have hval := wordFreq_values text e he
    rw [if_neg hne] at hval
    exact ⟨_, hval⟩
  have hs := sortBy_compareFrequency_sorted _ hcounts
  unfold extractKeywords
  rw [List.pairwise_map]
  exact hs.sublist (List.take_sublist _ _)

/-! ## Lemmas on the tokenizer and on case -/

/-- A unit that is no word character ends the token under way and starts the scan afresh. -/
theorem matchWordsAux_append_separator (x y : JSString) (c : Nat)
    (hc : isWordChar c = false) :
    ∀ cur : List Nat,
      matchWordsAux cur (x ++ c :: y) = matchWordsAux cur x ++ matchWords y := by
  induction x with
  | nil =>
    intro cur
    show matchWordsAux cur (c :: y) = matchWordsAux cur [] ++ matchWords y
    by_cases hcur : cur = []
    · simp [matchWordsAux, hc, hcur, matchWords]
    · simp [matchWordsAux, hc, hcur, matchWords]
  | cons d xs ih =>
    intro cur
    show matchWordsAux cur (d :: (xs ++ c :: y)) = matchWordsAux cur (d :: xs) ++ matchWords y
    by_cases hd : isWordChar d = true
    · simp [matchWordsAux, hd, ih]
    · by_cases hcur : cur = []
      · simp [matchWordsAux, hd, hcur, ih]
      · simp [matchWordsAux, hd, hcur, ih]

/-- The tokens of two texts joined by a unit that is no word character. -/
theorem matchWords_append_separator (x y : JSString) (c : Nat) (hc : isWordChar c = false) :
    matchWords (x ++ c :: y) = matchWords x ++ matchWords y :=
  matchWordsAux_append_separator x y c hc []

theorem toLowerCase_append (a b : JSString) :
    toLowerCase (a ++ b) = toLowerCase a ++ toLowerCase b := by
  unfold toLowerCase
  exact List.flatMap_append a b _

/-- Lower-casing twice is lower-casing once. -/
theorem toLowerCase_idem (text : JSString) : toLowerCase (toLowerCase text) = toLowerCase text := by
  induction text with
  | nil => rfl
  | cons c cs ih =>
    have hsplit : toLowerCase (c :: cs) = lowerUnit c ++ toLowerCase cs := by
      unfold toLowerCase
      rw [List.flatMap_cons]
    have hunit : toLowerCase (lowerUnit c) = lowerUnit c := by
      by_cases h1 : 65 ≤ c ∧ c ≤ 90
      · have h4 : ¬ (65 ≤ c + 32 ∧ c + 32 ≤ 90) := by omega
        have h5 : c + 32 ≠ 8490 := by omega
        have h6 : c + 32 ≠ 304 := by omega
        have hl : lowerUnit c = [c + 32] := by
          unfold lowerUnit
          rw [if_pos h1]
        have hl2 : lowerUnit (c + 32) = [c + 32] := by
          unfold lowerUnit
          rw [if_neg h4, if_neg h5, if_neg h6]
        rw [hl]
        unfold toLowerCase
        rw [List.flatMap_cons, hl2]
        rfl
      · by_cases h2 : c = 8490
        · subst h2
          decide
        · by_cases h3 : c = 304
          · subst h3
            decide
          · have hl : lowerUnit c = [c] := by
              unfold lowerUnit
              rw [if_neg h1, if_neg h2, if_neg h3]
            rw [hl]
            unfold toLowerCase
            rw [List.flatMap_cons, hl]
            rfl
    rw [hsplit, toLowerCase_append, hunit, ih]

/-- On ASCII, lower-casing the text in upper case is lower-casing the text. -/
theorem toLowerCase_upperCaseAscii (text : JSString) (hascii : ∀ c ∈ text, c < 128) :
    toLowerCase (upperCaseAscii text) = toLowerCase text := by
  induction text with
  | nil => rfl
  | cons c cs ih =>
    have hc : c < 128 := hascii c (List.mem_cons_self _ _)
    have hcs := ih (fun d hd => hascii d (List.mem_cons_of_mem _ hd))
    unfold upperCaseAscii at hcs ⊢
    unfold toLowerCase at hcs ⊢
    rw [List.map_cons, List.flatMap_cons, List.flatMap_cons, hcs]
    congr 1
    unfold lowerUnit
    by_cases hl : 97 ≤ c ∧ c ≤ 122
    · rw [if_pos hl]
      have h1 : 65 ≤ c - 32 ∧ c - 32 ≤ 90 := by omega
      have h2 : ¬ (65 ≤ c ∧ c ≤ 90) := by omega
      have h3 : c ≠ 8490 := by omega
      have h4 : c ≠ 304 := by omega
      rw [if_pos h1, if_neg h2, if_neg h3, if_neg h4]
      congr 1
      omega
    · rw [if_neg hl]

/-- The sentiment depends on the text through its lower-case form only. -/
theorem analyzeSentiment_congr {a b : JSString} (h : toLowerCase a = toLowerCase b) :
    analyzeSentiment a = analyzeSentiment b := by
  unfold analyzeSentiment sentimentScore positiveCount negativeCount
  rw [h]

/-- The keywords depend on the text through its lower-case form only. -/
theorem extractKeywords_congr {a b : JSString} (h : toLowerCase a = toLowerCase b) :
    extractKeywords a = extractKeywords b := by
  unfold extractKeywords wordFreq
  rw [h]

/-! ## Lemmas on the syllable estimate -/

/-- Two more vowels in the run under way add one to the sum of the halves rounded up. -/
theorem vowelRunsAux_add_two (word : JSString) :
    ∀ run : Nat, ((vowelRunsAux (run + 2) word).map (fun n => (n + 1) / 2)).sum =
      1 + ((vowelRunsAux run word).map (fun n => (n + 1) / 2)).sum := by
  induction word with
  | nil =>
    intro run
    by_cases h : run = 0
    · subst h
      decide
    · simp only [vowelRunsAux, if_neg h, if_neg (Nat.succ_ne_zero (run + 1)), List.map_cons,
        List.map_nil, List.sum_cons, List.sum_nil]
      omega
  | cons c cs ih =>
    intro run
    by_cases hc : isVowel c = true
    · simp only [vowelRunsAux, hc, if_true]
      exact ih (run + 1)
    · have hc2 : isVowel c = false := by simpa using hc
      by_cases h : run = 0
      · subst h
        simp [vowelRunsAux, hc2]
      · simp only [vowelRunsAux, hc2, Bool.false_eq_true, if_false, if_neg h,
          if_neg (Nat.succ_ne_zero (run + 1)), List.map_cons, List.sum_cons]
        omega

/-- The matches of `/[aeiouy]{1,2}/g` are, run by run, half the length of the run rounded
up. -/
theorem vowelGroups_eq_runs :
    ∀ word : JSString,
      vowelGroups word = ((vowelRuns word).map (fun n => (n + 1) / 2)).sum
  | [] => rfl
  | [c] => by
    unfold vowelRuns
    by_cases hc : isVowel c = true
    · simp [vowelGroups, vowelRunsAux, hc]
    · simp [vowelGroups, vowelRunsAux, hc]
  | c :: d :: rest => by
    have ih1 := vowelGroups_eq_runs rest
    have ih2 := vowelGroups_eq_runs (d :: rest)
    unfold vowelRuns at ih1 ih2 ⊢
    by_cases hc : isVowel c = true
    · by_cases hd : isVowel d = true
      · have h2 := vowelRunsAux_add_two rest 0
        simp only [vowelGroups, hc, hd, if_true, vowelRunsAux, ih1]
        exact h2.symm
      · simp only [vowelGroups, hc, hd, if_true, if_false, vowelRunsAux, ih2,
          List.map_cons, List.sum_cons]
        simp
    · simp only [vowelGroups, hc, if_false, ih2]
      simp [vowelRunsAux, hc]

/-- A word without a vowel has no run of vowels. -/
theorem vowelRuns_eq_nil (word : JSString) (h : ∀ c ∈ word, isVowel c = false) :
    vowelRuns word = [] := by
  unfold vowelRuns
  induction word with
  | nil => rfl
  | cons c cs ih =>
    have hc := h c (List.mem_cons_self _ _)
    simp only [vowelRunsAux, hc, if_true]
    simpa using ih (fun d hd => h d (List.mem_cons_of_mem _ hd))

theorem one_le_wordSyllables (word : JSString) : 1 ≤ wordSyllables word := by
  unfold wordSyllables
  simp only
  split_ifs <;> omega

/-- A sum of numbers that are at least 1 is at least their number. -/
theorem length_le_sum_of_mem {α : Type} (f : α → Nat) :
    ∀ l : List α, (∀ a ∈ l, 1 ≤ f a) → l.length ≤ (l.map f).sum
  | [], _ => Nat.le_refl _
  | a :: l, h => by
    have := length_le_sum_of_mem f l (fun b hb => h b (List.mem_cons_of_mem _ hb))
    have := h a (List.mem_cons_self _ _)
    simp only [List.length_cons, List.map_cons, List.sum_cons]
    omega

/-- The Kelvin sign U+212A is no word character, but its lower-case form `k` is one: the text
`a`, Kelvin sign, `b` has two tokens as it stands and one token in lower case. -/
theorem countSyllables_kelvin :
    (matchWords [97, 8490, 98]).length = 2 ∧
      matchWords (toLowerCase [97, 8490, 98]) = [str "akb"] ∧
      countSyllables [97, 8490, 98] = 1 := by
  decide

/-! ## Lemmas on the length of the summary -/

/-- The matches of the sentence scan are disjoint pieces of what was read: their lengths add
up to no more than the length of the text, with what the scan holds. -/
theorem matchSentencesAux_length (text : JSString) :
    ∀ body ends : List Nat,
      ((matchSentencesAux body ends text).map List.length).sum ≤
        body.length + ends.length + text.length := by
  induction text with
  | nil =>
    intro body ends
    by_cases he : ends = []
    · simp [matchSentencesAux, he]
    · simp [matchSentencesAux, he]
  | cons c cs ih =>
    intro body ends
    by_cases hc : isTerminator c = true
    · by_cases hb : body = []
      · have := ih [] []
        simp only [matchSentencesAux, hc, hb, if_true, List.length_nil, List.length_cons] at this ⊢
        omega
      · have := ih body (c :: ends)
        simp only [matchSentencesAux, hc, hb, if_true, if_false, List.length_cons] at this ⊢
        omega
    · have hc2 : isTerminator c = false := by simpa using hc
      by_cases he : ends = []
      · have := ih (c :: body) []
        simp only [matchSentencesAux, hc2, he, Bool.false_eq_true, if_true, if_false,
          List.length_nil, List.length_cons] at this ⊢
        omega
      · have := ih [c] []
        simp only [matchSentencesAux, hc2, he, Bool.false_eq_true, if_false, List.map_cons,
          List.sum_cons, List.length_append, List.length_reverse, List.length_nil,
          List.length_cons] at this ⊢
        omega

/-- Every match of the sentence scan holds a terminator. -/
theorem matchSentencesAux_terminator (text : JSString) :
    ∀ body ends : List Nat, (∀ c ∈ ends, isTerminator c = true) →
      ∀ s ∈ matchSentencesAux body ends text, ∃ c ∈ s, isTerminator c = true := by
  induction text with
  | nil =>
    intro body ends hends s hs
    by_cases he : ends = []
    · simp [matchSentencesAux, he] at hs
    · simp only [matchSentencesAux, he, if_false, List.mem_singleton] at hs
      obtain ⟨e, he2⟩ := List.exists_mem_of_ne_nil ends he
      exact ⟨e, by rw [hs]; simp [he2], hends e he2⟩
  | cons c cs ih =>
    intro body ends hends s hs
    by_cases hc : isTerminator c = true
    · by_cases hb : body = []
      · simp only [matchSentencesAux, hc, hb, if_true] at hs
        exact ih [] [] (by simp) s hs
      · simp only [matchSentencesAux, hc, hb, if_true, if_false] at hs
        refine ih body (c :: ends) ?_ s hs
        intro d hd
        rcases List.mem_cons.mp hd with h | h
        · rw [h]
          exact hc
        · exact hends d h
    · have hc2 : isTerminator c = false := by simpa using hc
      by_cases he : ends = []
      · simp only [matchSentencesAux, hc2, he, Bool.false_eq_true, if_true, if_false] at hs
        exact ih (c :: body) [] (by simp) s hs
      · simp only [matchSentencesAux, hc2, he, Bool.false_eq_true, if_false,
          List.mem_cons] at hs
        rcases hs with h | h
        · obtain ⟨e, he2⟩ := List.exists_mem_of_ne_nil ends he
          exact ⟨e, by rw [h]; simp [he2], hends e he2⟩
        · exact ih [c] [] (by simp) s h

/-- The sentences of a text that has any: their lengths add up to at most the length of the
text, and each is at least 1 unit long once trimmed. -/
theorem matchSentences_lengths (text : JSString) :
    ((matchSentences text).map List.length).sum ≤ text.length ∧
      ∀ s ∈ matchSentences text, 1 ≤ (trim s).length := by
  constructor
  · have := matchSentencesAux_length text [] []
    simpa [matchSentences] using this
  · intro s hs
    obtain ⟨c, hc, hterm⟩ := matchSentencesAux_terminator text [] [] (by simp) s hs
    rw [Nat.one_le_iff_ne_zero, Ne, List.length_eq_zero, trim_eq_nil_iff]
    intro hall
    have hw := hall c hc
    have : ∀ d : Nat, isTerminator d = true → isWhiteSpace d = false := by
      intro d hd
      unfold isTerminator at hd
      simp only [Bool.or_eq_true, beq_iff_eq] at hd
      rcases hd with (h | h) | h <;> subst h <;> decide
    rw [this c hterm] at hw
    cases hw

theorem trim_length_le (text : JSString) : (trim text).length ≤ text.length := by
  obtain ⟨front, back, h, _, _⟩ := trim_spec text
  have := congrArg List.length h
  simp only [List.length_append] at this
  omega

/-- The length of strings joined by a single space. -/
theorem length_intercalate_space :
    ∀ l : List JSString, l ≠ [] →
      ((str " ").intercalate l).length + 1 = (l.map List.length).sum + l.length
  | [], h => absurd rfl h
  | [x], _ => by simp [List.intercalate]
  | x :: y :: l, _ => by
    have ih := length_intercalate_space (y :: l) (List.cons_ne_nil _ _)
    have hsp : (str " ").length = 1 := by decide
    simp only [List.intercalate, List.intersperse, List.flatten_cons, List.length_append,
      List.map_cons, List.sum_cons, List.length_cons, hsp] at ih ⊢
    omega

/-- The number of sentences `generateSummary` keeps is at most half their number. -/
theorem summary_size_le (n : Nat) (h : 2 < n) :
    1 ≤ min 3 ⌈(n : ℚ) / 3⌉.toNat ∧ 2 * min 3 ⌈(n : ℚ) / 3⌉.toNat ≤ n := by
  by_cases h6 : n ≤ 6
  · interval_cases n <;> decide!
  · have h1 : (2 : ℤ) < ⌈(n : ℚ) / 3⌉ := by
      rw [Int.lt_ceil]
      have : (7 : ℚ) ≤ (n : ℚ) := by
        have : 7 ≤ n := by omega
        exact_mod_cast this
      push_cast
      linarith
    omega

/-- The summary of a text with more than 2 sentences is shorter than the text. -/
theorem generateSummary_lt (text : JSString) (h : 2 < (summarySentences text).length) :
    (generateSummary text).length < text.length := by
  have hS : summarySentences text = matchSentences text := by
    unfold summarySentences at h ⊢
    cases hm : matchSentences text with
    | nil =>
      rw [hm] at h
      simp at h
    | cons s rest => rfl
  obtain ⟨hsum, htrim⟩ := matchSentences_lengths text
  rw [← hS] at hsum htrim
  obtain ⟨hk1, hk2⟩ := summary_size_le _ h
  unfold generateSummary
  simp only
  rw [if_neg (by omega), summary_size]
  generalize hg : (fun sentence : JSString => (trim sentence,
    ((matchWords (toLowerCase sentence)).filter (fun word =>
      ((extractKeywords text).map Keyword.word).contains word)).length)) = g
  generalize hfirst : (fun a b : JSString × Nat => some ((b.2 : ℤ) - (a.2 : ℤ))) = first
  generalize hsecond : (fun a b : JSString × Nat =>
    some (indexOf (summarySentences text) a.1 - indexOf (summarySentences text) b.1)) = second
  generalize hk : min 3 ⌈((summarySentences text).length : ℚ) / 3⌉.toNat = k at hk1 hk2 ⊢
  generalize summarySentences text = S at h hsum htrim hk2 ⊢
  have hfst : ∀ s : JSString, (g s).1 = trim s := by
    intro s
    rw [← hg]
  have hP := sortBy_perm first (S.map g)
  have hL := sortBy_perm second ((sortBy first (S.map g)).take k)
  have hlenL : (sortBy second ((sortBy first (S.map g)).take k)).length = k := by
    rw [hL.length_eq, List.length_take, hP.length_eq, List.length_map]
    omega
  have hne : (sortBy second ((sortBy first (S.map g)).take k)).map Prod.fst ≠ [] := by
    intro hnil
    have := congrArg List.length hnil
    rw [List.length_map, hlenL] at this
    simp at this
    omega
  have hjoin := length_intercalate_space _ hne
  rw [List.length_map, hlenL, List.map_map] at hjoin
  have hsumL : ((sortBy second ((sortBy first (S.map g)).take k)).map
      (List.length ∘ Prod.fst)).sum =
      (((sortBy first (S.map g)).take k).map (List.length ∘ Prod.fst)).sum :=
    (hL.map _).sum_eq
  have hsplit : (((sortBy first (S.map g)).take k).map (List.length ∘ Prod.fst)).sum +
      (((sortBy first (S.map g)).drop k).map (List.length ∘ Prod.fst)).sum =
      (S.map (fun s => (trim s).length)).sum := by
    rw [← List.sum_append, ← List.map_append, List.take_append_drop, (hP.map _).sum_eq,
      List.map_map]
    congr 1
    apply List.map_congr_left
    intro s _
    simp only [Function.comp, hfst]
  have hdrop : ((sortBy first (S.map g)).drop k).length ≤
      (((sortBy first (S.map g)).drop k).map (List.length ∘ Prod.fst)).sum := by
    apply length_le_sum_of_mem
    intro p hp
    have hp2 := hP.subset ((List.drop_sublist _ _).subset hp)
    obtain ⟨s, hs, rfl⟩ := List.mem_map.mp hp2
    simp only [Function.comp, hfst]
    exact htrim s hs
  have hdroplen : ((sortBy first (S.map g)).drop k).length = S.length - k := by
    rw [List.length_drop, hP.length_eq, List.length_map]
  have htrimsum : (S.map (fun s => (trim s).length)).sum ≤ (S.map List.length).sum :=
    List.sum_le_sum (fun s _ => trim_length_le s)
  omega

/-! ## Lemmas on the selection of sentences -/

/-- A sort by a key in descending order leaves the keys in non-increasing order. -/
theorem sortBy_key_sorted {α : Type} (key : α → ℤ) (l : List α) :
    (sortBy (fun a b => some (key b - key a)) l).Pairwise (fun a b => key b ≤ key a) := by
  have hiff : ∀ a b : α,
      staysBefore (fun a b => some (key b - key a)) a b ↔ key b ≤ key a := by
    intro a b
    unfold staysBefore
    constructor
    · intro hs
      have := hs _ rfl
      omega
    · intro hle v hv
      simp only [Option.some.injEq] at hv
      omega
  haveI : IsTotal α (staysBefore (fun a b => some (key b - key a))) :=
    ⟨fun a b => by
      rw [hiff, hiff]
      exact le_total _ _⟩
  haveI : IsTrans α (staysBefore (fun a b => some (key b - key a))) :=
    ⟨fun a b c hab hbc => by
      rw [hiff] at hab hbc ⊢
      exact le_trans hbc hab⟩
  have hsorted := List.sorted_insertionSort (staysBefore (fun a b => some (key b - key a))) l
  unfold sortBy
  exact List.Pairwise.imp (fun {a b} hab => (hiff a b).mp hab) hsorted

/-- A stable sort by a key in descending order: of two elements of the result the one ahead
has the larger key, or the same key and the earlier place in the list that was sorted. -/
theorem sortBy_key_stable {α : Type} (key : α → ℤ) (place : α → Nat) (l : List α)
    (hl : l.Pairwise (fun a b => place a < place b)) :
    (sortBy (fun a b => some (key b - key a)) l).Pairwise
      (fun a b => key b ≤ key a ∧ (key b = key a → place a < place b)) := by
  have h1 := sortBy_key_sorted key l
  have h2 := pairwise_insertionSort_or (staysBefore (fun a b => some (key b - key a)))
    (fun a b => place a < place b) l hl
  refine List.Pairwise.imp ?_ (h1.and h2)
  intro a b hab
  refine ⟨hab.1, ?_⟩
  intro heq
  rcases hab.2 with hT | hn
  · exact hT
  · exfalso
    apply hn
    intro v hv
    simp only [Option.some.injEq] at hv
    omega

/-- Sorting by a key, cutting and sorting again picks the elements that come first when the
list is ordered by key descending, the earlier place winning among equal keys. -/
theorem sort_take_sort_selection {β γ : Type} (sentences : List JSString) (g : JSString → β)
    (key : β → ℤ) (second : β → β → Option ℤ) (k : Nat) (out : β → γ) :
    ∃ positions : List Nat,
      positions.Nodup ∧ positions.length = min k sentences.length ∧
      (∀ i ∈ positions, i < sentences.length) ∧
      (sortBy second ((sortBy (fun a b => some (key b - key a))
          (sentences.map g)).take k)).map out =
        positions.map (fun i => out (g (sentences.getD i []))) ∧
      ∀ i ∈ positions, ∀ j, j < sentences.length → j ∉ positions →
        key (g (sentences.getD j [])) ≤ key (g (sentences.getD i [])) ∧
          (key (g (sentences.getD j [])) = key (g (sentences.getD i [])) → i < j) := by
  have hmap : sentences.map g = sentences.enum.map (fun p => g p.2) := by
    conv_lhs => rw [← List.enum_map_snd sentences]
    rw [List.map_map]
    rfl
  have hget : ∀ p ∈ sentences.enum, sentences.getD p.1 [] = p.2 := by
    intro p hp
    have := List.mem_enum_iff_getElem?.mp hp
    simp only [List.getD_eq_getElem?_getD, this, Option.getD_some]
  have hlt : ∀ p ∈ sentences.enum, p.1 < sentences.length := by
    intro p hp
    have := List.mem_enum_iff_getElem?.mp hp
    by_contra hge
    rw [List.getElem?_eq_none (by omega)] at this
    cases this
  have hP := sortBy_perm (fun a b : Nat × JSString => some (key (g b.2) - key (g a.2)))
    sentences.enum
  have hL := sortBy_perm (fun a b : Nat × JSString => second (g a.2) (g b.2))
    ((sortBy (fun a b : Nat × JSString => some (key (g b.2) - key (g a.2)))
      sentences.enum).take k)
  have hsub : ∀ p ∈ sortBy (fun a b : Nat × JSString => second (g a.2) (g b.2))
      ((sortBy (fun a b : Nat × JSString => some (key (g b.2) - key (g a.2)))
        sentences.enum).take k), p ∈ sentences.enum := by
    intro p hp
    exact hP.subset ((List.take_sublist _ _).subset (hL.subset hp))
  refine ⟨(sortBy (fun a b : Nat × JSString => second (g a.2) (g b.2))
    ((sortBy (fun a b : Nat × JSString => some (key (g b.2) - key (g a.2)))
      sentences.enum).take k)).map Prod.fst, ?_, ?_, ?_, ?_, ?_⟩
  · rw [(hL.map Prod.fst).nodup_iff]
    refine List.Nodup.sublist ((List.take_sublist _ _).map _) ?_
    rw [(hP.map Prod.fst).nodup_iff, List.enum_map_fst]
    exact List.nodup_range _
  · rw [List.length_map, hL.length_eq, List.length_take, hP.length_eq, List.enum_length]
  · intro i hi
    obtain ⟨p, hp, rfl⟩ := List.mem_map.mp hi
    exact hlt p (hsub p hp)
  · rw [hmap, sortBy_map, ← List.map_take, sortBy_map, List.map_map, List.map_map]
    apply List.map_congr_left
    intro p hp
    simp only [Function.comp, hget p (hsub p hp)]
  · intro i hi j hj hnot
    obtain ⟨p, hp, rfl⟩ := List.mem_map.mp hi
    have hptake := hL.subset hp
    have hq : (j, sentences.getD j []) ∈ sentences.enum := by
      rw [List.mem_enum_iff_getElem?]
      simp only [List.getD_eq_getElem?_getD, List.getElem?_eq_getElem hj, Option.getD_some]
    have hqP := hP.symm.subset hq
    rw [← List.take_append_drop k (sortBy (fun a b : Nat × JSString =>
      some (key (g b.2) - key (g a.2))) sentences.enum), List.mem_append] at hqP
    have hqdrop : (j, sentences.getD j []) ∈ (sortBy (fun a b : Nat × JSString =>
        some (key (g b.2) - key (g a.2))) sentences.enum).drop k := by
      rcases hqP with hin | hin
      · exfalso
        apply hnot
        exact List.mem_map.mpr ⟨_, hL.symm.subset hin, rfl⟩
      · exact hin
    have hstable := sortBy_key_stable (fun p : Nat × JSString => key (g p.2)) Prod.fst
      sentences.enum (by
        rw [← List.pairwise_map (f := Prod.fst) (R := fun a b : Nat => a < b),
          List.enum_map_fst]
        exact List.pairwise_lt_range _)
    rw [← List.take_append_drop k (sortBy (fun a b : Nat × JSString =>
      some (key (g b.2) - key (g a.2))) sentences.enum), List.pairwise_append] at hstable
    have := hstable.2.2 p hptake _ hqdrop
    rw [hget p (hsub p hp)]
    exact this

/-! ## Lemmas on the keywords that are kept -/

/-- The function `Object.entries` lists every own property once. -/
theorem objectEntries_perm (table : WordFreq) : (objectEntries table).Perm table := by
  unfold objectEntries
  exact ((List.perm_insertionSort _ _).append_right _).trans (List.filter_append_perm _ _)

/-- On a text without the token `__proto__`, the keys of `wordFreq` are the distinct
qualifying words. -/
theorem wordFreq_length (text : JSString)
    (hp : str "__proto__" ∉ matchWords (toLowerCase text)) :
    (wordFreq text).length = (qualifyingWords text).dedup.length := by
  obtain ⟨hkeys, horder⟩ := wordFreq_keys text
  have hnodup : ((wordFreq text).map Prod.fst).Nodup := by
    refine List.Pairwise.imp ?_ horder
    intro a b hab heq
    rw [heq] at hab
    exact Nat.lt_irrefl _ hab
  have hperm : ((wordFreq text).map Prod.fst).Perm (qualifyingWords text).dedup := by
    rw [List.perm_ext_iff_of_nodup hnodup (List.nodup_dedup _)]
    intro w
    rw [hkeys, List.mem_dedup]
    unfold qualifyingWords
    rw [List.mem_filter]
    simp only [Bool.and_eq_true, decide_eq_true_eq, Bool.not_eq_true', gt_iff_lt]
    constructor
    · rintro ⟨h1, h2, h3, _⟩
      exact ⟨h1, h2, by simpa using h3⟩
    · rintro ⟨h1, h2, h3⟩
      exact ⟨h1, h2, by simpa using h3, fun heq => hp (heq ▸ h1)⟩
  rw [← hperm.length_eq, List.length_map]

/-- On a text without the tokens `constructor` and `__proto__`, `extractKeywords` keeps the
most frequent qualifying words: as many as there are distinct ones, up to 10; a qualifying
word that is left out occurs no more often than any word that is kept; and the list is empty
exactly when no word qualifies. -/
theorem extractKeywords_top (text : JSString)
    (hc : str "constructor" ∉ matchWords (toLowerCase text))
    (hp : str "__proto__" ∉ matchWords (toLowerCase text)) :
    (extractKeywords text).length = min 10 (qualifyingWords text).dedup.length ∧
      (∀ w ∈ qualifyingWords text, w ∉ (extractKeywords text).map Keyword.word →
        ∀ k ∈ extractKeywords text,
          k.frequency = .count ((matchWords (toLowerCase text)).count k.word) ∧
            (matchWords (toLowerCase text)).count w ≤
              (matchWords (toLowerCase text)).count k.word) ∧
      (extractKeywords text = [] ↔ qualifyingWords text = []) := by
  have hlen : (extractKeywords text).length = min 10 (qualifyingWords text).dedup.length := by
    unfold extractKeywords
    rw [List.length_map, List.length_take, (sortBy_perm _ _).length_eq,
      (objectEntries_perm _).length_eq, wordFreq_length text hp]
  refine ⟨hlen, ?_, ?_⟩
  · intro w hw hout k hk
    have hfreq := extractKeywords_frequency text hc k hk
    refine ⟨hfreq.1, ?_⟩
    have hcounts : ∀ e ∈ objectEntries (wordFreq text), ∃ n, e.2 = .count n := by
      intro e he
      rw [mem_objectEntries] at he
      have hkey := ((wordFreq_keys text).1 e.1).mp (List.mem_map_of_mem _ he)
      have hne : e.1 ≠ str "constructor" := fun h => hc (h ▸ hkey.1)
      have hval := wordFreq_values text e he
      rw [if_neg hne] at hval
      exact ⟨_, hval⟩
    have hsorted := sortBy_compareFrequency_sorted _ hcounts
    rw [← List.take_append_drop 10 (sortBy compareFrequency (objectEntries (wordFreq text))),
      List.pairwise_append] at hsorted
    -- the entry of `w` is in the part that is cut off
    have hwq : w ∈ matchWords (toLowerCase text) ∧ w.length > 3 ∧
        ¬ stopWords.contains w = true := by
      unfold qualifyingWords at hw
      rw [List.mem_filter] at hw
      simp only [Bool.and_eq_true, decide_eq_true_eq, Bool.not_eq_true'] at hw
      exact ⟨hw.1, hw.2.1, by rw [hw.2.2]; exact Bool.false_ne_true⟩
    have hwkey : w ∈ (wordFreq text).map Prod.fst :=
      ((wordFreq_keys text).1 w).mpr ⟨hwq.1, hwq.2.1, hwq.2.2, fun heq => hp (heq ▸ hwq.1)⟩
    obtain ⟨e, he, hew⟩ := List.mem_map.mp hwkey
    have heval := wordFreq_values text e he
    have hne : e.1 ≠ str "constructor" := fun h => hc (h ▸ hew ▸ hwq.1)
    rw [if_neg hne, hew] at heval
    have hes : e ∈ sortBy compareFrequency (objectEntries (wordFreq text)) :=
      (sortBy_perm _ _).symm.subset ((mem_objectEntries _ _).mpr he)
    rw [← List.take_append_drop 10 (sortBy compareFrequency (objectEntries (wordFreq text))),
      List.mem_append] at hes
    have hedrop : e ∈ (sortBy compareFrequency (objectEntries (wordFreq text))).drop 10 := by
      rcases hes with hin | hin
      · exfalso
        apply hout
        unfold extractKeywords
        rw [List.map_map]
        exact List.mem_map.mpr ⟨e, hin, hew⟩
      · exact hin
    -- the entry of `k` is in the part that is kept
    unfold extractKeywords at hk
    obtain ⟨e2, he2, rfl⟩ := List.mem_map.mp hk
    obtain ⟨m, n, hm, hn, hnm⟩ := hsorted.2.2 e2 he2 e hedrop
    have h1 := hfreq.1
    simp only at h1
    rw [hm] at h1
    rw [heval] at hn
    simp only [FreqValue.count.injEq] at h1 hn
    simp only
    omega
  · rw [← List.length_eq_zero, hlen]
    constructor
    · intro h0
      have hz : (qualifyingWords text).dedup.length = 0 := by omega
      rw [List.length_eq_zero] at hz
      by_contra hne
      obtain ⟨w, hw⟩ := List.exists_mem_of_ne_nil _ hne
      have := List.mem_dedup.mpr hw
      rw [hz] at this
      cases this
    · intro hnil
      rw [hnil]
      rfl

/-! ## The facade: claims C1 and C2 -/

/-- C1. For every string `text` and every options record, `analyze(text, options)` throws
exactly when `text` is empty or made of white space only, that is when `text.trim()` is empty;
a call that throws returns no result, and every other call returns a result mapping. -/
theorem analyze_fails_iff_blank (text : JSString) (options : Options) :
    ((∀ c ∈ text, isWhiteSpace c = true) ↔ trim text = []) ∧
      (analyze text options = .error "Please provide text to analyze" ↔ trim text = []) ∧
      (trim text = [] → ∀ results, analyze text options ≠ .ok results) ∧
      (trim text ≠ [] → ∃ results, analyze text options = .ok results) := by
  have hb := blank_iff text
  have ht := trim_eq_nil_iff text
  refine ⟨ht.symm, ?_, ?_, ?_⟩
  · constructor
    · intro h
      by_contra hne
      have : ¬ (text = [] ∨ (trim text).length = 0) := fun hc => hne (ht.mpr (hb.mp hc))
      unfold analyze at h
      rw [if_neg this] at h
      cases h
    · intro h
      unfold analyze
      rw [if_pos (hb.mpr (ht.mp h))]
  · intro h results
    unfold analyze
    rw [if_pos (hb.mpr (ht.mp h))]
    intro hc
    cases hc
  · intro h
    have : ¬ (text = [] ∨ (trim text).length = 0) := fun hc => h (ht.mpr (hb.mp hc))
    unfold analyze
    rw [if_neg this]
    exact ⟨_, rfl⟩

/-- C2. For every text that is not blank and every options record, the result of `analyze` has
the property `sentiment`, `keywords`, `summary`, `readability` exactly when the option of that
name is set, its value being what `analyzeSentiment`, `extractKeywords`, `generateSummary`,
`calculateReadability` return on the text; a kind that was not asked for is absent; the value of
a kind depends on its own option only; and with no option set the result is the empty object. -/
theorem analyze_runs_requested (text : JSString) (options : Options) (h : trim text ≠ []) :
    analyze text options = .ok
        ⟨if options.sentiment then some (analyzeSentiment text) else none,
          if options.keywords then some (extractKeywords text) else none,
          if options.summary then some (generateSummary text) else none,
          if options.readability then some (calculateReadability text) else none⟩ ∧
      (∀ other results results', analyze text options = .ok results →
        analyze text other = .ok results' →
        (other.sentiment = options.sentiment → results'.sentiment = results.sentiment) ∧
        (other.keywords = options.keywords → results'.keywords = results.keywords) ∧
        (other.summary = options.summary → results'.summary = results.summary) ∧
        (other.readability = options.readability →
          results'.readability = results.readability)) ∧
      analyze text noOptions = .ok AnalysisResults.empty := by
  have hnb : ¬ (text = [] ∨ (trim text).length = 0) :=
    fun hc => h ((trim_eq_nil_iff text).mpr ((blank_iff text).mp hc))
  have key : ∀ o : Options, analyze text o = .ok
      ⟨if o.sentiment then some (analyzeSentiment text) else none,
        if o.keywords then some (extractKeywords text) else none,
        if o.summary then some (generateSummary text) else none,
        if o.readability then some (calculateReadability text) else none⟩ := by
    intro o
    unfold analyze
    rw [if_neg hnb]
    rcases o with ⟨_ | _, _ | _, _ | _, _ | _⟩ <;> rfl
  refine ⟨key options, ?_, ?_⟩
  · intro other results results' hr hr'
    rw [key options] at hr
    rw [key other] at hr'
    cases hr
    cases hr'
    refine ⟨?_, ?_, ?_, ?_⟩ <;> intro ho <;> simp only [ho]
  · rw [key noOptions]
    rfl

/-- The text `Bad.` with only the sentiment asked for: the other three kinds are absent. -/
theorem analyze_runs_requested_witness :
    trim (str "Bad.") ≠ [] ∧
    analyze (str "Bad.") ⟨true, false, false, false⟩ =
      .ok ⟨some (analyzeSentiment (str "Bad.")), none, none, none⟩ :=
  ⟨by decide, (analyze_runs_requested (str "Bad.") ⟨true, false, false, false⟩ (by decide)).1⟩

/-! ## The sentiment scorer: claims C3 to C6 -/

/-- C3. For every text, the number written in the field `score` of `analyzeSentiment(text)`
lies between -1 and 1. -/
theorem score_in_range (text : JSString) :
    -1 ≤ (analyzeSentiment text).score.value 2 ∧ (analyzeSentiment text).score.value 2 ≤ 1 := by
  have hr := abs_sentimentRatio_le_one text
  have hb := (abs_roundDouble_bounds (((positiveCount text : ℚ) - (negativeCount text : ℚ)) /
    ((positiveCount text + negativeCount text : ℕ) : ℚ))).2
  rw [← sentimentScore_eq] at hb
  have hs : |sentimentScore text| * 10 ^ 2 + 1 / 2 < (100 : ℕ) + 1 := by
    have : |sentimentScore text| ≤ 1 + 1 / 2 ^ 53 := by
      calc |sentimentScore text| ≤ _ := hb
        _ ≤ 1 * (1 + 1 / 2 ^ 53) := mul_le_mul_of_nonneg_right hr (by norm_num)
        _ = 1 + 1 / 2 ^ 53 := one_mul _
    norm_num
    linarith
  have hu := toFixed_units_le_of_lt 2 (sentimentScore text) 100 hs
  rw [← analyzeSentiment_score] at hu
  have habs := Fixed.abs_value 2 (analyzeSentiment text).score
  have hq : ((analyzeSentiment text).score.units : ℚ) ≤ 10 ^ 2 := by exact_mod_cast hu
  rw [← abs_le, habs, div_le_one (by norm_num)]
  exact hq

/-- C4, as the claim states it, fails: on a text with 101 positive and 100 negative tokens the
ratio 1/201 is printed as `0.00`, so the field `score` is zero while the two counts differ. -/
theorem score_zero_counts_differ :
    ¬ ((analyzeSentiment nearlyBalanced).score.value 2 = 0 ↔
      (analyzeSentiment nearlyBalanced).positiveWords =
        (analyzeSentiment nearlyBalanced).negativeWords) := by
  have h : (analyzeSentiment nearlyBalanced).score = ⟨false, 0⟩ ∧
      (analyzeSentiment nearlyBalanced).positiveWords = 101 ∧
      (analyzeSentiment nearlyBalanced).negativeWords = 100 := by decide!
  obtain ⟨hs, hp, hn⟩ := h
  rw [hs, hp, hn]
  intro hiff
  have : (101 : ℕ) = 100 := hiff.mp (by simp [Fixed.value])
  omega

/-- C4, amended. For every text of fewer than `2^50` code units, the ratio before `toFixed` is 0
exactly when the returned counts `positiveWords` and `negativeWords` are equal, and the field
`score`, which is the ratio rounded to two decimals, is 0 exactly when the counts are equal or
`200 * |positiveWords - negativeWords| < positiveWords + negativeWords`. -/
theorem score_zero_iff (text : JSString) (hlen : text.length < 2 ^ 50) :
    (sentimentScore text = 0 ↔
      (analyzeSentiment text).positiveWords = (analyzeSentiment text).negativeWords) ∧
    ((analyzeSentiment text).score.value 2 = 0 ↔
      ((analyzeSentiment text).positiveWords = (analyzeSentiment text).negativeWords ∨
        200 * |((analyzeSentiment text).positiveWords : ℤ) -
            ((analyzeSentiment text).negativeWords : ℤ)| <
          ((analyzeSentiment text).positiveWords : ℤ) +
            ((analyzeSentiment text).negativeWords : ℤ))) := by
  obtain ⟨hp, hn⟩ := analyzeSentiment_counts text
  rw [hp, hn]
  refine ⟨sentimentScore_eq_zero_iff text, ?_⟩
  rw [Fixed.value_eq_zero_iff, analyzeSentiment_score, toFixed_units_eq_zero_iff]
  by_cases heq : positiveCount text = negativeCount text
  · have h0 := (sentimentScore_eq_zero_iff text).mpr heq
    rw [h0]
    simp [heq]
  · rw [or_iff_right heq]
    have hsize := sentiment_total_le text
    have hpos : (0 : ℤ) < (positiveCount text : ℤ) + (negativeCount text : ℤ) := by omega
    have hle : (positiveCount text : ℤ) + (negativeCount text : ℤ) ≤ 2 ^ 52 := by omega
    have hsmall := roundDouble_div_small ((positiveCount text : ℤ) - (negativeCount text : ℤ))
      ((positiveCount text : ℤ) + (negativeCount text : ℤ)) hpos hle
    rw [sentimentScore_eq]
    push_cast at hsmall ⊢
    exact hsmall

/-- The text of 101 positive and 100 negative tokens: its score is printed as `0.00` and
`200 * 1 < 201`. -/
theorem score_zero_iff_witness :
    nearlyBalanced.length < 2 ^ 50 ∧
    ((analyzeSentiment nearlyBalanced).score.value 2 = 0 ↔
      ((analyzeSentiment nearlyBalanced).positiveWords =
          (analyzeSentiment nearlyBalanced).negativeWords ∨
        200 * |((analyzeSentiment nearlyBalanced).positiveWords : ℤ) -
            ((analyzeSentiment nearlyBalanced).negativeWords : ℤ)| <
          ((analyzeSentiment nearlyBalanced).positiveWords : ℤ) +
            ((analyzeSentiment nearlyBalanced).negativeWords : ℤ))) :=
  ⟨by decide!, (score_zero_iff nearlyBalanced (by decide!)).2⟩

/-- C5. For every text of fewer than `2^50` code units, with `p` and `n` the numbers of tokens
found in the positive and in the negative lexicon and `score = (p - n) / (p + n)`, taken as 0
when `p + n = 0`: the result of `analyzeSentiment` is Positive with its emoji and colour exactly
when `score > 0.2`, Negative with its emoji and colour exactly when `score < -0.2`, and Neutral
with its emoji and colour in every other case, which covers a score of exactly 0.2 or -0.2. -/
theorem label_thresholds (text : JSString) (hlen : text.length < 2 ^ 50) :
    let p : ℚ := positiveCount text
    let n : ℚ := negativeCount text
    let score : ℚ := if p + n = 0 then 0 else (p - n) / (p + n)
    let result := analyzeSentiment text
    (score > 2 / 10 ↔
        result.label = "Positive" ∧ result.emoji = "😊" ∧ result.color = "#10b981") ∧
      (score < -(2 / 10) ↔
        result.label = "Negative" ∧ result.emoji = "😞" ∧ result.color = "#ef4444") ∧
      (¬ score > 2 / 10 ∧ ¬ score < -(2 / 10) ↔
        result.label = "Neutral" ∧ result.emoji = "😐" ∧ result.color = "#f59e0b") ∧
      (score = 2 / 10 ∨ score = -(2 / 10) → result.label = "Neutral") := by
  intro p n score result
  have hscore : score = ((positiveCount text : ℚ) - (negativeCount text : ℚ)) /
      ((positiveCount text + negativeCount text : ℕ) : ℚ) := by
    show (if p + n = 0 then 0 else (p - n) / (p + n)) = _
    by_cases h0 : p + n = 0
    · rw [if_pos h0]
      have : ((positiveCount text + negativeCount text : ℕ) : ℚ) = 0 := by
        push_cast
        exact h0
      rw [this, div_zero]
    · rw [if_neg h0]
      push_cast
      rfl
  have hthr : (sentimentScore text > roundDouble (2 / 10) ↔ score > 2 / 10) ∧
      (sentimentScore text < -roundDouble (2 / 10) ↔ score < -(2 / 10)) := by
    rw [hscore, sentimentScore_eq]
    by_cases h0 : positiveCount text + negativeCount text = 0
    · rw [h0, roundDouble_one_fifth.1]
      simp only [Nat.cast_zero, div_zero, roundDouble_zero]
      constructor <;> constructor <;> intro h <;> norm_num at h
    · have hsize := sentiment_total_le text
      have hpos : (0 : ℤ) < (positiveCount text : ℤ) + (negativeCount text : ℤ) := by omega
      have hle : (positiveCount text : ℤ) + (negativeCount text : ℤ) ≤ 2 ^ 52 := by omega
      have h := roundDouble_div_thresholds
        ((positiveCount text : ℤ) - (negativeCount text : ℤ))
        ((positiveCount text : ℤ) + (negativeCount text : ℤ)) hpos hle
      push_cast at h ⊢
      exact h
  have hcases : (sentimentScore text > roundDouble (2 / 10) ∧
        result.label = "Positive" ∧ result.emoji = "😊" ∧ result.color = "#10b981") ∨
      (¬ sentimentScore text > roundDouble (2 / 10) ∧
        sentimentScore text < -roundDouble (2 / 10) ∧
        result.label = "Negative" ∧ result.emoji = "😞" ∧ result.color = "#ef4444") ∨
      (¬ sentimentScore text > roundDouble (2 / 10) ∧
        ¬ sentimentScore text < -roundDouble (2 / 10) ∧
        result.label = "Neutral" ∧ result.emoji = "😐" ∧ result.color = "#f59e0b") := by
    show (_ ∧ (analyzeSentiment text).label = _ ∧ (analyzeSentiment text).emoji = _ ∧
        (analyzeSentiment text).color = _) ∨
      (_ ∧ _ ∧ (analyzeSentiment text).label = _ ∧ (analyzeSentiment text).emoji = _ ∧
        (analyzeSentiment text).color = _) ∨
      (_ ∧ _ ∧ (analyzeSentiment text).label = _ ∧ (analyzeSentiment text).emoji = _ ∧
        (analyzeSentiment text).color = _)
    unfold analyzeSentiment
    simp only
    by_cases h1 : sentimentScore text > roundDouble (2 / 10)
    · rw [if_pos h1]
      exact Or.inl ⟨h1, rfl, rfl, rfl⟩
    · rw [if_neg h1]
      by_cases h2 : sentimentScore text < -roundDouble (2 / 10)
      · rw [if_pos h2]
        exact Or.inr (Or.inl ⟨h1, h2, rfl, rfl, rfl⟩)
      · rw [if_neg h2]
        exact Or.inr (Or.inr ⟨h1, h2, rfl, rfl, rfl⟩)
  rw [hthr.1, hthr.2] at hcases
  have hPN : ("Positive" : String) ≠ "Negative" := by decide
  have hPU : ("Positive" : String) ≠ "Neutral" := by decide
  have hNU : ("Negative" : String) ≠ "Neutral" := by decide
  rcases hcases with ⟨h1, hl, he, hc⟩ | ⟨h1, h2, hl, he, hc⟩ | ⟨h1, h2, hl, he, hc⟩
  · refine ⟨⟨fun _ => ⟨hl, he, hc⟩, fun _ => h1⟩, ⟨fun h => ?_, fun h => ?_⟩,
      ⟨fun h => absurd h1 h.1, fun h => ?_⟩, fun h => ?_⟩
    · linarith
    · exact absurd (hl.symm.trans h.1) hPN
    · exact absurd (hl.symm.trans h.1) hPU
    · rcases h with h | h <;> linarith
  · refine ⟨⟨fun h => absurd h h1, fun h => ?_⟩, ⟨fun _ => ⟨hl, he, hc⟩, fun _ => h2⟩,
      ⟨fun h => absurd h2 h.2, fun h => ?_⟩, fun h => ?_⟩
    · exact absurd (h.1.symm.trans hl) hPN
    · exact absurd (hl.symm.trans h.1) hNU
    · rcases h with h | h <;> linarith
  · exact ⟨⟨fun h => absurd h h1, fun h => absurd (h.1.symm.trans hl) hPU⟩,
      ⟨fun h => absurd h h2, fun h => absurd (h.1.symm.trans hl) hNU⟩,
      ⟨fun _ => ⟨hl, he, hc⟩, fun _ => ⟨h1, h2⟩⟩, fun _ => hl⟩

/-- The text `good good good bad bad` has the ratio 1/5, exactly 0.2, and is Neutral. -/
theorem label_thresholds_witness :
    (str "good good good bad bad").length < 2 ^ 50 ∧
    (positiveCount (str "good good good bad bad") : ℚ) = 3 ∧
    (negativeCount (str "good good good bad bad") : ℚ) = 2 ∧
    (analyzeSentiment (str "good good good bad bad")).label = "Neutral" :=
  ⟨by decide, by decide!, by decide!,
    (label_thresholds (str "good good good bad bad") (by decide)).2.2.2
      (Or.inl (by
        have hp : (positiveCount (str "good good good bad bad") : ℚ) = 3 := by decide!
        have hn : (negativeCount (str "good good good bad bad") : ℚ) = 2 := by decide!
        rw [hp, hn]
        norm_num))⟩

/-- C6. For every text, the confidence `analyzeSentiment` returns is
`min(100, 5 * (positiveWords + negativeWords))`: an integer between 0 and 100, which does not
decrease when the number of sentiment words grows, and which is 100 exactly when the text has at
least 20 sentiment words. -/
theorem confidence_formula (text : JSString) :
    let result := analyzeSentiment text
    result.confidence = min 100 (5 * ((result.positiveWords : ℤ) + (result.negativeWords : ℤ))) ∧
      0 ≤ result.confidence ∧ result.confidence ≤ 100 ∧
      (result.confidence = 100 ↔ 20 ≤ result.positiveWords + result.negativeWords) ∧
      (∀ other : JSString,
        result.positiveWords + result.negativeWords ≤
          (analyzeSentiment other).positiveWords + (analyzeSentiment other).negativeWords →
        result.confidence ≤ (analyzeSentiment other).confidence) := by
  intro result
  obtain ⟨hp, hn⟩ := analyzeSentiment_counts text
  have hc := analyzeSentiment_confidence text
  show (analyzeSentiment text).confidence = _ ∧ 0 ≤ (analyzeSentiment text).confidence ∧
    (analyzeSentiment text).confidence ≤ 100 ∧
    ((analyzeSentiment text).confidence = 100 ↔
      20 ≤ (analyzeSentiment text).positiveWords + (analyzeSentiment text).negativeWords) ∧
    ∀ other : JSString,
      (analyzeSentiment text).positiveWords + (analyzeSentiment text).negativeWords ≤
        (analyzeSentiment other).positiveWords + (analyzeSentiment other).negativeWords →
      (analyzeSentiment text).confidence ≤ (analyzeSentiment other).confidence
  rw [hp, hn, hc]
  refine ⟨rfl, by omega, by omega, by omega, ?_⟩
  intro other hle
  obtain ⟨hp', hn'⟩ := analyzeSentiment_counts other
  rw [hp', hn'] at hle
  rw [analyzeSentiment_confidence other]
  omega

/-! ## The keyword extractor: claims C7 to C9 -/

/-- C7, evaluated where it fails. On the text `alpha constructor beta beta` the comparison of
`sort` is `NaN` against the entry of `constructor`, the array stays as `Object.entries` gave it,
and `extractKeywords` returns `alpha` with frequency 1 ahead of `beta` with frequency 2. -/
theorem extractKeywords_unsorted :
    extractKeywords (str "alpha constructor beta beta") =
      [⟨str "alpha", .count 1, some 10⟩, ⟨str "constructor", .text 1, none⟩,
        ⟨str "beta", .count 2, some 20⟩] := by
  decide

/-- C8, evaluated where it fails. On the text `constructor` the entry has for frequency a string,
the source text of the function `Object` followed by `1`, and for importance `NaN`, where the
claim has the numbers 1 and 10. -/
theorem extractKeywords_constructor :
    extractKeywords (str "constructor") = [⟨str "constructor", .text 1, none⟩] := by
  decide

/-- C9, as the claim states it, fails: in `alpha 2024` both words occur once and `alpha` occurs
first, yet `2024` is listed first, because `Object.entries` lists array-index keys ahead of the
other keys. -/
theorem tie_order_digits :
    ¬ (extractKeywords (str "alpha 2024")).Pairwise (fun a b =>
      a.frequency = b.frequency →
        (matchWords (toLowerCase (str "alpha 2024"))).indexOf a.word <
          (matchWords (toLowerCase (str "alpha 2024"))).indexOf b.word) := by
  decide

/-- C9, amended. For every text without the token `constructor`, whenever two entries of
`extractKeywords(text)` have the same frequency the earlier one is ahead in the order of
`Object.entries`: either both words are array indices and its index is the smaller one, or its
word is an array index and the other word is not, or neither word is an array index and its
word occurs first in the text. -/
theorem tie_order (text : JSString)
    (_h : str "constructor" ∉ matchWords (toLowerCase text)) :
    (extractKeywords text).Pairwise (fun a b =>
      a.frequency = b.frequency →
        match arrayIndex a.word, arrayIndex b.word with
        | some m, some n => m < n
        | some _, none => True
        | none, some _ => False
        | none, none =>
          (matchWords (toLowerCase text)).indexOf a.word <
            (matchWords (toLowerCase text)).indexOf b.word) := by
  have hsort := pairwise_insertionSort_or (staysBefore compareFrequency) _ _
    (objectEntries_order text)
  unfold extractKeywords sortBy
  rw [List.pairwise_map]
  refine List.Pairwise.imp ?_ (hsort.sublist (List.take_sublist _ _))
  intro x y hxy hfreq
  rcases hxy with hT | hn
  · exact hT
  · exact absurd (staysBefore_of_eq y x hfreq.symm) hn

/-- The text `beta 2024 alpha 1000`, four words of frequency 1: the result lists `1000`, `2024`,
`beta`, `alpha`. -/
theorem tie_order_witness :
    str "constructor" ∉ matchWords (toLowerCase (str "beta 2024 alpha 1000")) ∧
    (extractKeywords (str "beta 2024 alpha 1000")).map Keyword.word =
      [str "1000", str "2024", str "beta", str "alpha"] ∧
    (extractKeywords (str "beta 2024 alpha 1000")).Pairwise (fun a b =>
      a.frequency = b.frequency →
        match arrayIndex a.word, arrayIndex b.word with
        | some m, some n => m < n
        | some _, none => True
        | none, some _ => False
        | none, none =>
          (matchWords (toLowerCase (str "beta 2024 alpha 1000"))).indexOf a.word <
            (matchWords (toLowerCase (str "beta 2024 alpha 1000"))).indexOf b.word) :=
  ⟨by decide, by decide, tie_order (str "beta 2024 alpha 1000") (by decide)⟩

/-! ## The summarizer: claim C10 -/

/-- C10. For every text with at most 2 sentences, the sentences being the matches of a run of
characters other than `.`, `!`, `?` followed by a run of such characters, and a text without a
match counting as 1 sentence, `generateSummary(text)` is `text` itself, unit for unit. -/
theorem generateSummary_short (text : JSString)
    (h : (if (matchSentences text).length = 0 then 1 else (matchSentences text).length) ≤ 2) :
    generateSummary text = text := by
  have hlen : (summarySentences text).length ≤ 2 := by
    unfold summarySentences
    cases hm : matchSentences text with
    | nil => simp
    | cons s rest =>
      rw [hm] at h
      simpa using h
  unfold generateSummary
  simp only
  rw [if_pos hlen]

/-- The text `  Hello there!  How are you?  ` has 2 sentences and comes back with its spaces. -/
theorem generateSummary_short_witness :
    (if (matchSentences (str "  Hello there!  How are you?  ")).length = 0 then 1
      else (matchSentences (str "  Hello there!  How are you?  ")).length) ≤ 2 ∧
    generateSummary (str "  Hello there!  How are you?  ") =
      str "  Hello there!  How are you?  " :=
  ⟨by decide, generateSummary_short (str "  Hello there!  How are you?  ") (by decide)⟩

/-! ## The summarizer: claims C11 and C12 -/

/-- C11. For every text with `n > 2` sentences, `generateSummary(text)` is the join, with a
single space, of exactly `min(3, ceil(n / 3))` sentences, each the sentence of the text at a
position of its own with the white space in front and behind removed and nothing else
changed. -/
theorem generateSummary_selection (text : JSString)
    (h : 2 < (summarySentences text).length) :
    (∃ positions : List Nat,
      positions.Nodup ∧
      positions.length = min 3 ⌈((summarySentences text).length : ℚ) / 3⌉.toNat ∧
      (∀ i ∈ positions, i < (summarySentences text).length) ∧
      generateSummary text =
        (str " ").intercalate
          (positions.map fun i => trim ((summarySentences text).getD i []))) ∧
      summarySentences text = matchSentences text ∧
      ∀ sentence : JSString, ∃ front back : JSString,
        sentence = front ++ trim sentence ++ back ∧
          (∀ c ∈ front, isWhiteSpace c = true) ∧ (∀ c ∈ back, isWhiteSpace c = true) := by
  refine ⟨?_, ?_, trim_spec⟩
  · obtain ⟨positions, hnodup, hlen, hlt, heq⟩ := sort_take_sort_positions
      (summarySentences text)
      (fun sentence => (trim sentence,
        ((matchWords (toLowerCase sentence)).filter (fun word =>
          ((extractKeywords text).map Keyword.word).contains word)).length))
      (fun a b => some ((b.2 : ℤ) - (a.2 : ℤ)))
      (fun a b => some (indexOf (summarySentences text) a.1 - indexOf (summarySentences text) b.1))
      (min 3 ⌈roundDouble (((summarySentences text).length : ℚ) / 3)⌉.toNat)
      Prod.fst
    refine ⟨positions, hnodup, ?_, hlt, ?_⟩
    · rw [hlen, summary_size]
      have : min 3 ⌈((summarySentences text).length : ℚ) / 3⌉.toNat ≤ 3 := Nat.min_le_left _ _
      omega
    · unfold generateSummary
      simp only
      rw [if_neg (by omega), heq]
  · unfold summarySentences at h ⊢
    cases hm : matchSentences text with
    | nil =>
      rw [hm] at h
      simp at h
    | cons s rest => rfl

/-- The first sample text of the application has 4 sentences; its summary joins 2 of them. -/
theorem generateSummary_selection_witness :
    2 < (summarySentences sampleText).length ∧
    ∃ positions : List Nat,
      positions.Nodup ∧
      positions.length = min 3 ⌈((summarySentences sampleText).length : ℚ) / 3⌉.toNat ∧
      (∀ i ∈ positions, i < (summarySentences sampleText).length) ∧
      generateSummary sampleText =
        (str " ").intercalate
          (positions.map fun i => trim ((summarySentences sampleText).getD i [])) :=
  ⟨by decide, (generateSummary_selection sampleText (by decide)).1⟩

/-- C12, evaluated where it fails. On the first sample text of the application the summary
puts the third sentence ahead of the first one: `indexOf` is asked for the trimmed sentence,
which the array of sentences holds only for a sentence without white space around it, so the
third sentence gets the key -1 and the first one the key 0. -/
theorem generateSummary_out_of_order :
    (summarySentences sampleText).map trim =
        [str "This product is absolutely amazing!", str "I love everything about it.",
          str "The quality is outstanding and it exceeded all my expectations.",
          str "Highly recommend to everyone!"] ∧
      (summarySentences sampleText).map (fun sentence =>
          indexOf (summarySentences sampleText) (trim sentence)) = [0, -1, -1, -1] ∧
      generateSummary sampleText =
        str ("The quality is outstanding and it exceeded all my expectations. " ++
          "This product is absolutely amazing!") := by
  decide!

/-! ## The readability scorer: claims C13 to C17 -/

/-- C13. For every text, `calculateReadability(text)` returns an integer `fleschScore` between 0
and 100 and counts `sentenceCount` and `wordCount` that are at least 1, and these counts are
the divisors of the two averages; on the empty string the counts are 1 and 1. -/
theorem readability_bounds (text : JSString) :
    (0 ≤ (calculateReadability text).fleschScore ∧
        (calculateReadability text).fleschScore ≤ 100) ∧
      1 ≤ (calculateReadability text).sentenceCount ∧
      1 ≤ (calculateReadability text).wordCount ∧
      avgWordsPerSentence text =
        roundDouble (((calculateReadability text).wordCount : ℚ) /
          ((calculateReadability text).sentenceCount : ℚ)) ∧
      avgSyllablesPerWord text =
        roundDouble ((countSyllables text : ℚ) / ((calculateReadability text).wordCount : ℚ)) ∧
      ((calculateReadability []).sentenceCount = 1 ∧ (calculateReadability []).wordCount = 1) := by
  refine ⟨⟨?_, ?_⟩, ?_, ?_, rfl, rfl, by decide⟩
  · show 0 ≤ normalizedFlesch text
    unfold normalizedFlesch
    exact le_max_left _ _
  · show normalizedFlesch text ≤ 100
    unfold normalizedFlesch
    exact max_le (by norm_num) (min_le_left _ _)
  · show 1 ≤ sentenceCount text
    unfold sentenceCount
    split_ifs <;> omega
  · show 1 ≤ wordCount text
    unfold wordCount
    split_ifs <;> omega

/-- C15. For every text, the level and the grade that `calculateReadability` returns are those
of the first row of the table whose bound the returned `fleschScore` reaches, the last row
taking what is left; each score from 0 to 100 falls in exactly one of the seven ranges, and a
higher score never gets a harder level. -/
theorem reading_level_table (text : JSString) :
    let result := calculateReadability text
    let table : List (ℤ × String × String) :=
      [(90, "Very Easy", "5th grade"), (80, "Easy", "6th grade"),
        (70, "Fairly Easy", "7th grade"), (60, "Standard", "8-9th grade"),
        (50, "Fairly Difficult", "10-12th grade"), (30, "Difficult", "College")]
    let hardestFirst : List String :=
      ["Very Difficult", "Difficult", "Fairly Difficult", "Standard", "Fairly Easy", "Easy",
        "Very Easy"]
    (result.level, result.grade) =
        ((table.find? (fun row => decide (row.1 ≤ result.fleschScore))).map Prod.snd).getD
          ("Very Difficult", "College Graduate") ∧
      (90 ≤ result.fleschScore → result.level = "Very Easy" ∧ result.grade = "5th grade") ∧
      (80 ≤ result.fleschScore ∧ result.fleschScore < 90 →
        result.level = "Easy" ∧ result.grade = "6th grade") ∧
      (70 ≤ result.fleschScore ∧ result.fleschScore < 80 →
        result.level = "Fairly Easy" ∧ result.grade = "7th grade") ∧
      (60 ≤ result.fleschScore ∧ result.fleschScore < 70 →
        result.level = "Standard" ∧ result.grade = "8-9th grade") ∧
      (50 ≤ result.fleschScore ∧ result.fleschScore < 60 →
        result.level = "Fairly Difficult" ∧ result.grade = "10-12th grade") ∧
      (30 ≤ result.fleschScore ∧ result.fleschScore < 50 →
        result.level = "Difficult" ∧ result.grade = "College") ∧
      (result.fleschScore < 30 →
        result.level = "Very Difficult" ∧ result.grade = "College Graduate") ∧
      (∀ other : JSString,
        result.fleschScore ≤ (calculateReadability other).fleschScore →
        hardestFirst.indexOf result.level ≤
          hardestFirst.indexOf (calculateReadability other).level) := by
  intro result table hardestFirst
  have hlevel : ∀ t : JSString, (calculateReadability t).level =
      (readingLevel (calculateReadability t).fleschScore).1 := fun _ => rfl
  have hgrade : result.grade = (readingLevel result.fleschScore).2 := rfl
  have hrank : ∀ f g : ℤ, f ≤ g →
      hardestFirst.indexOf (readingLevel f).1 ≤ hardestFirst.indexOf (readingLevel g).1 :=
    readingLevel_rank_mono
  rw [hlevel text, hgrade]
  generalize result.fleschScore = f
  refine ⟨?_, ?_, ?_, ?_, ?_, ?_, ?_, ?_, ?_⟩
  · unfold readingLevel
    split_ifs <;> simp [table, List.find?, *]
  · intro h
    unfold readingLevel
    rw [if_pos h]
    exact ⟨rfl, rfl⟩
  · rintro ⟨h1, h2⟩
    unfold readingLevel
    rw [if_neg (by omega), if_pos h1]
    exact ⟨rfl, rfl⟩
  · rintro ⟨h1, h2⟩
    unfold readingLevel
    rw [if_neg (by omega), if_neg (by omega), if_pos h1]
    exact ⟨rfl, rfl⟩
  · rintro ⟨h1, h2⟩
    unfold readingLevel
    rw [if_neg (by omega), if_neg (by omega), if_neg (by omega), if_pos h1]
    exact ⟨rfl, rfl⟩
  · rintro ⟨h1, h2⟩
    unfold readingLevel
    rw [if_neg (by omega), if_neg (by omega), if_neg (by omega), if_neg (by omega), if_pos h1]
    exact ⟨rfl, rfl⟩
  · rintro ⟨h1, h2⟩
    unfold readingLevel
    rw [if_neg (by omega), if_neg (by omega), if_neg (by omega), if_neg (by omega),
      if_neg (by omega), if_pos h1]
    exact ⟨rfl, rfl⟩
  · intro h
    unfold readingLevel
    rw [if_neg (by omega), if_neg (by omega), if_neg (by omega), if_neg (by omega),
      if_neg (by omega), if_neg (by omega)]
    exact ⟨rfl, rfl⟩
  · intro other hle
    rw [hlevel other]
    exact hrank _ _ hle

/-- C16. `countSyllables("the")` is 1 and `countSyllables("beautiful")` is 4, which is at
least 3. -/
theorem countSyllables_examples :
    countSyllables (str "the") = 1 ∧ countSyllables (str "beautiful") = 4 ∧
      3 ≤ countSyllables (str "beautiful") := by
  decide

/-- C17, as the claim states it, fails: the final `le` of `table` and the final `les` of
`tables` are not removed. -/
theorem stripSuffix_table :
    ¬ (stripSuffix (str "table") = str "tab" ∧ stripSuffix (str "tables") = str "tab") ∧
      stripSuffix (str "table") = str "table" ∧ stripSuffix (str "tables") = str "tables" := by
  decide

/-- C17, amended. For every word, before counting vowels `countSyllables` removes from the end
of the word three units `Xes`, or else two units `ed`, or else two units `Xe`, where `X` is any
unit other than `l`, `a`, `e`, `i`, `o`, `u`, `y`, and leaves a word that ends in none of these
as it is; then it removes a leading `y` if there is one. -/
theorem stripSuffix_cases (word : JSString) :
    (∀ x : Nat, isNotLOrVowel x = true ↔ x ∉ str "laeiouy") ∧
      (∀ x : Nat, isNotLOrVowel x = true → stripSuffix (word ++ x :: str "es") = word) ∧
      stripSuffix (word ++ str "ed") = word ∧
      (∀ x : Nat, isNotLOrVowel x = true → stripSuffix (word ++ x :: str "e") = word) ∧
      ((¬ ∃ stem x, isNotLOrVowel x = true ∧ word = stem ++ x :: str "es") →
        (¬ ∃ stem, word = stem ++ str "ed") →
        (¬ ∃ stem x, isNotLOrVowel x = true ∧ word = stem ++ x :: str "e") →
        stripSuffix word = word) ∧
      stripLeadingY (str "y" ++ word) = word ∧
      (word.head? ≠ some 121 → stripLeadingY word = word) ∧
      wordSyllables word =
        (if vowelGroups (stripLeadingY (stripSuffix word)) = 0 then 1
          else vowelGroups (stripLeadingY (stripSuffix word))) := by
  have hes : str "es" = [101, 115] := by decide
  have hed : str "ed" = [101, 100] := by decide
  have he : str "e" = [101] := by decide
  have hy : str "y" = [121] := by decide
  have hclass : ∀ x : Nat, isNotLOrVowel x = true ↔ x ∉ str "laeiouy" := by
    intro x
    have hl : str "laeiouy" = [108, 97, 101, 105, 111, 117, 121] := by decide
    rw [hl]
    simp [isNotLOrVowel, isVowel]
    tauto
  refine ⟨hclass, ?_, ?_, ?_, ?_, ?_, ?_, rfl⟩
  · intro x hx
    unfold stripSuffix
    rw [hes]
    simp [hx]
  · unfold stripSuffix
    rw [hed]
    simp
  · intro x hx
    unfold stripSuffix
    rw [he]
    simp [hx]
  · intro h1 h2 h3
    unfold stripSuffix
    rw [hes] at h1
    rw [hed] at h2
    rw [he] at h3
    split
    · rename_i x rest heq
      split_ifs with hx
      · exfalso
        apply h1
        refine ⟨rest.reverse, x, hx, ?_⟩
        have := congrArg List.reverse heq
        simpa using this
      · rfl
    · rename_i rest heq
      exfalso
      apply h2
      refine ⟨rest.reverse, ?_⟩
      have := congrArg List.reverse heq
      simpa using this
    · rename_i x rest heq
      split_ifs with hx
      · exfalso
        apply h3
        refine ⟨rest.reverse, x, hx, ?_⟩
        have := congrArg List.reverse heq
        simpa using this
      · rfl
    · rfl
  · rw [hy]
    rfl
  · intro h
    unfold stripLeadingY
    split
    · rename_i rest
      simp at h
    · rfl

/-! ## The Flesch score: claim C14 -/

/-- C14, as stated, fails. A text of 520 words in 14 sentences with 637 syllables has the
exact Flesch value 65.5, which rounds to 66; the code computes in doubles, gets
65.49999999999999 and returns 65. -/
theorem flesch_differs_from_exact :
    wordCount fleschBoundary = 520 ∧ sentenceCount fleschBoundary = 14 ∧
      countSyllables fleschBoundary = 637 ∧
      exactFlesch fleschBoundary = 131 / 2 ∧
      specFleschScore fleschBoundary = 66 ∧
      fleschScore fleschBoundary = 4609152743636991 / 70368744177664 ∧
      (calculateReadability fleschBoundary).fleschScore = 65 := by
  decide!

/-- C14, amended. The code evaluates the Flesch formula in doubles: every constant, quotient,
product and difference is rounded to 53 bits.  For every text the value so computed is within
`(1035 + 9 (206.835 − V)) / 2^53` of the exact value `V`; the returned score differs from the
score over exact rationals by at most 1, and equals it whenever `V + 1/2` is at least `2^-41`
away from every integer.  The two averages are printed non-negative and within
`1/20 + x / 2^53` of the exact quotient `x`; 3 words in 20 sentences print as `0.1`. -/
theorem flesch_within_rounding_error (text : JSString) :
    (calculateReadability text).fleschScore =
        max 0 (min 100 (mathRound (fleschScore text))) ∧
      |fleschScore text - exactFlesch text| ≤
        (1035 + 9 * (206835 / 1000 - exactFlesch text)) / 2 ^ 53 ∧
      |(calculateReadability text).fleschScore - specFleschScore text| ≤ 1 ∧
      (1 / 2 ^ 41 ≤ Int.fract (exactFlesch text + 1 / 2) ∧
          Int.fract (exactFlesch text + 1 / 2) ≤ 1 - 1 / 2 ^ 41 →
        (calculateReadability text).fleschScore = specFleschScore text) ∧
      (calculateReadability text).avgWordsPerSentence.negative = false ∧
      |(calculateReadability text).avgWordsPerSentence.value 1 -
          (wordCount text : ℚ) / (sentenceCount text : ℚ)| ≤
        1 / 20 + (wordCount text : ℚ) / (sentenceCount text : ℚ) / 2 ^ 53 ∧
      (calculateReadability text).avgSyllablesPerWord.negative = false ∧
      |(calculateReadability text).avgSyllablesPerWord.value 1 -
          (countSyllables text : ℚ) / (wordCount text : ℚ)| ≤
        1 / 20 + (countSyllables text : ℚ) / (wordCount text : ℚ) / 2 ^ 53 ∧
      (wordCount sparseWords = 3 ∧ sentenceCount sparseWords = 20 ∧
        (calculateReadability sparseWords).avgWordsPerSentence = ⟨false, 1⟩) := by
  have hprint : ∀ x : ℚ, 0 ≤ x →
      (toFixed 1 (roundDouble x)).negative = false ∧
        |(toFixed 1 (roundDouble x)).value 1 - x| ≤ 1 / 20 + x / 2 ^ 53 := by
    intro x hx
    have hr : 0 ≤ roundDouble x := by
      have h := (roundDouble_bounds hx).1
      have : 0 ≤ x * (1 - 1 / 2 ^ 53) := mul_nonneg hx (by norm_num)
      linarith
    obtain ⟨hneg, hnear⟩ := toFixed_value_near 1 (roundDouble x) hr
    refine ⟨hneg, ?_⟩
    have hd := abs_roundDouble_sub_le x
    rw [abs_of_nonneg hx] at hd
    have htri := abs_sub_le ((toFixed 1 (roundDouble x)).value 1) (roundDouble x) x
    norm_num at hnear
    linarith
  refine ⟨rfl, fleschScore_error text, ?_, ?_, ?_, ?_, ?_, ?_, ?_⟩
  · show |normalizedFlesch text - specFleschScore text| ≤ 1
    rcases normalizedFlesch_cases text with ⟨h1, h2⟩ | h
    · rw [h1, h2]
      decide
    · have h1 : |fleschScore text - exactFlesch text| < 1 := lt_trans h (by norm_num)
      exact clamp_dist _ _ (mathRound_dist _ _ h1)
  · rintro ⟨hlo, hhi⟩
    show normalizedFlesch text = specFleschScore text
    rcases normalizedFlesch_cases text with ⟨h1, h2⟩ | h
    · rw [h1, h2]
    · unfold normalizedFlesch specFleschScore
      rw [mathRound_eq_of_near _ _ _ h hlo hhi]
  · exact (hprint _ (by positivity)).1
  · exact (hprint _ (by positivity)).2
  · exact (hprint _ (by positivity)).1
  · exact (hprint _ (by positivity)).2
  · decide!

/-- On the example of the specification the exact Flesch value is 24.1, far from a
rounding boundary, and the score in doubles is the score over exact rationals. -/
theorem flesch_within_rounding_error_witness :
    (1 / 2 ^ 41 ≤ Int.fract (exactFlesch productReview + 1 / 2) ∧
        Int.fract (exactFlesch productReview + 1 / 2) ≤ 1 - 1 / 2 ^ 41) ∧
      (calculateReadability productReview).fleschScore = specFleschScore productReview :=
  ⟨by decide!, (flesch_within_rounding_error productReview).2.2.2.1 (by decide!)⟩

/-! ## Export: claim C18 -/

section Export

set_option maxRecDepth 1000000

/-- The export of the example of the specification, every analysis requested, parses back to
the record that was written: the text, the results and the fixed metadata. -/
theorem exportResults_productReview :
    ∃ results : AnalysisResults, analyze productReview allOptions = .ok results ∧
      jsonParse (exportResults exportTime results productReview) =
        some (.object [(str "timestamp", .string exportTime),
          (str "originalText", .string productReview), (str "analysis", results.toValue),
          (str "metadata", .object [(str "analyzer", .string (str "AI Text Analyzer v1.0")),
            (str "engine", .string (str "Advanced NLP Engine"))])]) := by
  have hsentiment : analyzeSentiment productReview =
      ⟨⟨false, 100⟩, "Positive", "😊", "#10b981", 2, 0, 10⟩ := by decide!
  have hkeywords : extractKeywords productReview =
      [⟨str "product", .count 1, some 10⟩, ⟨str "absolutely", .count 1, some 10⟩,
        ⟨str "amazing", .count 1, some 10⟩, ⟨str "love", .count 1, some 10⟩,
        ⟨str "everything", .count 1, some 10⟩] := by decide!
  have hsummary : generateSummary productReview = productReview := by decide!
  have hreadability : calculateReadability productReview =
      ⟨24, "Very Difficult", "College Graduate", ⟨false, 50⟩, ⟨false, 21⟩, 2, 10⟩ := by decide!
  refine ⟨⟨some (analyzeSentiment productReview), some (extractKeywords productReview),
    some (generateSummary productReview), some (calculateReadability productReview)⟩, ?_, ?_⟩
  · unfold analyze
    rw [if_neg (by decide)]
    rfl
  · rw [hsentiment, hkeywords, hsummary, hreadability]
    rfl

/-- C18, evaluated where it fails. For the text `constructor` and the keywords alone, the
importance of the one keyword is `NaN`; `exportResults` writes it as `null`, and the
`analysis` of the parsed record holds `null` where the results hold `NaN`. -/
theorem exportResults_constructor :
    analyze (str "constructor") keywordsOnly = .ok constructorResults ∧
      exportResults exportTime constructorResults (str "constructor") =
        str ("\x7b\n  \"timestamp\": \"2026-01-01T00:00:00.000Z\",\n" ++
          "  \"originalText\": \"constructor\",\n" ++
          "  \"analysis\": \x7b\n    \"keywords\": [\n      \x7b\n" ++
          "        \"word\": \"constructor\",\n" ++
          "        \"frequency\": \"function Object() \x7b [native code] \x7d1\",\n" ++
          "        \"importance\": null\n      \x7d\n    ]\n  \x7d,\n" ++
          "  \"metadata\": \x7b\n    \"analyzer\": \"AI Text Analyzer v1.0\",\n" ++
          "    \"engine\": \"Advanced NLP Engine\"\n  \x7d\n\x7d") ∧
      (jsonParse (exportResults exportTime constructorResults (str "constructor"))).bind
          (JSValue.get (str "analysis")) =
        some (.object [(str "keywords", .array [.object [(str "word", .string (str "constructor")),
          (str "frequency", .string (str "function Object() \x7b [native code] \x7d1")),
          (str "importance", .null)]])]) ∧
      constructorResults.toValue =
        .object [(str "keywords", .array [.object [(str "word", .string (str "constructor")),
          (str "frequency", .string (str "function Object() \x7b [native code] \x7d1")),
          (str "importance", .nan)]])] ∧
      (jsonParse (exportResults exportTime constructorResults (str "constructor"))).bind
          (JSValue.get (str "analysis")) ≠ some constructorResults.toValue := by
  have hparse : (jsonParse (exportResults exportTime constructorResults
      (str "constructor"))).bind (JSValue.get (str "analysis")) =
        some (.object [(str "keywords", .array [.object [(str "word", .string (str "constructor")),
          (str "frequency", .string (str "function Object() \x7b [native code] \x7d1")),
          (str "importance", .null)]])]) := by
    rfl
  have hvalue : constructorResults.toValue =
        .object [(str "keywords", .array [.object [(str "word", .string (str "constructor")),
          (str "frequency", .string (str "function Object() \x7b [native code] \x7d1")),
          (str "importance", .nan)]])] := by
    rfl
  refine ⟨?_, by decide!, hparse, hvalue, ?_⟩
  · unfold analyze
    rw [if_neg (by decide)]
    rfl
  · rw [hparse, hvalue]
    simp

end Export

/-! ## Examples: claims C19 and C20 -/

/-- C19, as the claim states it, fails: the text of the example has 10 words, not 12. -/
theorem productReview_wordCount :
    ¬ (calculateReadability productReview).wordCount = 12 ∧
      (matchWords productReview).map (fun word => word.length) =
        [4, 7, 2, 10, 7, 1, 4, 10, 5, 2] := by
  decide

/-- C19, amended. For the text `This product is absolutely amazing! I love everything about
it.` with all four kinds asked for, `analyze` returns the results of the four methods: the
sentiment is Positive with 2 positive words and no negative one, the keywords are `product`,
`absolutely`, `amazing`, `love`, `everything`, the summary is the text unchanged, and the
readability has `fleschScore` 24, `wordCount` 10 and `sentenceCount` 2. -/
theorem productReview_analysis :
    analyze productReview allOptions =
        .ok ⟨some (analyzeSentiment productReview), some (extractKeywords productReview),
          some (generateSummary productReview), some (calculateReadability productReview)⟩ ∧
      ((analyzeSentiment productReview).label = "Positive" ∧
        (analyzeSentiment productReview).positiveWords = 2 ∧
        (analyzeSentiment productReview).negativeWords = 0) ∧
      (extractKeywords productReview).map Keyword.word =
        [str "product", str "absolutely", str "amazing", str "love", str "everything"] ∧
      generateSummary productReview = productReview ∧
      ((calculateReadability productReview).fleschScore = 24 ∧
        (calculateReadability productReview).wordCount = 10 ∧
        (calculateReadability productReview).sentenceCount = 2) := by
  refine ⟨?_, by decide!, by decide, by decide, by decide!⟩
  unfold analyze
  rw [if_neg (by decide)]
  rfl

/-- C20. For every text whose tokens hold exactly one word of the negative lexicon and none of
the positive one, `analyzeSentiment` returns the label Negative, `negativeWords` 1,
`positiveWords` 0 and confidence 5, and `Bad.` is such a text; for every text without a
sentiment word it returns the score 0, the label Neutral and confidence 0. -/
theorem single_negative_word (text : JSString) :
    (positiveCount text = 0 → negativeCount text = 1 →
        (analyzeSentiment text).label = "Negative" ∧ (analyzeSentiment text).negativeWords = 1 ∧
          (analyzeSentiment text).positiveWords = 0 ∧ (analyzeSentiment text).confidence = 5) ∧
      (positiveCount (str "Bad.") = 0 ∧ negativeCount (str "Bad.") = 1) ∧
      (positiveCount text = 0 → negativeCount text = 0 →
        (analyzeSentiment text).score = ⟨false, 0⟩ ∧ (analyzeSentiment text).label = "Neutral" ∧
          (analyzeSentiment text).confidence = 0) := by
  have hfifth := roundDouble_one_fifth.1
  refine ⟨?_, by decide, ?_⟩
  · intro hp hn
    have hs : sentimentScore text = -1 := by
      rw [sentimentScore_eq, hp, hn]
      have : roundDouble (-1) = -1 := by decide!
      norm_num
      exact this
    have h1 : ¬ sentimentScore text > roundDouble (2 / 10) := by
      rw [hs, hfifth]
      norm_num
    have h2 : sentimentScore text < -roundDouble (2 / 10) := by
      rw [hs, hfifth]
      norm_num
    obtain ⟨hpw, hnw⟩ := analyzeSentiment_counts text
    refine ⟨?_, by rw [hnw, hn], by rw [hpw, hp], ?_⟩
    · unfold analyzeSentiment
      simp only
      rw [if_neg h1, if_pos h2]
    · rw [analyzeSentiment_confidence, hp, hn]
      decide
  · intro hp hn
    have hs : sentimentScore text = 0 := (sentimentScore_eq_zero_iff text).mpr (by rw [hp, hn])
    have h1 : ¬ sentimentScore text > roundDouble (2 / 10) := by
      rw [hs, hfifth]
      norm_num
    have h2 : ¬ sentimentScore text < -roundDouble (2 / 10) := by
      rw [hs, hfifth]
      norm_num
    refine ⟨?_, ?_, ?_⟩
    · rw [analyzeSentiment_score, hs]
      decide!
    · unfold analyzeSentiment
      simp only
      rw [if_neg h1, if_neg h2]
    · rw [analyzeSentiment_confidence, hp, hn]
      decide

/-- The text `Bad.` has one negative token and no positive one, and gets the label Negative,
the counts 1 and 0 and the confidence 5. -/
theorem single_negative_word_witness :
    (positiveCount (str "Bad.") = 0 ∧ negativeCount (str "Bad.") = 1) ∧
      (analyzeSentiment (str "Bad.")).label = "Negative" ∧
      (analyzeSentiment (str "Bad.")).negativeWords = 1 ∧
      (analyzeSentiment (str "Bad.")).positiveWords = 0 ∧
      (analyzeSentiment (str "Bad.")).confidence = 5 :=
  ⟨by decide, (single_negative_word (str "Bad.")).1 (by decide) (by decide)⟩

/-! ## The keyword extractor: claim C21 -/

/-- C21, evaluated where it fails. The token `__proto__` is longer than 3 units and no stop
word, yet it never gets an entry: on the text `__proto__` one word qualifies and the list is
empty, and on the text `alpha __proto__ __proto__` the word left out occurs twice and the
word kept once. -/
theorem extractKeywords_proto :
    qualifyingWords (str "__proto__") = [str "__proto__"] ∧
      extractKeywords (str "__proto__") = [] ∧
      qualifyingWords (str "alpha __proto__ __proto__") =
        [str "alpha", str "__proto__", str "__proto__"] ∧
      extractKeywords (str "alpha __proto__ __proto__") = [⟨str "alpha", .count 1, some 10⟩] := by
  decide

/-! ## The summarizer: claims C22 and C26 -/

/-- C22. For every text with `n > 2` sentences, the score of a sentence being the number of
tokens of the sentence in lower case, repeats counted, that are words of
`extractKeywords(text)`: the summary is made of the sentences at `min(3, ceil(n / 3))` distinct
positions, and every sentence that is not selected has a score no greater than every
selected one and, when the scores are equal, comes later in the text. -/
theorem generateSummary_top_scores (text : JSString)
    (h : 2 < (summarySentences text).length) :
    let score : Nat → Nat := fun i =>
      ((matchWords (toLowerCase ((summarySentences text).getD i []))).filter (fun word =>
        ((extractKeywords text).map Keyword.word).contains word)).length
    ∃ selected : List Nat,
      selected.Nodup ∧
      selected.length = min 3 ⌈((summarySentences text).length : ℚ) / 3⌉.toNat ∧
      (∀ i ∈ selected, i < (summarySentences text).length) ∧
      generateSummary text =
        (str " ").intercalate
          (selected.map fun i => trim ((summarySentences text).getD i [])) ∧
      ∀ i ∈ selected, ∀ j, j < (summarySentences text).length → j ∉ selected →
        score j ≤ score i ∧ (score j = score i → i < j) := by
  intro score
  obtain ⟨positions, hnodup, hlen, hlt, heq, hsel⟩ := sort_take_sort_selection
    (summarySentences text)
    (fun sentence => (trim sentence,
      ((matchWords (toLowerCase sentence)).filter (fun word =>
        ((extractKeywords text).map Keyword.word).contains word)).length))
    (fun p => (p.2 : ℤ))
    (fun a b => some (indexOf (summarySentences text) a.1 - indexOf (summarySentences text) b.1))
    (min 3 ⌈roundDouble (((summarySentences text).length : ℚ) / 3)⌉.toNat)
    Prod.fst
  refine ⟨positions, hnodup, ?_, hlt, ?_, ?_⟩
  · rw [hlen, summary_size]
    have : min 3 ⌈((summarySentences text).length : ℚ) / 3⌉.toNat ≤ 3 := Nat.min_le_left _ _
    omega
  · unfold generateSummary
    simp only
    rw [if_neg (by omega), heq]
  · intro i hi j hj hnot
    have := hsel i hi j hj hnot
    simp only [Nat.cast_le, Nat.cast_inj] at this
    exact this

/-- The first sample text of the application has 4 sentences with the scores 3, 2, 4, 1; the
third and the first are selected. -/
theorem generateSummary_top_scores_witness :
    2 < (summarySentences sampleText).length ∧
      (List.range 4).map (fun i =>
        ((matchWords (toLowerCase ((summarySentences sampleText).getD i []))).filter
          (fun word => ((extractKeywords sampleText).map Keyword.word).contains word)).length) =
        [3, 2, 4, 1] ∧
      ∃ selected : List Nat,
        selected.Nodup ∧
        selected.length = min 3 ⌈((summarySentences sampleText).length : ℚ) / 3⌉.toNat ∧
        (∀ i ∈ selected, i < (summarySentences sampleText).length) ∧
        generateSummary sampleText =
          (str " ").intercalate
            (selected.map fun i => trim ((summarySentences sampleText).getD i [])) ∧
        ∀ i ∈ selected, ∀ j, j < (summarySentences sampleText).length → j ∉ selected →
          ((matchWords (toLowerCase ((summarySentences sampleText).getD j []))).filter
              (fun word =>
                ((extractKeywords sampleText).map Keyword.word).contains word)).length ≤
            ((matchWords (toLowerCase ((summarySentences sampleText).getD i []))).filter
              (fun word =>
                ((extractKeywords sampleText).map Keyword.word).contains word)).length ∧
          (((matchWords (toLowerCase ((summarySentences sampleText).getD j []))).filter
              (fun word =>
                ((extractKeywords sampleText).map Keyword.word).contains word)).length =
            ((matchWords (toLowerCase ((summarySentences sampleText).getD i []))).filter
              (fun word =>
                ((extractKeywords sampleText).map Keyword.word).contains word)).length →
            i < j) :=
  ⟨by decide, by decide, generateSummary_top_scores sampleText (by decide)⟩

/-- C26. For every text, `generateSummary(text)` is no longer than `text`: it is `text`, and so
of the same length, when `text` has at most 2 sentences, and it is strictly shorter when
`text` has more than 2 sentences.  The first sample text of the application has 157 units and
its summary 99. -/
theorem generateSummary_length (text : JSString) :
    (generateSummary text).length ≤ text.length ∧
      ((summarySentences text).length ≤ 2 →
        (generateSummary text).length = text.length) ∧
      (2 < (summarySentences text).length →
        (generateSummary text).length < text.length) ∧
      (sampleText.length = 157 ∧ (generateSummary sampleText).length = 99) := by
  have hshort : (summarySentences text).length ≤ 2 → generateSummary text = text := by
    intro h
    unfold generateSummary
    simp only
    rw [if_pos h]
  refine ⟨?_, fun h => by rw [hshort h], generateSummary_lt text, by decide!⟩
  by_cases h : (summarySentences text).length ≤ 2
  · rw [hshort h]
  · exact (generateSummary_lt text (by omega)).le

/-! ## The syllable estimate: claim C23 -/

/-- C23. For every word, with `rest` the word left after the suffix and the leading `y` are
stripped, the number of matches counted in `rest` is the sum over the maximal runs of
consecutive vowels of `rest` of half the length of the run rounded up; the estimate of the
word is that sum, or 1 when the sum is 0, which is so when no vowel is left; hence every word
adds at least 1, and `countSyllables(text)` is at least the number of tokens it goes through,
those of the text in lower case.  The runs of `beautiful` have the lengths 3, 1, 1. -/
theorem syllables_by_runs (word text : JSString) :
    vowelGroups (stripLeadingY (stripSuffix word)) =
        ((vowelRuns (stripLeadingY (stripSuffix word))).map (fun n => (n + 1) / 2)).sum ∧
      wordSyllables word =
        max 1 ((vowelRuns (stripLeadingY (stripSuffix word))).map (fun n => (n + 1) / 2)).sum ∧
      ((∀ c ∈ stripLeadingY (stripSuffix word), isVowel c = false) → wordSyllables word = 1) ∧
      1 ≤ wordSyllables word ∧
      (matchWords (toLowerCase text)).length ≤ countSyllables text ∧
      vowelRuns (str "beautiful") = [3, 1, 1] := by
  have hruns := vowelGroups_eq_runs (stripLeadingY (stripSuffix word))
  have hword : wordSyllables word =
      max 1 ((vowelRuns (stripLeadingY (stripSuffix word))).map (fun n => (n + 1) / 2)).sum := by
    unfold wordSyllables
    simp only
    rw [hruns]
    split_ifs with h0
    · rw [h0]
      rfl
    · omega
  refine ⟨hruns, hword, ?_, one_le_wordSyllables word, ?_, by decide⟩
  · intro hnone
    rw [hword, vowelRuns_eq_nil _ hnone]
    rfl
  · unfold countSyllables
    exact length_le_sum_of_mem wordSyllables _ (fun w _ => one_le_wordSyllables w)

/-! ## Algebraic properties: claims C24 and C25 -/

/-- C24. For all texts `a` and `b`, `countSyllables(a + ' ' + b)` is
`countSyllables(a) + countSyllables(b)`: the total is the sum of the estimates of the tokens,
and the tokens of the joined text are the tokens of `a` followed by the tokens of `b`. -/
theorem countSyllables_join (a b : JSString) :
    countSyllables (a ++ str " " ++ b) = countSyllables a + countSyllables b ∧
      matchWords (toLowerCase (a ++ str " " ++ b)) =
        matchWords (toLowerCase a) ++ matchWords (toLowerCase b) ∧
      countSyllables a = ((matchWords (toLowerCase a)).map wordSyllables).sum := by
  have htokens : matchWords (toLowerCase (a ++ str " " ++ b)) =
      matchWords (toLowerCase a) ++ matchWords (toLowerCase b) := by
    have hspace : toLowerCase (str " ") = [32] := by decide
    rw [toLowerCase_append, toLowerCase_append, hspace, List.append_assoc, List.singleton_append]
    exact matchWords_append_separator _ _ 32 (by decide)
  refine ⟨?_, htokens, rfl⟩
  unfold countSyllables
  rw [htokens, List.map_append, List.sum_append]

/-- C25. For every text of ASCII characters, `analyzeSentiment` and `extractKeywords` return
on the text in lower case and on the text in upper case what they return on the text. -/
theorem case_insensitive (text : JSString) (hascii : ∀ c ∈ text, c < 128) :
    toLowerCase text = text.map (fun c => if 65 ≤ c ∧ c ≤ 90 then c + 32 else c) ∧
      analyzeSentiment (toLowerCase text) = analyzeSentiment text ∧
      analyzeSentiment (upperCaseAscii text) = analyzeSentiment text ∧
      extractKeywords (toLowerCase text) = extractKeywords text ∧
      extractKeywords (upperCaseAscii text) = extractKeywords text := by
  refine ⟨?_, analyzeSentiment_congr (toLowerCase_idem text),
    analyzeSentiment_congr (toLowerCase_upperCaseAscii text hascii),
    extractKeywords_congr (toLowerCase_idem text),
    extractKeywords_congr (toLowerCase_upperCaseAscii text hascii)⟩
  induction text with
  | nil => rfl
  | cons c cs ih =>
    have hc : c < 128 := hascii c (List.mem_cons_self _ _)
    have hcs := ih (fun d hd => hascii d (List.mem_cons_of_mem _ hd))
    unfold toLowerCase at hcs ⊢
    rw [List.flatMap_cons, List.map_cons, hcs]
    unfold lowerUnit
    split_ifs with h1 h2 h3
    · rfl
    · omega
    · omega
    · rfl

/-- The text `Good product, BAD Service` is ASCII; in upper case it reads
`GOOD PRODUCT, BAD SERVICE` and gets the same sentiment and the same keywords. -/
theorem case_insensitive_witness :
    (∀ c ∈ str "Good product, BAD Service", c < 128) ∧
      upperCaseAscii (str "Good product, BAD Service") = str "GOOD PRODUCT, BAD SERVICE" ∧
      analyzeSentiment (str "GOOD PRODUCT, BAD SERVICE") =
        analyzeSentiment (str "Good product, BAD Service") ∧
      extractKeywords (str "GOOD PRODUCT, BAD SERVICE") =
        extractKeywords (str "Good product, BAD Service") :=
  have h := case_insensitive (str "Good product, BAD Service") (by decide)
  have hupper : upperCaseAscii (str "Good product, BAD Service") =
      str "GOOD PRODUCT, BAD SERVICE" := by decide
  ⟨by decide, hupper, hupper ▸ h.2.2.1, hupper ▸ h.2.2.2.2⟩

end AIEngine
